import Mathlib

/-!
Modular NTT (`NTT.cpp`): embedding and specification theorems.

The C++ `int`, `int64_t`, `unsigned` and `uint64_t` values are modelled by `Int`, with an explicit
wrap-around wherever a machine operation could leave its type.  `vector<T>` is a `List`; the
element access `v[i]` is `List.getD` and the store `v[i] = x` is `List.set`.
-/

/-- Wrap-around of a value into the range of a 32-bit `int`. -/
@[irreducible] def wrap32 (x : Int) : Int := (x + 2147483648) % 4294967296 - 2147483648

/-- Wrap-around of a value into the range of an `int64_t`. -/
@[irreducible] def wrap64 (x : Int) : Int := (x + 9223372036854775808) % 18446744073709551616 - 9223372036854775808

/-- Conversion to `unsigned`. -/
@[irreducible] def u32 (x : Int) : Int := x % 4294967296

/-- Conversion to `uint64_t`. -/
@[irreducible] def u64 (x : Int) : Int := x % 18446744073709551616

/-- The modulus, `extern const int MOD = 998244353`. -/
def MOD : Int := 998244353

/-- The type `_m_int<MOD>` (`mod_int`, `ntt_int`): its only field is `int val`. -/
structure mod_int where
  val : Int
deriving DecidableEq

namespace mod_int

/-- Constructor `_m_int(int64_t v = 0)`. -/
def ctor (v : Int) : mod_int :=
  let v1 := if v < 0 then wrap64 (wrap64 (Int.tmod v MOD) + MOD) else v
  let v2 := if v1 ≥ MOD then Int.tmod v1 MOD else v1
  ⟨wrap32 v2⟩

/-- The loop of `mod_inv`, on the variables `g r x y`; the first argument bounds the number of
iterations (`|r|` decreases strictly, so `|r| + 1` iterations are never exhausted). It returns
`x`. -/
def mod_inv_loop : Nat → Int → Int → Int → Int → Int
  | 0, _, _, x, _ => x
  | fuel + 1, g, r, x, y =>
    if r ≠ 0 then
      let q := wrap32 (Int.tdiv g r)
      let g1 := Int.tmod g r
      let x1 := wrap32 (x - wrap32 (q * y))
      mod_inv_loop fuel r g1 y x1
    else x

/-- The function `static int mod_inv(int a, int m = MOD)`. -/
def mod_inv (a : Int) (m : Int) : Int :=
  let x := mod_inv_loop (a.natAbs + 1) m a 0 1
  if x < 0 then wrap32 (x + m) else x

/-- The operator `+=`. -/
def add_assign (a other : mod_int) : mod_int :=
  let v := wrap32 (a.val - wrap32 (MOD - other.val))
  ⟨if v < 0 then wrap32 (v + MOD) else v⟩

/-- The operator `-=`. -/
def sub_assign (a other : mod_int) : mod_int :=
  let v := wrap32 (a.val - other.val)
  ⟨if v < 0 then wrap32 (v + MOD) else v⟩

/-- The function `fast_mod(uint64_t x, unsigned m = MOD)`, portable branch `return x % m`. -/
def fast_mod (x : Int) (m : Int) : Int := u32 (x % m)

/-- The operator `*=`: `val = fast_mod((uint64_t) val * other.val)`. -/
def mul_assign (a other : mod_int) : mod_int :=
  ⟨wrap32 (fast_mod (u64 (u64 a.val * u64 other.val)) (u32 MOD))⟩

/-- The member `inv()`: `return mod_inv(val)`, converted by the constructor. -/
def inv (a : mod_int) : mod_int := ctor (mod_inv a.val MOD)

/-- The operator `/=`: `*this *= other.inv()`. -/
def div_assign (a other : mod_int) : mod_int := mul_assign a (inv other)

/-- Binary `+`: `_m_int(a) += b`. -/
def add (a b : mod_int) : mod_int := add_assign a b

/-- Binary `-`: `_m_int(a) -= b`. -/
def sub (a b : mod_int) : mod_int := sub_assign a b

/-- Binary `*`: `_m_int(a) *= b`. -/
def mul (a b : mod_int) : mod_int := mul_assign a b

/-- Binary `/`: `_m_int(a) /= b`. -/
def div (a b : mod_int) : mod_int := div_assign a b

/-- Pre-increment `++x`. -/
def pre_inc (a : mod_int) : mod_int :=
  ⟨if a.val = wrap32 (MOD - 1) then 0 else wrap32 (a.val + 1)⟩

/-- Pre-decrement `--x`. -/
def pre_dec (a : mod_int) : mod_int :=
  ⟨if a.val = 0 then wrap32 (MOD - 1) else wrap32 (a.val - 1)⟩

/-- Post-increment `x++`: the pair (returned value, new value of `x`). -/
def post_inc (a : mod_int) : mod_int × mod_int := (a, pre_inc a)

/-- Post-decrement `x--`: the pair (returned value, new value of `x`). -/
def post_dec (a : mod_int) : mod_int × mod_int := (a, pre_dec a)

/-- Unary minus: `return val == 0 ? 0 : MOD - val`, converted by the constructor. -/
def neg (a : mod_int) : mod_int :=
  ctor (if a.val = 0 then 0 else wrap32 (MOD - a.val))

/-- The loop `while (p > 0)` of `pow`, on the variables `a result p`; the first argument bounds
the number of iterations (64 are never exhausted, `p` being an `int64_t` that is halved). -/
def pow_loop : Nat → mod_int → mod_int → Int → mod_int
  | 0, _, result, _ => result
  | fuel + 1, a, result, p =>
    if p > 0 then
      let result1 := if Int.land p 1 ≠ 0 then mul_assign result a else result
      pow_loop fuel (mul_assign a a) result1 (p >>> (1 : Nat))
    else result

/-- The member `pow(int64_t p)`. The first argument bounds the depth of the recursive call
`inv().pow(-p)`; `none` stands for a recursion deeper than that. -/
def pow (depth : Nat) (a : mod_int) (p : Int) : Option mod_int :=
  if p < 0 then
    match depth with
    | 0 => none
    | d + 1 => pow d (inv a) (wrap64 (-p))
  else some (pow_loop 64 a (ctor 1) p)

/-- The comparison `==`. -/
def eq (a b : mod_int) : Bool := a.val == b.val

/-- The comparison `!=`. -/
def ne (a b : mod_int) : Bool := a.val != b.val

end mod_int

/-- The range of an `int`. -/
def in_int32 (x : Int) : Prop := -2147483648 ≤ x ∧ x < 2147483648

instance (x : Int) : Decidable (in_int32 x) := by
  unfold in_int32
  exact inferInstance

/-- The loop of `mod_inv` once more, on exact integers: `none` when the quotient `g / r`, the
product `q * y` or the difference `x - q * y` leaves the range of `int`, and when the fuel is
used up before `r == 0`. -/
def mod_inv_exact_loop : Nat → Int → Int → Int → Int → Option Int
  | 0, _, r, x, _ => if r ≠ 0 then none else some x
  | fuel + 1, g, r, x, y =>
    if r ≠ 0 then
      let q := Int.tdiv g r
      let g1 := Int.tmod g r
      if in_int32 q ∧ in_int32 (q * y) ∧ in_int32 (x - q * y) then
        mod_inv_exact_loop fuel r g1 y (x - q * y)
      else none
    else some x

/-- The stored value is canonical: `0 <= val < MOD`. -/
def canonical (a : mod_int) : Prop := 0 ≤ a.val ∧ a.val < MOD

instance (a : mod_int) : Decidable (canonical a) := by
  unfold canonical; exact inferInstance

/-- The residue class of the stored value in `ZMod 998244353`. -/
def mod_int.toZ (a : mod_int) : ZMod 998244353 := (a.val : ZMod 998244353)

/-- The builtin `__builtin_ctz` on the 32 bits of its argument (32 for a zero argument, where the
builtin is undefined): the loop counts the trailing zero bits. -/
def builtin_ctz_loop : Nat → Int → Nat
  | 0, _ => 0
  | fuel + 1, x => if x % 2 = 0 then builtin_ctz_loop fuel (x / 2) + 1 else 0

/-- The builtin `__builtin_ctz(x)`. -/
def builtin_ctz (x : Int) : Nat := builtin_ctz_loop 32 (u32 x)

/-- The builtin `__builtin_clz` on the 32 bits of its argument (32 for a zero argument, where the
builtin is undefined): the loop counts the leading zero bits. -/
def builtin_clz_loop : Nat → Int → Nat
  | 0, _ => 0
  | fuel + 1, x => if x < 2147483648 then builtin_clz_loop fuel (2 * x) + 1 else 0

/-- The builtin `__builtin_clz(x)`. -/
def builtin_clz (x : Int) : Nat := builtin_clz_loop 32 (u32 x)

/-- The operator `&` on two `int`: the bitwise and of the two 32-bit patterns. -/
def and32 (a b : Int) : Int := wrap32 (((u32 a).toNat &&& (u32 b).toNat : Nat) : Int)

/-- The operator `|` on two `int`: the bitwise or of the two 32-bit patterns. -/
def or32 (a b : Int) : Int := wrap32 (((u32 a).toNat ||| (u32 b).toNat : Nat) : Int)

/-- The function `std::max` on two `int`. -/
def int_max (a b : Int) : Int := if a < b then b else a

/-- The function `std::min` on two `int`. -/
def int_min (a b : Int) : Int := if b < a then b else a

/-- The call `v.resize(n, x)` of a vector. -/
def vector_resize {α : Type} (v : List α) (n : Nat) (x : α) : List α :=
  v.take n ++ List.replicate (n - v.length) x

/-- The call `swap(v[i], v[j])`. -/
def vector_swap {α : Type} (v : List α) (i j : Nat) (d : α) : List α :=
  (v.set i (v.getD j d)).set j (v.getD i d)

/-- The engine `NTT<MOD>`: the cached fields `roots`, `bit_reverse`, `max_size` and `root`. -/
structure NTT where
  roots : List mod_int
  bit_reverse : List Nat
  max_size : Int
  root : mod_int
deriving DecidableEq

namespace NTT

/-- A freshly constructed engine: `roots = {0, 1}`, `bit_reverse` empty, `max_size = -1`, and
`root` default-constructed. -/
def init : NTT :=
  { roots := [mod_int.ctor 0, mod_int.ctor 1], bit_reverse := [], max_size := -1,
    root := mod_int.ctor 0 }

/-- The member `reset()`. -/
def reset (s : NTT) : NTT :=
  { s with roots := [mod_int.ctor 0, mod_int.ctor 1], max_size := -1 }

/-- The function `is_power_of_two(int n)`: `(n & (n - 1)) == 0`. -/
def is_power_of_two (n : Int) : Bool := and32 n (wrap32 (n - 1)) == 0

/-- The loop of `round_up_power_two`; every iteration clears the lowest set bit of `n` into a
carry, so 32 iterations are never exhausted on a 32-bit `int`. -/
def round_up_loop : Nat → Int → Int
  | 0, n => n
  | fuel + 1, n =>
    if and32 n (wrap32 (n - 1)) ≠ 0 then
      round_up_loop fuel (wrap32 (or32 n (wrap32 (n - 1)) + 1))
    else n

/-- The function `round_up_power_two(int n)`. -/
def round_up_power_two (n : Int) : Int := int_max (round_up_loop 32 n) 1

/-- The function `get_length(int n)`: `none` when the assertion `is_power_of_two(n)` fails. -/
def get_length (n : Int) : Option Nat :=
  if is_power_of_two n then some (builtin_ctz n) else none

/-- The loop `for (int i = 1; i < n; i++)` of `bit_reorder` that fills the table. -/
def bit_reverse_fill (length n : Nat) (table : List Nat) : List Nat :=
  (List.range' 1 (n - 1)).foldl
    (fun t i => t.set i ((t.getD (i >>> 1) 0 >>> 1) ||| ((i &&& 1) <<< (length - 1)))) table

/-- The loop `for (int i = 0; i < n; i++)` of `bit_reorder` that swaps the values. -/
def bit_reorder_swaps (table : List Nat) (n : Nat) (values : List mod_int) : List mod_int :=
  (List.range n).foldl
    (fun v i => if i < table.getD i 0 then vector_swap v i (table.getD i 0) (mod_int.ctor 0) else v)
    values

/-- The member `bit_reorder(int n, vector<ntt_int> &values)`. -/
@[irreducible] def bit_reorder (s : NTT) (n : Int) (values : List mod_int) : Option (NTT × List mod_int) :=
  if (s.bit_reverse.length : Int) ≠ n then
    match get_length n with
    | none => none
    | some length =>
      let table := bit_reverse_fill length n.toNat (List.replicate n.toNat 0)
      some ({ s with bit_reverse := table }, bit_reorder_swaps table n.toNat values)
  else some (s, bit_reorder_swaps s.bit_reverse n.toNat values)

/-- The loop `while (!(root.pow(max_size) == 1 && root.pow(max_size / 2) != 1)) root++` of
`find_root`; the first argument bounds the number of candidates tried, `none` when it is
exhausted. -/
def find_root_loop : Nat → Int → mod_int → Option mod_int
  | 0, _, _ => none
  | fuel + 1, max_size, root =>
    match mod_int.pow 1 root max_size with
    | none => none
    | some a =>
      if mod_int.eq a (mod_int.ctor 1) then
        match mod_int.pow 1 root (Int.tdiv max_size 2) with
        | none => none
        | some b =>
          if mod_int.ne b (mod_int.ctor 1) then some root
          else find_root_loop fuel max_size (mod_int.post_inc root).2
      else find_root_loop fuel max_size (mod_int.post_inc root).2

/-- The member `find_root()`: `max_size = 1 << __builtin_ctz(MOD - 1)`, `root = 2`, then the
search; the modulus has `MOD` residues, which bounds the search. -/
def find_root (s : NTT) : Option NTT :=
  let max_size := wrap32 (2 ^ builtin_ctz (wrap32 (MOD - 1)))
  match find_root_loop MOD.toNat max_size (mod_int.ctor 2) with
  | none => none
  | some root => some { s with max_size := max_size, root := root }

/-- The loop `for (int i = 1 << (length - 1); i < 1 << length; i++)` of `prepare_roots`. -/
def prepare_roots_fill (z : mod_int) (length : Nat) (roots : List mod_int) : List mod_int :=
  (List.range' (1 <<< (length - 1)) (1 <<< length - 1 <<< (length - 1))).foldl
    (fun r i =>
      let r1 := r.set (2 * i) (r.getD i (mod_int.ctor 0))
      r1.set (2 * i + 1) (mod_int.mul (r1.getD i (mod_int.ctor 0)) z))
    roots

/-- The loop `while (1 << length < n)` of `prepare_roots`; `length` grows by one per iteration
and stays below the 32 bits of an `int`. -/
def prepare_roots_loop (root : mod_int) (max_size n : Int) :
    Nat → Nat → List mod_int → Option (List mod_int)
  | 0, _, _ => none
  | fuel + 1, length, roots =>
    if wrap32 (2 ^ length) < n then
      match mod_int.pow 1 root (max_size >>> (length + 1)) with
      | none => none
      | some z => prepare_roots_loop root max_size n fuel (length + 1)
          (prepare_roots_fill z length roots)
    else some roots

/-- The member `prepare_roots(int n)`: `none` when an assertion fails. -/
@[irreducible] def prepare_roots (s : NTT) (n : Int) : Option NTT :=
  match (if s.max_size < 0 then find_root s else some s) with
  | none => none
  | some s1 =>
    if ¬ n ≤ s1.max_size then none
    else if (s1.roots.length : Int) ≥ n then some s1
    else
      match get_length s1.roots.length with
      | none => none
      | some length =>
        match prepare_roots_loop s1.root s1.max_size n 32 length
            (vector_resize s1.roots n.toNat (mod_int.ctor 0)) with
        | none => none
        | some roots => some { s1 with roots := roots }

/-- A sequence of calls `prepare_roots(n_1); ...; prepare_roots(n_k)` on one engine. -/
def prepare_roots_seq : NTT → List Int → Option NTT
  | s, [] => some s
  | s, n :: ns => (prepare_roots s n).bind (fun s1 => prepare_roots_seq s1 ns)

/-- The body of the innermost loop of `fft_iterative`. -/
def butterfly (roots : List mod_int) (n start i : Nat) (values : List mod_int) : List mod_int :=
  let even := values.getD (start + i) (mod_int.ctor 0)
  let odd := mod_int.mul (values.getD (start + n + i) (mod_int.ctor 0))
    (roots.getD (n + i) (mod_int.ctor 0))
  let values1 := values.set (start + n + i) (mod_int.sub even odd)
  values1.set (start + i) (mod_int.add even odd)

/-- The loop `for (int i = 0; i < n; i++)` of `fft_iterative`. -/
def fft_block (roots : List mod_int) (n start : Nat) (values : List mod_int) : List mod_int :=
  (List.range n).foldl (fun v i => butterfly roots n start i v) values

/-- The loop `for (int start = 0; start < N; start += 2 * n)` of `fft_iterative`; it makes at most
`N` iterations. -/
def fft_pass (roots : List mod_int) (N n : Nat) : Nat → Nat → List mod_int → List mod_int
  | 0, _, values => values
  | fuel + 1, start, values =>
    if start < N then fft_pass roots N n fuel (start + 2 * n) (fft_block roots n start values)
    else values

/-- The loop `for (int n = 1; n < N; n *= 2)` of `fft_iterative`; it makes at most `N`
iterations. -/
def fft_passes (roots : List mod_int) (N : Nat) : Nat → Nat → List mod_int → List mod_int
  | 0, _, values => values
  | fuel + 1, n, values =>
    if n < N then fft_passes roots N fuel (n * 2) (fft_pass roots N n N 0 values)
    else values

/-- The member `fft_iterative(int N, vector<ntt_int> &values)`: the new state of the engine and
the new contents of `values`, `none` when an assertion fails. -/
@[irreducible] def fft_iterative (s : NTT) (N : Int) (values : List mod_int) : Option (NTT × List mod_int) :=
  if ¬ is_power_of_two N then none
  else
    match prepare_roots s N with
    | none => none
    | some s1 =>
      match bit_reorder s1 N values with
      | none => none
      | some (s2, values1) => some (s2, fft_passes s2.roots N.toNat N.toNat 1 values1)

/-- The call `reverse(values.begin() + 1, values.end())`. -/
def reverse_tail (values : List mod_int) : List mod_int :=
  values.take 1 ++ (values.drop 1).reverse

/-- The member `invert_fft(int N, vector<ntt_int> &values)`. -/
@[irreducible] def invert_fft (s : NTT) (N : Int) (values : List mod_int) : Option (NTT × List mod_int) :=
  let inv_N := mod_int.inv (mod_int.ctor N)
  let values1 := (List.range N.toNat).foldl
    (fun v i => v.set i (mod_int.mul_assign (v.getD i (mod_int.ctor 0)) inv_N)) values
  fft_iterative s N (reverse_tail values1)

/-- The constant `FFT_CUTOFF`. -/
def FFT_CUTOFF : Int := 150

/-- The constant `U64_BOUND = numeric_limits<uint64_t>::max() - (uint64_t) MOD * MOD`. -/
def U64_BOUND : Int := u64 (18446744073709551615 - u64 (u64 MOD * u64 MOD))

/-- The lambda `mod_output_size` of the brute-force branch. -/
def mod_output_size (output_size x : Int) : Int :=
  if x < output_size then x else wrap32 (x - output_size)

/-- The body of the double loop of the brute-force branch, on the accumulators `result`. -/
def brute_step (left right : List mod_int) (output_size : Int) (i j : Nat) (result : List Int) :
    List Int :=
  let index := (mod_output_size output_size (wrap32 (i + j))).toNat
  let r1 := u64 (result.getD index 0 +
    u64 (u64 (wrap64 (left.getD i (mod_int.ctor 0)).val) *
      u64 (wrap64 (right.getD j (mod_int.ctor 0)).val)))
  let r2 := if r1 > U64_BOUND then r1 % u64 MOD else r1
  result.set index r2

/-- The brute-force branch of `mod_multiply`, from the declaration of `result` to the `return`;
the elements of the returned `vector<T>` are converted from `uint64_t`. -/
@[irreducible] def mod_multiply_brute (left right : List mod_int) (output_size : Int) : List Int :=
  let result0 : List Int := List.replicate output_size.toNat 0
  let result1 := (List.range left.length).foldl
    (fun r i => (List.range right.length).foldl (fun r j => brute_step left right output_size i j r)
      r) result0
  let result2 := result1.map (fun x => if x ≥ u64 MOD then x % u64 MOD else x)
  result2.map wrap64

/-- The body of the double loop of the brute-force branch once more, with the arithmetic
checked: `none` when `i + j` leaves the range of `int`, when the index that `mod_output_size`
gives is not a position of `result`, when the accumulator read is above `U64_BOUND`, when the
product is not below `MOD * MOD`, or when the sum does not fit 64 unsigned bits. -/
def brute_step_checked (left right : List mod_int) (output_size : Int) (i j : Nat)
    (result : List Int) : Option (List Int) :=
  let index := mod_output_size output_size (wrap32 (i + j))
  let product := (left.getD i (mod_int.ctor 0)).val * (right.getD j (mod_int.ctor 0)).val
  if in_int32 ((i : Int) + (j : Int)) ∧ 0 ≤ index ∧ index < output_size ∧
      index.toNat < result.length ∧ result.getD index.toNat 0 ≤ U64_BOUND ∧
      0 ≤ product ∧ product < MOD * MOD ∧
      result.getD index.toNat 0 + product ≤ 18446744073709551615 then
    some (brute_step left right output_size i j result)
  else none

/-- The brute-force branch of `mod_multiply` with the checked loop body. -/
def mod_multiply_brute_checked (left right : List mod_int) (output_size : Int) :
    Option (List Int) :=
  let result0 : List Int := List.replicate output_size.toNat 0
  let result1 := (List.range left.length).foldl
    (fun r i => (List.range right.length).foldl
      (fun r j => r.bind (brute_step_checked left right output_size i j)) r) (some result0)
  result1.bind (fun r =>
    some ((r.map (fun x => if x ≥ u64 MOD then x % u64 MOD else x)).map wrap64))

/-- The transform branch of `mod_multiply`, from `int N = round_up_power_two(output_size)` to the
`return`; the elements of the returned `vector<T>` are converted by `operator int64_t`. An
assertion that fails in one of the transforms ends the branch with `none`. -/
@[irreducible] def mod_multiply_transform (s : NTT) (left right : List mod_int) (output_size : Int) :
    Option (NTT × List Int) :=
  let N := round_up_power_two output_size
  let left1 := vector_resize left N.toNat (mod_int.ctor 0)
  let right1 := vector_resize right N.toNat (mod_int.ctor 0)
  (if left1 = right1 then
      (fft_iterative s N left1).bind (fun r => some (r.1, r.2, r.2))
    else
      (fft_iterative s N left1).bind (fun r1 =>
        (fft_iterative r1.1 N right1).bind (fun r2 => some (r2.1, r1.2, r2.2)))).bind
    (fun t =>
      (invert_fft t.1 N
        ((List.range N.toNat).foldl
          (fun v i => v.set i (mod_int.mul_assign (v.getD i (mod_int.ctor 0))
            (t.2.2.getD i (mod_int.ctor 0)))) t.2.1)).bind
        (fun r => some (r.1, (r.2.take output_size.toNat).map (fun x => x.val))))

/-- The member `mod_multiply(_left, _right, circular)` for `T` an integer type (`int64_t`):
the new state of the engine and the returned vector. -/
@[irreducible] def mod_multiply (s : NTT) (left_ right_ : List Int) (circular : Bool) :
    Option (NTT × List Int) :=
  if left_.isEmpty || right_.isEmpty then some (s, [])
  else
    let left := left_.map mod_int.ctor
    let right := right_.map mod_int.ctor
    let n : Int := left.length
    let m : Int := right.length
    let output_size := if circular then round_up_power_two (int_max n m) else n + m - 1
    if int_min n m < FFT_CUTOFF then some (s, mod_multiply_brute left right output_size)
    else mod_multiply_transform s left right output_size

/-- The loop `for (int k = 31 - __builtin_clz(exponent); k >= 0; k--)` of `mod_power`; the
first argument is `k + 1`. -/
def mod_power_loop (v : List Int) (exponent : Int) : Nat → NTT → List Int → Option (NTT × List Int)
  | 0, s, result => some (s, result)
  | k + 1, s, result =>
    match mod_multiply s result result false with
    | none => none
    | some (s1, result1) =>
      if Int.land (exponent >>> k) 1 ≠ 0 then
        match mod_multiply s1 result1 v false with
        | none => none
        | some (s2, result2) => mod_power_loop v exponent k s2 result2
      else mod_power_loop v exponent k s1 result1

/-- The member `mod_power(v, exponent)`: `none` when the assertion `exponent >= 0` fails. -/
def mod_power (s : NTT) (v : List Int) (exponent : Int) : Option (NTT × List Int) :=
  if ¬ exponent ≥ 0 then none
  else if exponent = 0 then some (s, [1])
  else mod_power_loop v exponent (31 - builtin_clz exponent + 1) s [1]

/-- The loop `while (pq.size() > 1)` of `mod_multiply_all` and the final `return pq.top()`. The
queue is the list of its elements, and `top t pq` gives the position of the element that the
call number `t` of `pq.top()` returns: the standard leaves open which of several shortest
elements that is, and the choice may differ from call to call. The first argument bounds the
number of iterations (the queue loses one element per iteration). -/
def mod_multiply_all_loop (top : Nat → List (List Int) → Nat) :
    Nat → NTT → List (List Int) → Option (NTT × List Int)
  | 0, _, _ => none
  | fuel + 1, s, pq =>
    if pq.length > 1 then
      let a := pq.getD (top (2 * fuel + 1) pq) []
      let pq1 := pq.eraseIdx (top (2 * fuel + 1) pq)
      let b := pq1.getD (top (2 * fuel) pq1) []
      let pq2 := pq1.eraseIdx (top (2 * fuel) pq1)
      match mod_multiply s a b false with
      | none => none
      | some (s1, ab) => mod_multiply_all_loop top fuel s1 (pq2 ++ [ab])
    else some (s, pq.getD (top (2 * fuel + 1) pq) [])

/-- The member `mod_multiply_all(polynomials)`. -/
def mod_multiply_all (top : Nat → List (List Int) → Nat) (s : NTT)
    (polynomials : List (List Int)) : Option (NTT × List Int) :=
  if polynomials.isEmpty then some (s, [1])
  else mod_multiply_all_loop top polynomials.length s polynomials

end NTT

/-- What `priority_queue<vector<T>, vector<vector<T>>, compare_size>::top()` guarantees: the
returned element is in the queue and no element of the queue is shorter. -/
def IsQueueTop (top : Nat → List (List Int) → Nat) : Prop :=
  ∀ (t : Nat) (pq : List (List Int)), pq ≠ [] →
    top t pq < pq.length ∧ ∀ x ∈ pq, (pq.getD (top t pq) []).length ≤ x.length

/-- One choice of `top()`: the first of the shortest elements. -/
def top_first : List (List Int) → Nat
  | [] => 0
  | x :: rest =>
    if ∀ y ∈ rest, x.length ≤ y.length then 0 else top_first rest + 1

/-! ## Specification-side definitions -/

/-- The `l`-bit number whose binary digits are those of `t` in reverse order. -/
def brev : Nat → Nat → Nat
  | 0, _ => 0
  | l + 1, t => 2 * brev l (t % 2 ^ l) + (t / 2 ^ l) % 2

/-- Every element of the vector is canonical. -/
def AllCanonical (v : List mod_int) : Prop := ∀ x ∈ v, canonical x

/-- The residue class read at position `p` of a vector (zero outside the vector). -/
def Zv (v : List mod_int) (p : Nat) : ZMod 998244353 := (v.getD p (mod_int.ctor 0)).toZ

/-- One pass of butterflies of half-width `n` with twiddle factors `r`, on a sequence of residue
classes. -/
def passF (n : Nat) (r f : Nat → ZMod 998244353) (p : Nat) : ZMod 998244353 :=
  if p % (2 * n) < n then f p + f (p + n) * r (n + p % (2 * n))
  else f (p - n) - f p * r (p % (2 * n))

/-- The residue class of the root found by `find_root`. -/
def rootZ : ZMod 998244353 := 31

/-- The primitive `2^K`-th root of unity derived from the root, `root ^ (max_size / 2^K)`. -/
def omegaK (K : Nat) : ZMod 998244353 := rootZ ^ (2 ^ (23 - K))

/-- The discrete Fourier transform of length `N` of `f` with the root of unity `w`, at `k`. -/
def dft (w : ZMod 998244353) (N : Nat) (f : Nat → ZMod 998244353) (k : Nat) : ZMod 998244353 :=
  ∑ j in Finset.range N, f j * w ^ (j * k)

/-- The state of the vector after the passes of half-width `1, 2, ..., 2^(l-1)`: every block of
`2^l` positions holds the transform of length `2^l` of the same block of `f0`, taken in
bit-reversed order. -/
def BlockDFT (N l : Nat) (f f0 : Nat → ZMod 998244353) : Prop :=
  ∀ b k, k < 2 ^ l → b * 2 ^ l + k < N →
    f (b * 2 ^ l + k) = ∑ t in Finset.range (2 ^ l), f0 (b * 2 ^ l + t) * omegaK l ^ (brev l t * k)

/-- The layout of the table of roots: a power-of-two length, canonical entries, and the range
`[2^l, 2^(l+1))` holds the powers `0, 1, ..., 2^l - 1` of the primitive `2^(l+1)`-th root. -/
def RootsOK (roots : List mod_int) : Prop :=
  AllCanonical roots ∧ ∃ L, 1 ≤ L ∧ L ≤ 23 ∧ roots.length = 2 ^ L ∧
    ∀ l, l < L → ∀ i, i < 2 ^ l → Zv roots (2 ^ l + i) = omegaK (l + 1) ^ i

/-- The cached table `bit_reverse` is the bit-reversal permutation of its own length. -/
def TableOK (table : List Nat) : Prop :=
  ∀ K, table.length = 2 ^ K → ∀ i, i < 2 ^ K → table.getD i 0 = brev K i

/-- The invariant of the cache of the engine. -/
def NTT.Inv (s : NTT) : Prop :=
  RootsOK s.roots ∧ TableOK s.bit_reverse ∧
    (s.max_size = -1 ∨ (s.max_size = 8388608 ∧ s.root = ⟨31⟩))

/-- The residue class of the factor `inv_N` of `invert_fft` for the length `2^K`. -/
def invZ (K : Nat) : ZMod 998244353 := (mod_int.inv (mod_int.ctor ((2 ^ K : Nat) : Int))).toZ

/-- The inverse transform of length `2^K` of `f`, at `t`. -/
def idft (K : Nat) (f : Nat → ZMod 998244353) (t : Nat) : ZMod 998244353 :=
  invZ K * ∑ q in Finset.range (2 ^ K), f q * omegaK K ^ (q * ((2 ^ K - 1) * t))

/-- The index that the lambda `mod_output_size` computes, on natural numbers. -/
def wrap_index (S x : Nat) : Nat := if x < S then x else x - S

/-- Coefficient `k` of the product of two integer sequences: the sum of `left[i] * right[j]`
over all `i + j = k`. -/
def conv_coeff (left right : List Int) (k : Nat) : Int :=
  ∑ i in Finset.range left.length, ∑ j in Finset.range right.length,
    if i + j = k then left.getD i 0 * right.getD j 0 else 0

/-- Coefficient `k` of the circular product of size `S` of two integer sequences: the sum of
`left[i] * right[j]` over all `(i + j) mod S = k`. -/
def cconv_coeff (left right : List Int) (S k : Nat) : Int :=
  ∑ i in Finset.range left.length, ∑ j in Finset.range right.length,
    if (i + j) % S = k then left.getD i 0 * right.getD j 0 else 0

/-- The accumulators of the brute-force branch: each is at most `U64_BOUND` and congruent to the
exact partial sum `f k`. -/
def AccInv (S : Nat) (r : List Int) (f : Nat → Int) : Prop :=
  r.length = S ∧ ∀ k, k < S →
    0 ≤ r.getD k 0 ∧ r.getD k 0 ≤ 17450252285413163006 ∧ r.getD k 0 % MOD = f k % MOD

/-- The states of the engine that valid calls of its members reach from a fresh engine: the
transform members are called with a power of two `N <= 2^23` and `N` canonical values, and
`mod_multiply` within the size limit of the transform. -/
inductive NTT.Reachable : NTT → Prop
  | init : NTT.Reachable NTT.init
  | reset (s : NTT) : NTT.Reachable s → NTT.Reachable (NTT.reset s)
  | find_root (s s' : NTT) : NTT.Reachable s → NTT.find_root s = some s' → NTT.Reachable s'
  | prepare_roots (s s' : NTT) (K : Nat) : NTT.Reachable s → K ≤ 23 →
      NTT.prepare_roots s ((2 ^ K : Nat) : Int) = some s' → NTT.Reachable s'
  | bit_reorder (s s' : NTT) (K : Nat) (values out : List mod_int) : NTT.Reachable s → K ≤ 23 →
      values.length = 2 ^ K →
      NTT.bit_reorder s ((2 ^ K : Nat) : Int) values = some (s', out) → NTT.Reachable s'
  | fft_iterative (s s' : NTT) (K : Nat) (values out : List mod_int) : NTT.Reachable s →
      K ≤ 23 → values.length = 2 ^ K → AllCanonical values →
      NTT.fft_iterative s ((2 ^ K : Nat) : Int) values = some (s', out) → NTT.Reachable s'
  | invert_fft (s s' : NTT) (K : Nat) (values out : List mod_int) : NTT.Reachable s →
      K ≤ 23 → values.length = 2 ^ K → AllCanonical values →
      NTT.invert_fft s ((2 ^ K : Nat) : Int) values = some (s', out) → NTT.Reachable s'
  | mod_multiply (s s' : NTT) (left right out : List Int) (circular : Bool) :
      NTT.Reachable s →
      (if circular then max left.length right.length ≤ 2 ^ 23
        else left.length + right.length - 1 ≤ 2 ^ 23) →
      NTT.mod_multiply s left right circular = some (s', out) → NTT.Reachable s'

/-- The product of two integer sequences modulo `MOD`: empty when a factor is empty, else the
`n + m - 1` canonical residues of the coefficients of the product. -/
def pmul (left right : List Int) : List Int :=
  if left = [] ∨ right = [] then []
  else (List.range (left.length + right.length - 1)).map (fun k => conv_coeff left right k % MOD)

/-- The circular product of size `S` of two integer sequences modulo `MOD`. -/
def cmul (left right : List Int) (S : Nat) : List Int :=
  (List.range S).map (fun k => cconv_coeff left right S k % MOD)

/-- Coefficient `k` of an integer sequence, read as a residue modulo `MOD`; it is zero
beyond the last entry. -/
def cf (l : List Int) (k : Nat) : ZMod 998244353 := ((l.getD k 0 : Int) : ZMod 998244353)

/-- Every entry of an integer sequence is a canonical residue. -/
def IntCanonical (l : List Int) : Prop := ∀ x ∈ l, 0 ≤ x ∧ x < MOD

instance (l : List Int) : Decidable (IntCanonical l) := by
  unfold IntCanonical
  exact inferInstance

/-- The degree of the product of a batch of non-empty sequences. -/
def degsum (ps : List (List Int)) : Nat := (ps.map (fun p => p.length - 1)).sum

/-- The sequence `R` holds the product of the batch `ps`: it is empty when a factor is empty,
and otherwise it has one entry per coefficient and its generating series modulo `MOD` is the
product of the series of the factors. -/
def Represents (ps : List (List Int)) (R : List Int) : Prop :=
  ([] ∈ ps → R = []) ∧
  ([] ∉ ps → R.length = degsum ps + 1 ∧
    PowerSeries.mk (cf R) = (ps.map (fun p => PowerSeries.mk (cf p))).prod)

/-- The repeated product `[1] * v * v * ... * v` with `e` factors `v`. -/
def pow_naive (v : List Int) : Nat → List Int
  | 0 => [1]
  | e + 1 => pmul (pow_naive v e) v

/-- The left-to-right fold `mod_multiply(... mod_multiply(mod_multiply(acc, p1), p2) ..., pk)`
on one engine. -/
def mod_multiply_fold : NTT → List Int → List (List Int) → Option (NTT × List Int)
  | s, acc, [] => some (s, acc)
  | s, acc, p :: rest =>
    (NTT.mod_multiply s acc p false).bind (fun r => mod_multiply_fold r.1 r.2 rest)
/-! ## Machine-integer wrap-around is the identity inside the range -/

theorem wrap32_of_range {x : Int} (h1 : -2147483648 ≤ x) (h2 : x < 2147483648) : wrap32 x = x := by
  unfold wrap32; omega

theorem wrap64_of_range {x : Int} (h1 : -9223372036854775808 ≤ x) (h2 : x < 9223372036854775808) :
    wrap64 x = x := by
  unfold wrap64; omega

theorem u32_of_range {x : Int} (h1 : 0 ≤ x) (h2 : x < 4294967296) : u32 x = x := by
  unfold u32; omega

theorem u64_of_range {x : Int} (h1 : 0 ≤ x) (h2 : x < 18446744073709551616) : u64 x = x := by
  unfold u64; omega

theorem tmod_neg_eq (v : Int) (h : v < 0) : Int.tmod v 998244353 = -((-v) % 998244353) := by
  obtain ⟨n, rfl⟩ := Int.eq_negSucc_of_lt_zero h
  have : Int.tmod (Int.negSucc n) 998244353 = -((n.succ % 998244353 : Nat) : Int) := rfl
  rw [this, Int.neg_negSucc]
  norm_cast

/-- The constructor stores the non-negative residue of its argument. -/
theorem ctor_val_all (v : Int) : (mod_int.ctor v).val = v % MOD := by
  unfold mod_int.ctor MOD
  by_cases hv : v < 0
  · simp only [hv, if_true]
    rw [tmod_neg_eq v hv]
    have hm := Int.emod_nonneg (-v) (show (998244353 : Int) ≠ 0 by decide)
    have hm2 := Int.emod_lt_of_pos (-v) (show (0 : Int) < 998244353 by decide)
    rw [wrap64_of_range (x := -(-v % 998244353)) (by omega) (by omega),
      wrap64_of_range (by omega) (by omega)]
    by_cases h0 : (-v) % 998244353 = 0
    · have : -(-v % 998244353) + 998244353 ≥ (998244353 : Int) := by omega
      simp only [this, if_true]
      rw [h0]
      simp only [neg_zero, zero_add]
      rw [show Int.tmod 998244353 998244353 = 0 by decide, wrap32_of_range (by omega) (by omega)]
      omega
    · have : ¬ (-(-v % 998244353) + 998244353 ≥ (998244353 : Int)) := by omega
      simp only [this, if_false]
      rw [wrap32_of_range (by omega) (by omega)]
      omega
  · simp only [hv, if_false]
    by_cases hge : v ≥ 998244353
    · simp only [hge, if_true]
      rw [Int.tmod_eq_emod (by omega) (by omega)]
      rw [wrap32_of_range (by omega) (by omega)]
    · simp only [hge, if_false]
      rw [wrap32_of_range (by omega) (by omega)]
      omega

theorem ctor_val (v : Int) (_h1 : -9223372036854775808 ≤ v) (_h2 : v < 9223372036854775808) :
    (mod_int.ctor v).val = v % MOD := ctor_val_all v

theorem wrap32_range (x : Int) : -2147483648 ≤ wrap32 x ∧ wrap32 x < 2147483648 := by
  unfold wrap32; omega

theorem ctor_canonical (v : Int) (h1 : -9223372036854775808 ≤ v) (h2 : v < 9223372036854775808) :
    canonical (mod_int.ctor v) := by
  unfold canonical
  rw [ctor_val v h1 h2]
  unfold MOD
  omega

theorem ctor_of_canonical_range (v : Int) (h1 : 0 ≤ v) (h2 : v < 998244353) :
    mod_int.ctor v = ⟨v⟩ := by
  have h := ctor_val v (by omega) (by omega)
  have h3 : (mod_int.ctor v).val = v := by rw [h]; unfold MOD; omega
  cases hc : mod_int.ctor v with
  | mk w => rw [hc] at h3; simp at h3; rw [h3]

theorem add_assign_val (a b : mod_int) (ha : canonical a) (hb : canonical b) :
    (mod_int.add_assign a b).val = (a.val + b.val) % MOD := by
  unfold canonical MOD at ha hb
  unfold mod_int.add_assign MOD
  simp only
  rw [wrap32_of_range (x := 998244353 - b.val) (by omega) (by omega),
    wrap32_of_range (x := a.val - (998244353 - b.val)) (by omega) (by omega)]
  split
  · rw [wrap32_of_range (by omega) (by omega)]; omega
  · omega

theorem sub_assign_val (a b : mod_int) (ha : canonical a) (hb : canonical b) :
    (mod_int.sub_assign a b).val = (a.val - b.val) % MOD := by
  unfold canonical MOD at ha hb
  unfold mod_int.sub_assign MOD
  simp only
  rw [wrap32_of_range (x := a.val - b.val) (by omega) (by omega)]
  split
  · rw [wrap32_of_range (by omega) (by omega)]; omega
  · omega

theorem mul_assign_val (a b : mod_int) (ha : canonical a) (hb : canonical b) :
    (mod_int.mul_assign a b).val = (a.val * b.val) % MOD := by
  unfold canonical MOD at ha hb
  unfold mod_int.mul_assign mod_int.fast_mod MOD
  have h0 : 0 ≤ a.val * b.val := Int.mul_nonneg ha.1 hb.1
  have h1 : a.val * b.val ≤ 998244352 * 998244352 :=
    Int.mul_le_mul (by omega) (by omega) (by omega) (by omega)
  rw [u64_of_range (x := a.val) (by omega) (by omega),
    u64_of_range (x := b.val) (by omega) (by omega)]
  generalize a.val * b.val = c at h0 h1 ⊢
  rw [u64_of_range (x := c) (by omega) (by omega),
    u32_of_range (x := 998244353) (by omega) (by omega)]
  rw [u32_of_range (by omega) (by omega), wrap32_of_range (by omega) (by omega)]

theorem emod_MOD_canonical (x : Int) {a : mod_int} (h : a.val = x % MOD) : canonical a := by
  unfold canonical
  rw [h]
  unfold MOD
  omega

theorem add_assign_canonical (a b : mod_int) (ha : canonical a) (hb : canonical b) :
    canonical (mod_int.add_assign a b) := emod_MOD_canonical _ (add_assign_val a b ha hb)

theorem sub_assign_canonical (a b : mod_int) (ha : canonical a) (hb : canonical b) :
    canonical (mod_int.sub_assign a b) := emod_MOD_canonical _ (sub_assign_val a b ha hb)

theorem mul_assign_canonical (a b : mod_int) (ha : canonical a) (hb : canonical b) :
    canonical (mod_int.mul_assign a b) := emod_MOD_canonical _ (mul_assign_val a b ha hb)

theorem mod_inv_loop_range (fuel : Nat) (g r x y : Int)
    (hx : -2147483648 ≤ x ∧ x < 2147483648) (hy : -2147483648 ≤ y ∧ y < 2147483648) :
    -2147483648 ≤ mod_int.mod_inv_loop fuel g r x y ∧
      mod_int.mod_inv_loop fuel g r x y < 2147483648 := by
  induction fuel generalizing g r x y with
  | zero => simpa [mod_int.mod_inv_loop] using hx
  | succ n ih =>
    unfold mod_int.mod_inv_loop
    by_cases hr : r ≠ 0
    · rw [if_pos hr]
      exact ih _ _ _ _ hy (wrap32_range _)
    · rw [if_neg hr]
      exact hx

theorem mod_inv_range (a m : Int) :
    -2147483648 ≤ mod_int.mod_inv a m ∧ mod_int.mod_inv a m < 2147483648 := by
  unfold mod_int.mod_inv
  simp only
  split
  · exact wrap32_range _
  · exact mod_inv_loop_range _ _ _ _ _ (by omega) (by omega)

theorem inv_canonical (a : mod_int) : canonical (mod_int.inv a) := by
  have h := mod_inv_range a.val MOD
  exact ctor_canonical _ (by omega) (by omega)

theorem div_assign_canonical (a b : mod_int) (ha : canonical a) :
    canonical (mod_int.div_assign a b) :=
  mul_assign_canonical a _ ha (inv_canonical b)

theorem pre_inc_canonical (a : mod_int) (ha : canonical a) : canonical (mod_int.pre_inc a) := by
  unfold canonical MOD at ha ⊢
  unfold mod_int.pre_inc MOD
  simp only
  rw [wrap32_of_range (x := 998244353 - 1) (by omega) (by omega)]
  split
  · omega
  · rw [wrap32_of_range (by omega) (by omega)]; omega

theorem pre_dec_canonical (a : mod_int) (ha : canonical a) : canonical (mod_int.pre_dec a) := by
  unfold canonical MOD at ha ⊢
  unfold mod_int.pre_dec MOD
  simp only
  rw [wrap32_of_range (x := 998244353 - 1) (by omega) (by omega)]
  split
  · omega
  · rw [wrap32_of_range (by omega) (by omega)]; omega

theorem neg_canonical (a : mod_int) : canonical (mod_int.neg a) := by
  unfold mod_int.neg
  split
  · exact ctor_canonical _ (by omega) (by omega)
  · have h := wrap32_range (MOD - a.val)
    exact ctor_canonical _ (by omega) (by omega)

theorem pow_loop_canonical (fuel : Nat) (a result : mod_int) (p : Int)
    (ha : canonical a) (hr : canonical result) :
    canonical (mod_int.pow_loop fuel a result p) := by
  induction fuel generalizing a result p with
  | zero => simpa [mod_int.pow_loop] using hr
  | succ n ih =>
    unfold mod_int.pow_loop
    by_cases hp : p > 0
    · simp only [hp, if_true]
      apply ih _ _ _ (mul_assign_canonical a a ha ha)
      split
      · exact mul_assign_canonical _ _ hr ha
      · exact hr
    · simp only [hp, if_false]
      exact hr

theorem ctor_one : mod_int.ctor 1 = ⟨1⟩ := by decide!

theorem pow_nonneg_eq (depth : Nat) (a : mod_int) (p : Int) (hp : 0 ≤ p) :
    mod_int.pow depth a p = some (mod_int.pow_loop 64 a (mod_int.ctor 1) p) := by
  unfold mod_int.pow
  have : ¬ p < 0 := by omega
  simp only [this, if_false]

theorem pow_neg_eq (depth : Nat) (a : mod_int) (p : Int) (hp : p < 0)
    (hmin : -9223372036854775808 < p) :
    mod_int.pow (depth + 1) a p
      = some (mod_int.pow_loop 64 (mod_int.inv a) (mod_int.ctor 1) (-p)) := by
  rw [mod_int.pow]
  simp only [hp, if_true]
  rw [wrap64_of_range (by omega) (by omega)]
  exact pow_nonneg_eq depth _ _ (by omega)

/-- Whatever `pow` returns is canonical. -/
theorem pow_canonical (depth : Nat) (a r : mod_int) (p : Int) (ha : canonical a)
    (h : mod_int.pow depth a p = some r) : canonical r := by
  induction depth generalizing a p with
  | zero =>
    unfold mod_int.pow at h
    by_cases hp : p < 0
    · simp [hp] at h
    · simp only [hp, if_false, Option.some.injEq] at h
      rw [← h]
      exact pow_loop_canonical _ _ _ _ ha (by rw [ctor_one]; decide)
  | succ n ih =>
    unfold mod_int.pow at h
    by_cases hp : p < 0
    · simp only [hp, if_true] at h
      exact ih _ _ (inv_canonical a) h
    · simp only [hp, if_false, Option.some.injEq] at h
      rw [← h]
      exact pow_loop_canonical _ _ _ _ ha (by rw [ctor_one]; decide)

/-- The exponent `INT64_MIN` is its own negation in 64 bits: the recursion of `pow` never
reaches the loop, whatever depth is allowed. -/
theorem pow_int64_min (depth : Nat) (a : mod_int) :
    mod_int.pow depth a (-9223372036854775808) = none := by
  induction depth generalizing a with
  | zero => rfl
  | succ n ih =>
    rw [mod_int.pow]
    have h : wrap64 (- (-9223372036854775808)) = -9223372036854775808 := by decide!
    simp only [h]
    simpa using ih (mod_int.inv a)

/-! ## The operations in `ZMod 998244353` -/

theorem intCast_emod_MOD (x : Int) : ((x % MOD : Int) : ZMod 998244353) = (x : ZMod 998244353) := by
  have h := ZMod.intCast_mod x 998244353
  unfold MOD
  exact_mod_cast h

theorem toZ_ctor (v : Int) (h1 : -9223372036854775808 ≤ v) (h2 : v < 9223372036854775808) :
    (mod_int.ctor v).toZ = (v : ZMod 998244353) := by
  unfold mod_int.toZ
  rw [ctor_val v h1 h2, intCast_emod_MOD]

theorem toZ_add (a b : mod_int) (ha : canonical a) (hb : canonical b) :
    (mod_int.add a b).toZ = a.toZ + b.toZ := by
  unfold mod_int.toZ mod_int.add
  rw [add_assign_val a b ha hb, intCast_emod_MOD]
  push_cast; rfl

theorem toZ_sub (a b : mod_int) (ha : canonical a) (hb : canonical b) :
    (mod_int.sub a b).toZ = a.toZ - b.toZ := by
  unfold mod_int.toZ mod_int.sub
  rw [sub_assign_val a b ha hb, intCast_emod_MOD]
  push_cast; rfl

theorem toZ_mul_assign (a b : mod_int) (ha : canonical a) (hb : canonical b) :
    (mod_int.mul_assign a b).toZ = a.toZ * b.toZ := by
  unfold mod_int.toZ
  rw [mul_assign_val a b ha hb, intCast_emod_MOD]
  push_cast; rfl

theorem toZ_mul (a b : mod_int) (ha : canonical a) (hb : canonical b) :
    (mod_int.mul a b).toZ = a.toZ * b.toZ := toZ_mul_assign a b ha hb

theorem add_canonical (a b : mod_int) (ha : canonical a) (hb : canonical b) :
    canonical (mod_int.add a b) := add_assign_canonical a b ha hb

theorem sub_canonical (a b : mod_int) (ha : canonical a) (hb : canonical b) :
    canonical (mod_int.sub a b) := sub_assign_canonical a b ha hb

theorem mul_canonical (a b : mod_int) (ha : canonical a) (hb : canonical b) :
    canonical (mod_int.mul a b) := mul_assign_canonical a b ha hb

/-- Two canonical values in the same residue class are equal. -/
theorem canonical_val_eq_of_cast (x y : Int) (hx : 0 ≤ x ∧ x < MOD) (hy : 0 ≤ y ∧ y < MOD)
    (h : (x : ZMod 998244353) = (y : ZMod 998244353)) : x = y := by
  rw [ZMod.intCast_eq_intCast_iff] at h
  unfold MOD at hx hy
  have h' := h
  unfold Int.ModEq at h'
  omega

theorem canonical_eq_of_toZ (a b : mod_int) (ha : canonical a) (hb : canonical b)
    (h : a.toZ = b.toZ) : a = b := by
  cases a with
  | mk x =>
    cases b with
    | mk y =>
      have := canonical_val_eq_of_cast x y ha hb h
      rw [this]

theorem canonical_ctor_zero : canonical (mod_int.ctor 0) := by decide!

theorem toZ_ctor_zero : (mod_int.ctor 0).toZ = 0 := by
  rw [toZ_ctor 0 (by decide) (by decide)]; simp

theorem canonical_ctor_one : canonical (mod_int.ctor 1) := by decide!

theorem toZ_ctor_one : (mod_int.ctor 1).toZ = 1 := by
  rw [toZ_ctor 1 (by decide) (by decide)]; simp

theorem int_land_one (p : Int) (hp : 0 ≤ p) : Int.land p 1 = p % 2 := by
  obtain ⟨n, rfl⟩ := Int.eq_ofNat_of_zero_le hp
  show ((n &&& 1 : Nat) : Int) = (n : Int) % 2
  rw [Nat.and_one_is_mod]
  norm_cast

theorem int_shiftRight_one (p : Int) : p >>> (1 : Nat) = p / 2 := by
  rw [Int.shiftRight_eq_div_pow]
  norm_num

/-- The loop of `pow` multiplies `result` by `a ^ p`. -/
theorem pow_loop_toZ (fuel : Nat) (a result : mod_int) (p : Nat)
    (ha : canonical a) (hr : canonical result) (hp : p < 2 ^ fuel) :
    (mod_int.pow_loop fuel a result (p : Int)).toZ = result.toZ * a.toZ ^ p := by
  induction fuel generalizing a result p with
  | zero =>
    have : p = 0 := by simpa using hp
    subst this
    simp [mod_int.pow_loop]
  | succ n ih =>
    unfold mod_int.pow_loop
    by_cases hp0 : (p : Int) > 0
    · rw [if_pos hp0, int_land_one _ (by omega), int_shiftRight_one]
      have hdiv : ((p : Int) / 2) = ((p / 2 : Nat) : Int) := by norm_cast
      rw [hdiv]
      have hlt : p / 2 < 2 ^ n := by
        rw [pow_succ] at hp
        omega
      have hsq : (mod_int.mul_assign a a).toZ = a.toZ * a.toZ := toZ_mul_assign a a ha ha
      have hpe : p = 2 * (p / 2) + p % 2 := by omega
      by_cases hodd : (p : Int) % 2 ≠ 0
      · rw [if_pos hodd, ih _ _ _ (mul_assign_canonical a a ha ha)
          (mul_assign_canonical _ _ hr ha) hlt, hsq, toZ_mul_assign _ _ hr ha]
        have h1 : p % 2 = 1 := by omega
        conv_rhs => rw [hpe, h1, pow_add, pow_mul]
        ring
      · rw [if_neg hodd, ih _ _ _ (mul_assign_canonical a a ha ha) hr hlt, hsq]
        have h1 : p % 2 = 0 := by omega
        conv_rhs => rw [hpe, h1, pow_add, pow_mul]
        ring
    · rw [if_neg hp0]
      have : p = 0 := by omega
      subst this
      simp

/-- For a non-negative exponent below `2^63`, `pow` returns the power. -/
theorem pow_toZ (depth : Nat) (a : mod_int) (p : Nat) (ha : canonical a)
    (hp : p < 2 ^ 64) :
    ∃ r, mod_int.pow depth a (p : Int) = some r ∧ canonical r ∧ r.toZ = a.toZ ^ p := by
  refine ⟨_, pow_nonneg_eq depth a p (by omega), ?_, ?_⟩
  · exact pow_loop_canonical _ _ _ _ ha canonical_ctor_one
  · rw [pow_loop_toZ 64 a _ p ha canonical_ctor_one hp, toZ_ctor_one, one_mul]
theorem land_pred (t r : Nat) :
    (2 ^ t * (2 * r + 1)) &&& (2 ^ t * (2 * r + 1) - 1) = 2 ^ (t + 1) * r := by
  induction t with
  | zero =>
    have h1 : 2 ^ 0 * (2 * r + 1) = Nat.bit true r := by simp [Nat.bit_val]
    have h2 : 2 ^ 0 * (2 * r + 1) - 1 = Nat.bit false r := by simp [Nat.bit_val]
    rw [h2, h1, Nat.land_bit]
    simp [Nat.bit_val]
  | succ t ih =>
    have hpos : 1 ≤ 2 ^ t * (2 * r + 1) := Nat.mul_pos (Nat.two_pow_pos t) (by omega)
    have h1 : 2 ^ (t + 1) * (2 * r + 1) = Nat.bit false (2 ^ t * (2 * r + 1)) := by
      simp [Nat.bit_val, pow_succ]; ring
    have h2 : 2 ^ (t + 1) * (2 * r + 1) - 1 = Nat.bit true (2 ^ t * (2 * r + 1) - 1) := by
      simp only [Nat.bit_val, pow_succ, Bool.toNat_true]
      have : 2 ^ t * 2 * (2 * r + 1) = 2 * (2 ^ t * (2 * r + 1)) := by ring
      omega
    rw [h2, h1, Nat.land_bit, ih]
    simp [Nat.bit_val, pow_succ]; ring

theorem lor_pred (t r : Nat) :
    (2 ^ t * (2 * r + 1)) ||| (2 ^ t * (2 * r + 1) - 1) = 2 ^ t * (2 * r + 1) + 2 ^ t - 1 := by
  induction t with
  | zero =>
    have h1 : 2 ^ 0 * (2 * r + 1) = Nat.bit true r := by simp [Nat.bit_val]
    have h2 : 2 ^ 0 * (2 * r + 1) - 1 = Nat.bit false r := by simp [Nat.bit_val]
    rw [h2, h1, Nat.lor_bit]
    simp [Nat.bit_val]
  | succ t ih =>
    have hpos : 1 ≤ 2 ^ t * (2 * r + 1) := Nat.mul_pos (Nat.two_pow_pos t) (by omega)
    have hpos2 : 1 ≤ 2 ^ t := Nat.two_pow_pos t
    have h1 : 2 ^ (t + 1) * (2 * r + 1) = Nat.bit false (2 ^ t * (2 * r + 1)) := by
      simp [Nat.bit_val, pow_succ]; ring
    have h2 : 2 ^ (t + 1) * (2 * r + 1) - 1 = Nat.bit true (2 ^ t * (2 * r + 1) - 1) := by
      simp only [Nat.bit_val, pow_succ, Bool.toNat_true]
      have : 2 ^ t * 2 * (2 * r + 1) = 2 * (2 ^ t * (2 * r + 1)) := by ring
      omega
    rw [h2, h1, Nat.lor_bit, ih]
    simp only [Nat.bit_val, pow_succ, Bool.toNat_true, Bool.toNat_false, Bool.or_true,
      Bool.false_or]
    omega

theorem and32_natCast (a b : Nat) (ha : a < 2147483648) :
    and32 (a : Int) (b : Int) = (((a &&& (b % 4294967296) : Nat)) : Int) := by
  unfold and32
  have h1 : (u32 (a : Int)).toNat = a := by
    rw [u32_of_range (by omega) (by omega)]; simp
  have h2 : (u32 (b : Int)).toNat = b % 4294967296 := by
    unfold u32; omega
  rw [h1, h2]
  have hle : a &&& (b % 4294967296) ≤ a := Nat.and_le_left
  exact wrap32_of_range (by omega) (by omega)

theorem or32_natCast (a b : Nat) (ha : a < 2147483648) (hb : b < 2147483648) :
    or32 (a : Int) (b : Int) = ((a ||| b : Nat) : Int) := by
  unfold or32
  have h1 : (u32 (a : Int)).toNat = a := by
    rw [u32_of_range (by omega) (by omega)]; simp
  have h2 : (u32 (b : Int)).toNat = b := by
    rw [u32_of_range (by omega) (by omega)]; simp
  rw [h1, h2]
  have hlt : a ||| b < 2 ^ 31 := Nat.or_lt_two_pow (by omega) (by omega)
  exact wrap32_of_range (by omega) (by omega)

theorem two_pow_le_of_le {a b : Nat} (h : a ≤ b) : 2 ^ a ≤ 2 ^ b :=
  Nat.pow_le_pow_right (by decide) h

theorem round_up_aux (n T E : Nat) (hT : 1 ≤ T) (h2 : E < 2 * n) :
    E < 2 * (n + T - 1 + 1) := by omega

/-- The loop of `round_up_power_two` started at `2^t * (2r+1)` ends at the power of two `2^e`
that brackets it. -/
theorem round_up_loop_spec (fuel t r e : Nat) (he : e ≤ 30)
    (h1 : 2 ^ t * (2 * r + 1) ≤ 2 ^ e) (h2 : 2 ^ e < 2 * (2 ^ t * (2 * r + 1)))
    (hf : e + 1 ≤ fuel + t) :
    NTT.round_up_loop fuel ((2 ^ t * (2 * r + 1) : Nat) : Int) = ((2 ^ e : Nat) : Int) := by
  induction fuel generalizing t r with
  | zero =>
    exfalso
    have h3 : 2 ^ (e + 1) ≤ 2 ^ t := two_pow_le_of_le (by omega)
    have h4 : 2 ^ t ≤ 2 ^ t * (2 * r + 1) := Nat.le_mul_of_pos_right _ (by omega)
    have h5 : 2 ^ (e + 1) = 2 * 2 ^ e := by rw [pow_succ]; ring
    have h6 : 1 ≤ 2 ^ e := Nat.two_pow_pos e
    omega
  | succ fuel ih =>
    have hpos : 1 ≤ 2 ^ t * (2 * r + 1) := Nat.mul_pos (Nat.two_pow_pos t) (by omega)
    have hpt : 1 ≤ 2 ^ t := Nat.two_pow_pos t
    have he30 : 2 ^ e ≤ 2 ^ 30 := two_pow_le_of_le he
    have hn : 2 ^ t * (2 * r + 1) < 2147483648 := by omega
    have hte : t ≤ e := by
      by_contra hcon
      have h3 : 2 ^ (e + 1) ≤ 2 ^ t := two_pow_le_of_le (by omega)
      have h4 : 2 ^ t ≤ 2 ^ t * (2 * r + 1) := Nat.le_mul_of_pos_right _ (by omega)
      have h5 : 2 ^ (e + 1) = 2 * 2 ^ e := by rw [pow_succ]; ring
      omega
    rw [NTT.round_up_loop]
    have hw : wrap32 (((2 ^ t * (2 * r + 1) : Nat) : Int) - 1)
        = ((2 ^ t * (2 * r + 1) - 1 : Nat) : Int) := by
      rw [wrap32_of_range (by omega) (by omega)]; omega
    rw [hw, and32_natCast _ _ hn, Nat.mod_eq_of_lt (by omega), land_pred]
    by_cases hr : r = 0
    · subst hr
      simp only [Nat.mul_zero, Nat.cast_zero, ne_eq, not_true_eq_false, if_false]
      have h3 : 2 ^ t * (2 * 0 + 1) = 2 ^ t := by ring
      rw [h3] at h1 h2 ⊢
      have : e ≤ t := by
        by_contra hcon
        have h4 : 2 ^ (t + 1) ≤ 2 ^ e := two_pow_le_of_le (by omega)
        have h5 : 2 ^ (t + 1) = 2 * 2 ^ t := by rw [pow_succ]; ring
        omega
      have : e = t := by omega
      rw [this]
    · have hne : ((2 ^ (t + 1) * r : Nat) : Int) ≠ 0 := by
        have : 1 ≤ 2 ^ (t + 1) * r := Nat.mul_pos (Nat.two_pow_pos _) (by omega)
        omega
      rw [if_pos hne, or32_natCast _ _ hn (by omega), lor_pred]
      -- the next value of `n` is `2^t * (2r+2)`
      obtain ⟨a, q, hq, hrq⟩ := Nat.exists_eq_two_pow_mul_odd (n := r + 1) (by omega)
      obtain ⟨r', rfl⟩ := hq
      have hlt : t < e := by
        by_contra hcon
        have : e = t := by omega
        subst this
        have : 2 ^ e * (2 * r + 1) = 2 ^ e * (2 * r) + 2 ^ e := by ring
        have : 1 ≤ 2 ^ e * (2 * r) := Nat.mul_pos hpt (by omega)
        omega
      obtain ⟨d, rfl⟩ : ∃ d, e = t + 1 + d := ⟨e - t - 1, by omega⟩
      have hpd : 2 ^ (t + 1 + d) = 2 ^ t * (2 * 2 ^ d) := by rw [pow_add, pow_succ]; ring
      have hr1 : r + 1 ≤ 2 ^ d := by
        rw [hpd] at h1
        have := Nat.le_of_mul_le_mul_left h1 hpt
        omega
      have hnext : 2 ^ t * (2 * r + 1) + 2 ^ t - 1 + 1 = 2 ^ (t + 1 + a) * (2 * r' + 1) := by
        have e1 : 2 ^ (t + 1 + a) * (2 * r' + 1) = 2 ^ t * (2 * (2 ^ a * (2 * r' + 1))) := by
          rw [pow_add, pow_succ]; ring
        rw [e1, ← hrq]
        have : 2 ^ t * (2 * (r + 1)) = 2 ^ t * (2 * r + 1) + 2 ^ t := by ring
        omega
      have hnle : 2 ^ t * (2 * r + 1) + 2 ^ t - 1 + 1 ≤ 2 ^ (t + 1 + d) := by
        rw [hpd]
        have : 2 ^ t * (2 * r + 1) + 2 ^ t = 2 ^ t * (2 * (r + 1)) := by ring
        have h7 : 2 ^ t * (2 * (r + 1)) ≤ 2 ^ t * (2 * 2 ^ d) :=
          Nat.mul_le_mul_left _ (by omega)
        omega
      have hcast : wrap32 (((2 ^ t * (2 * r + 1) + 2 ^ t - 1 : Nat) : Int) + 1)
          = ((2 ^ (t + 1 + a) * (2 * r' + 1) : Nat) : Int) := by
        rw [← hnext, wrap32_of_range (by omega) (by omega)]
        omega
      rw [hcast]
      refine ih (t + 1 + a) r' ?_ ?_ ?_
      · rw [← hnext]; exact hnle
      · rw [← hnext]; exact round_up_aux _ _ _ hpt h2
      · omega

theorem int_max_natCast (a b : Nat) : int_max (a : Int) (b : Int) = ((max a b : Nat) : Int) := by
  unfold int_max
  split <;> omega

theorem exists_two_pow_bracket (n : Nat) (hn : 1 ≤ n) : ∃ e, n ≤ 2 ^ e ∧ 2 ^ e < 2 * n := by
  by_cases h1 : n = 1
  · exact ⟨0, by subst h1; simp⟩
  · refine ⟨Nat.clog 2 n, Nat.le_pow_clog (by decide) n, ?_⟩
    have h := Nat.pow_pred_clog_lt_self (b := 2) (by decide) (x := n) (by omega)
    have hpos : 0 < Nat.clog 2 n := Nat.clog_pos (by decide) (by omega)
    have : 2 ^ Nat.clog 2 n = 2 * 2 ^ (Nat.clog 2 n).pred := by
      conv_lhs => rw [← Nat.succ_pred_eq_of_pos hpos, pow_succ]
      ring
    omega

/-- For `1 <= n <= 2^30`, `round_up_power_two(n)` is the power of two `2^e` with
`2^e / 2 < n <= 2^e`. -/
theorem round_up_power_two_spec (n e : Nat) (he : e ≤ 30) (h1 : n ≤ 2 ^ e) (h2 : 2 ^ e < 2 * n) :
    NTT.round_up_power_two (n : Int) = ((2 ^ e : Nat) : Int) := by
  have hn : n ≠ 0 := by omega
  obtain ⟨t, q, hq, rfl⟩ := Nat.exists_eq_two_pow_mul_odd hn
  obtain ⟨r, rfl⟩ := hq
  unfold NTT.round_up_power_two
  rw [round_up_loop_spec 32 t r e he h1 h2 (by omega)]
  unfold int_max
  have : 1 ≤ 2 ^ e := Nat.two_pow_pos e
  split <;> omega

theorem is_power_of_two_two_pow : ∀ K < 31, NTT.is_power_of_two ((2 ^ K : Nat) : Int) = true := by
  decide!

theorem builtin_ctz_two_pow : ∀ K < 31, builtin_ctz ((2 ^ K : Nat) : Int) = K := by
  decide!

theorem get_length_two_pow (K : Nat) (hK : K < 31) :
    NTT.get_length ((2 ^ K : Nat) : Int) = some K := by
  unfold NTT.get_length
  rw [is_power_of_two_two_pow K hK, builtin_ctz_two_pow K hK]
  simp

/-! ## Vectors: reads after writes -/

theorem getD_set_eq {α : Type} (l : List α) (i j : Nat) (a d : α) :
    (l.set i a).getD j d = if i = j ∧ i < l.length then a else l.getD j d := by
  simp only [List.getD_eq_getElem?_getD, List.getElem?_set]
  by_cases h : i = j
  · subst h
    by_cases h2 : i < l.length
    · simp [h2]
    · simp [h2, List.getElem?_eq_none (Nat.le_of_not_lt h2)]
  · simp [h]

theorem getD_of_length_le {α : Type} (l : List α) (j : Nat) (d : α) (h : l.length ≤ j) :
    l.getD j d = d := by
  simp [List.getD_eq_getElem?_getD, List.getElem?_eq_none h]

theorem getD_mem {α : Type} (l : List α) (j : Nat) (d : α) (h : j < l.length) :
    l.getD j d ∈ l := by
  rw [List.getD_eq_getElem _ _ h]
  exact List.getElem_mem h

theorem mem_iff_getD {α : Type} (l : List α) (d x : α) (h : x ∈ l) :
    ∃ j, j < l.length ∧ l.getD j d = x := by
  obtain ⟨j, hj, rfl⟩ := List.getElem_of_mem h
  exact ⟨j, hj, List.getD_eq_getElem _ _ hj⟩

/-- Two lists of the same length with the same reads are equal. -/
theorem list_ext_getD {α : Type} (l1 l2 : List α) (d : α) (hlen : l1.length = l2.length)
    (h : ∀ j, j < l1.length → l1.getD j d = l2.getD j d) : l1 = l2 := by
  apply List.ext_getElem hlen
  intro j h1 h2
  have := h j h1
  rwa [List.getD_eq_getElem _ _ h1, List.getD_eq_getElem _ _ h2] at this

/-! ## Bit reversal -/

theorem brev_lt (l t : Nat) : brev l t < 2 ^ l := by
  induction l generalizing t with
  | zero => simp [brev]
  | succ l ih =>
    have h := ih (t % 2 ^ l)
    have h2 : (t / 2 ^ l) % 2 < 2 := Nat.mod_lt _ (by decide)
    simp only [brev, pow_succ]
    omega

theorem brev_low (l t : Nat) : brev (l + 1) t = brev l (t / 2) + (t % 2) * 2 ^ l := by
  induction l generalizing t with
  | zero => simp [brev]
  | succ l ih =>
    have e1 : brev (l + 2) t = 2 * brev (l + 1) (t % 2 ^ (l + 1)) + (t / 2 ^ (l + 1)) % 2 := rfl
    have e2 : brev (l + 1) (t / 2) = 2 * brev l (t / 2 % 2 ^ l) + (t / 2 / 2 ^ l) % 2 := rfl
    rw [e1, ih (t % 2 ^ (l + 1)), e2]
    have h1 : t % 2 ^ (l + 1) / 2 = t / 2 % 2 ^ l := by
      rw [pow_succ, mul_comm, Nat.mod_mul_right_div_self]
    have h2 : t % 2 ^ (l + 1) % 2 = t % 2 := by
      rw [pow_succ]
      exact Nat.mod_mul_left_mod t (2 ^ l) 2
    have h3 : t / 2 / 2 ^ l = t / 2 ^ (l + 1) := by
      rw [Nat.div_div_eq_div_mul, pow_succ, mul_comm]
    rw [h1, h2, h3, pow_succ]
    ring

theorem brev_invol (l t : Nat) (ht : t < 2 ^ l) : brev l (brev l t) = t := by
  induction l generalizing t with
  | zero =>
    have : t = 0 := by simpa using ht
    simp [brev, this]
  | succ l ih =>
    have hlt := brev_lt l (t / 2)
    have ht2 : t / 2 < 2 ^ l := by rw [pow_succ] at ht; omega
    have e1 : brev (l + 1) (brev (l + 1) t)
        = 2 * brev l (brev (l + 1) t % 2 ^ l) + (brev (l + 1) t / 2 ^ l) % 2 := rfl
    rw [e1, brev_low l t]
    have hm : t % 2 < 2 := Nat.mod_lt _ (by decide)
    have h1 : (brev l (t / 2) + t % 2 * 2 ^ l) % 2 ^ l = brev l (t / 2) := by
      rw [Nat.add_mul_mod_self_right, Nat.mod_eq_of_lt hlt]
    have h2 : (brev l (t / 2) + t % 2 * 2 ^ l) / 2 ^ l = t % 2 := by
      rw [Nat.add_mul_div_right _ _ (Nat.two_pow_pos l), Nat.div_eq_of_lt hlt]
      simp
    rw [h1, h2, ih _ ht2]
    omega

theorem brev_inj (l a b : Nat) (ha : a < 2 ^ l) (hb : b < 2 ^ l) (h : brev l a = brev l b) :
    a = b := by
  rw [← brev_invol l a ha, ← brev_invol l b hb, h]

/-- The right-hand side of the assignment that fills `bit_reverse[i]`. -/
theorem bit_reverse_entry (l i : Nat) (hi : i < 2 ^ (l + 1)) :
    ((brev (l + 1) (i >>> 1) >>> 1) ||| ((i &&& 1) <<< (l + 1 - 1))) = brev (l + 1) i := by
  have hi2 : i / 2 < 2 ^ l := by rw [pow_succ] at hi; omega
  have e2 : brev (l + 1) (i / 2) = 2 * brev l (i / 2 % 2 ^ l) + (i / 2 / 2 ^ l) % 2 := rfl
  rw [Nat.shiftRight_eq_div_pow, Nat.shiftRight_eq_div_pow, Nat.and_one_is_mod, Nat.shiftLeft_eq,
    brev_low l i]
  simp only [pow_one, Nat.add_sub_cancel]
  rw [e2, Nat.mod_eq_of_lt hi2, Nat.div_eq_of_lt hi2]
  have h3 : (2 * brev l (i / 2) + 0 % 2) / 2 = brev l (i / 2) := by omega
  rw [h3, Nat.or_comm, mul_comm (i % 2) (2 ^ l), ← Nat.mul_add_lt_is_or (brev_lt l (i / 2))]
  ring

theorem brev_zero (K : Nat) : brev K 0 = 0 := by
  induction K with
  | zero => rfl
  | succ k ih => simp [brev, ih]

theorem getD_replicate_zero (n p : Nat) : (List.replicate n (0 : Nat)).getD p 0 = 0 := by
  by_cases h : p < n
  · have := getD_mem (List.replicate n (0 : Nat)) p 0 (by simpa using h)
    exact List.eq_of_mem_replicate this
  · exact getD_of_length_le _ _ _ (by simpa using h)

/-- The loop that fills the table leaves `brev K p` at every position `p`. -/
theorem bit_reverse_fill_spec (K : Nat) (c : Nat) (hc : c + 1 ≤ 2 ^ K) :
    ((List.range' 1 c).foldl
      (fun t i => t.set i ((t.getD (i >>> 1) 0 >>> 1) ||| ((i &&& 1) <<< (K - 1))))
      (List.replicate (2 ^ K) 0)).length = 2 ^ K ∧
    ∀ p, p ≤ c →
      ((List.range' 1 c).foldl
        (fun t i => t.set i ((t.getD (i >>> 1) 0 >>> 1) ||| ((i &&& 1) <<< (K - 1))))
        (List.replicate (2 ^ K) 0)).getD p 0 = brev K p := by
  induction c with
  | zero =>
    refine ⟨by simp, ?_⟩
    intro p hp
    have : p = 0 := by omega
    subst this
    rw [brev_zero]
    simp only [List.range'_zero, List.foldl_nil]
    exact getD_replicate_zero _ _
  | succ c ih =>
    obtain ⟨hlen, hval⟩ := ih (by omega)
    rw [List.range'_1_concat, List.foldl_append]
    simp only [List.foldl_cons, List.foldl_nil]
    refine ⟨by rw [List.length_set]; exact hlen, ?_⟩
    intro p hp
    rw [getD_set_eq, hlen]
    by_cases hpc : 1 + c = p
    · have hlt : 1 + c < 2 ^ K := by omega
      rw [if_pos ⟨hpc, hlt⟩]
      have hhalf : (1 + c) >>> 1 ≤ c := by
        rw [Nat.shiftRight_eq_div_pow]; simp; omega
      rw [hval _ hhalf]
      obtain ⟨l, rfl⟩ : ∃ l, K = l + 1 := by
        cases K with
        | zero => simp at hlt
        | succ l => exact ⟨l, rfl⟩
      rw [← hpc]
      exact bit_reverse_entry l (1 + c) hlt
    · have : ¬ (1 + c = p ∧ 1 + c < 2 ^ K) := fun h => hpc h.1
      rw [if_neg this]
      exact hval p (by omega)

/-- After the table has been filled by `bit_reorder`, every entry is the bit reversal of its
position. -/
theorem bit_reverse_fill_getD (K : Nat) (p : Nat) (hp : p < 2 ^ K) :
    (NTT.bit_reverse_fill K (2 ^ K) (List.replicate (2 ^ K) 0)).getD p 0 = brev K p ∧
    (NTT.bit_reverse_fill K (2 ^ K) (List.replicate (2 ^ K) 0)).length = 2 ^ K := by
  have hpos : 1 ≤ 2 ^ K := Nat.two_pow_pos K
  have h := bit_reverse_fill_spec K (2 ^ K - 1) (by omega)
  exact ⟨h.2 p (by omega), h.1⟩

/-! ## The swaps of `bit_reorder` -/

theorem vector_swap_length {α : Type} (v : List α) (i j : Nat) (d : α) :
    (vector_swap v i j d).length = v.length := by
  simp [vector_swap]

theorem vector_swap_getD {α : Type} (v : List α) (i j p : Nat) (d : α)
    (hi : i < v.length) (hj : j < v.length) :
    (vector_swap v i j d).getD p d
      = if p = j then v.getD i d else if p = i then v.getD j d else v.getD p d := by
  unfold vector_swap
  rw [getD_set_eq, getD_set_eq, List.length_set]
  by_cases h1 : p = j
  · subst h1; simp [hj]
  · by_cases h2 : p = i
    · subst h2
      have : ¬ (j = p ∧ j < v.length) := fun h => h1 h.1.symm
      simp [this, hi, h1]
    · have a1 : ¬ (j = p ∧ j < v.length) := fun h => h1 h.1.symm
      have a2 : ¬ (i = p ∧ i < v.length) := fun h => h2 h.1.symm
      simp [a1, a2, h1, h2]

/-- After the first `j` iterations of the swap loop, the positions already met hold the value of
their bit-reversed position, the others are untouched. -/
theorem bit_reorder_swaps_inv {α : Type} (K : Nat) (table : List Nat) (values : List α) (d : α)
    (hlen : values.length = 2 ^ K) (htab : ∀ i, i < 2 ^ K → table.getD i 0 = brev K i)
    (j : Nat) (hj : j ≤ 2 ^ K) :
    ((List.range j).foldl
      (fun v i => if i < table.getD i 0 then vector_swap v i (table.getD i 0) d else v)
      values).length = 2 ^ K ∧
    ∀ p, p < 2 ^ K →
      ((List.range j).foldl
        (fun v i => if i < table.getD i 0 then vector_swap v i (table.getD i 0) d else v)
        values).getD p d
        = if p < j ∨ brev K p < j then values.getD (brev K p) d else values.getD p d := by
  induction j with
  | zero =>
    refine ⟨by simpa using hlen, ?_⟩
    intro p _
    simp
  | succ j ih =>
    obtain ⟨hl, hv⟩ := ih (by omega)
    have hjlt : j < 2 ^ K := by omega
    rw [List.range_succ, List.foldl_append]
    simp only [List.foldl_cons, List.foldl_nil]
    rw [htab j hjlt]
    have hr := brev_lt K j
    have hrr := brev_invol K j hjlt
    by_cases hlt : j < brev K j
    · rw [if_pos hlt]
      refine ⟨by rw [vector_swap_length]; exact hl, ?_⟩
      intro p hp
      rw [vector_swap_getD _ _ _ _ _ (by omega) (by omega)]
      by_cases h1 : p = brev K j
      · rw [if_pos h1, hv j hjlt]
        have c1 : ¬ (j < j ∨ brev K j < j) := by omega
        have c2 : p < j + 1 ∨ brev K p < j + 1 := by right; rw [h1, hrr]; omega
        rw [if_neg c1, if_pos c2, h1, hrr]
      · rw [if_neg h1]
        by_cases h2 : p = j
        · rw [if_pos h2, hv _ hr]
          have c1 : ¬ (brev K j < j ∨ brev K (brev K j) < j) := by rw [hrr]; omega
          have c2 : p < j + 1 ∨ brev K p < j + 1 := by left; omega
          rw [if_neg c1, if_pos c2, h2]
        · rw [if_neg h2, hv p hp]
          have hne : brev K p ≠ j := by
            intro h
            apply h1
            rw [← h, brev_invol K p hp]
          have c : (p < j + 1 ∨ brev K p < j + 1) ↔ (p < j ∨ brev K p < j) := by omega
          simp only [c]
    · rw [if_neg hlt]
      refine ⟨hl, ?_⟩
      intro p hp
      rw [hv p hp]
      by_cases h2 : p = j
      · subst h2
        have c2 : p < p + 1 ∨ brev K p < p + 1 := by left; omega
        rw [if_pos c2]
        by_cases h3 : brev K p < p
        · rw [if_pos (Or.inr h3)]
        · have : brev K p = p := by omega
          have c1 : ¬ (p < p ∨ brev K p < p) := by omega
          rw [if_neg c1, this]
      · by_cases h4 : brev K p = j
        · have hpj : p = brev K j := by rw [← h4, brev_invol K p hp]
          have c1 : p < j ∨ brev K p < j := by left; omega
          have c2 : p < j + 1 ∨ brev K p < j + 1 := by left; omega
          rw [if_pos c1, if_pos c2]
        · have c : (p < j + 1 ∨ brev K p < j + 1) ↔ (p < j ∨ brev K p < j) := by omega
          simp only [c]

/-- The swap loop of `bit_reorder` puts at every position the value of the bit-reversed
position. -/
theorem bit_reorder_swaps_spec (K : Nat) (table : List Nat) (values : List mod_int)
    (hlen : values.length = 2 ^ K) (htab : ∀ i, i < 2 ^ K → table.getD i 0 = brev K i) :
    (NTT.bit_reorder_swaps table (2 ^ K) values).length = 2 ^ K ∧
    ∀ p, p < 2 ^ K →
      (NTT.bit_reorder_swaps table (2 ^ K) values).getD p (mod_int.ctor 0)
        = values.getD (brev K p) (mod_int.ctor 0) := by
  have h := bit_reorder_swaps_inv K table values (mod_int.ctor 0) hlen htab (2 ^ K) (le_refl _)
  refine ⟨h.1, ?_⟩
  intro p hp
  have := h.2 p hp
  rw [if_pos (Or.inl hp)] at this
  exact this

/-! ## The butterfly passes of `fft_iterative` -/

theorem AllCanonical.getD {v : List mod_int} (h : AllCanonical v) (p : Nat) :
    canonical (v.getD p (mod_int.ctor 0)) := by
  by_cases hp : p < v.length
  · exact h _ (getD_mem v p _ hp)
  · rw [getD_of_length_le v p _ (by omega)]
    exact canonical_ctor_zero

theorem AllCanonical.set {v : List mod_int} (h : AllCanonical v) (i : Nat) (a : mod_int)
    (ha : canonical a) : AllCanonical (v.set i a) := by
  intro x hx
  rcases List.mem_or_eq_of_mem_set hx with h1 | h1
  · exact h x h1
  · rw [h1]; exact ha

theorem Zv_set (v : List mod_int) (i p : Nat) (a : mod_int) :
    Zv (v.set i a) p = if i = p ∧ i < v.length then a.toZ else Zv v p := by
  unfold Zv
  rw [getD_set_eq]
  split <;> rfl

theorem Zv_of_length_le (v : List mod_int) (p : Nat) (h : v.length ≤ p) : Zv v p = 0 := by
  unfold Zv
  rw [getD_of_length_le v p _ h, toZ_ctor_zero]

theorem butterfly_spec (roots v : List mod_int) (n start i : Nat)
    (hv : AllCanonical v) (hr : AllCanonical roots) (h : start + n + i < v.length)
    (hn : 0 < n) :
    (NTT.butterfly roots n start i v).length = v.length ∧
    AllCanonical (NTT.butterfly roots n start i v) ∧
    ∀ p, Zv (NTT.butterfly roots n start i v) p =
      if p = start + i then Zv v (start + i) + Zv v (start + n + i) * Zv roots (n + i)
      else if p = start + n + i then Zv v (start + i) - Zv v (start + n + i) * Zv roots (n + i)
      else Zv v p := by
  have c1 := hv.getD (start + i)
  have c2 := hv.getD (start + n + i)
  have c3 := hr.getD (n + i)
  have cm := mul_canonical _ _ c2 c3
  refine ⟨by simp [NTT.butterfly], ?_, ?_⟩
  · unfold NTT.butterfly
    exact (hv.set _ _ (sub_canonical _ _ c1 cm)).set _ _ (add_canonical _ _ c1 cm)
  · intro p
    unfold NTT.butterfly
    simp only
    rw [Zv_set, Zv_set, List.length_set, toZ_add _ _ c1 cm, toZ_sub _ _ c1 cm,
      toZ_mul _ _ c2 c3]
    by_cases h1 : p = start + i
    · have a1 : start + i = p ∧ start + i < v.length := ⟨h1.symm, by omega⟩
      rw [if_pos a1, if_pos h1]
      rfl
    · by_cases h2 : p = start + n + i
      · have a1 : ¬ (start + i = p ∧ start + i < v.length) := fun hh => h1 hh.1.symm
        have a2 : start + n + i = p ∧ start + n + i < v.length := ⟨h2.symm, h⟩
        rw [if_neg a1, if_pos a2, if_neg h1, if_pos h2]
        rfl
      · have a1 : ¬ (start + i = p ∧ start + i < v.length) := fun hh => h1 hh.1.symm
        have a2 : ¬ (start + n + i = p ∧ start + n + i < v.length) := fun hh => h2 hh.1.symm
        rw [if_neg a1, if_neg a2, if_neg h1, if_neg h2]

/-- The first `j` iterations of the innermost loop of `fft_iterative`. -/
theorem fft_block_inv (roots v : List mod_int) (n start : Nat)
    (hv : AllCanonical v) (hr : AllCanonical roots) (h : start + 2 * n ≤ v.length)
    (hn : 0 < n) (j : Nat) (hj : j ≤ n) :
    ((List.range j).foldl (fun v i => NTT.butterfly roots n start i v) v).length = v.length ∧
    AllCanonical ((List.range j).foldl (fun v i => NTT.butterfly roots n start i v) v) ∧
    ∀ p, Zv ((List.range j).foldl (fun v i => NTT.butterfly roots n start i v) v) p =
      if start ≤ p ∧ p < start + j then Zv v p + Zv v (p + n) * Zv roots (n + (p - start))
      else if start + n ≤ p ∧ p < start + n + j then
        Zv v (p - n) - Zv v p * Zv roots (p - start)
      else Zv v p := by
  induction j with
  | zero =>
    refine ⟨by simp, by simpa using hv, ?_⟩
    intro p
    have a1 : ¬ (start ≤ p ∧ p < start + 0) := by omega
    have a2 : ¬ (start + n ≤ p ∧ p < start + n + 0) := by omega
    rw [if_neg a1, if_neg a2]
    rfl
  | succ j ih =>
    obtain ⟨hl, hc, hz⟩ := ih (by omega)
    rw [List.range_succ, List.foldl_append]
    simp only [List.foldl_cons, List.foldl_nil]
    obtain ⟨bl, bc, bz⟩ := butterfly_spec roots _ n start j hc hr (by rw [hl]; omega) hn
    refine ⟨by rw [bl, hl], bc, ?_⟩
    intro p
    rw [bz p, hz (start + j), hz (start + n + j), hz p]
    have e1 : ¬ (start ≤ start + j ∧ start + j < start + j) := by omega
    have e2 : ¬ (start + n ≤ start + j ∧ start + j < start + n + j) := by omega
    have e3 : ¬ (start ≤ start + n + j ∧ start + n + j < start + j) := by omega
    have e4 : ¬ (start + n ≤ start + n + j ∧ start + n + j < start + n + j) := by omega
    rw [if_neg e1, if_neg e2, if_neg e3, if_neg e4]
    by_cases h1 : p = start + j
    · subst h1
      have a1 : start ≤ start + j ∧ start + j < start + (j + 1) := by omega
      rw [if_pos rfl, if_pos a1]
      have : start + j + n = start + n + j := by omega
      rw [this]
      have : start + j - start = j := by omega
      rw [this]
    · rw [if_neg h1]
      by_cases h2 : p = start + n + j
      · subst h2
        have a1 : ¬ (start ≤ start + n + j ∧ start + n + j < start + (j + 1)) := by omega
        have a2 : start + n ≤ start + n + j ∧ start + n + j < start + n + (j + 1) := by omega
        rw [if_pos rfl, if_neg a1, if_pos a2]
        have : start + n + j - n = start + j := by omega
        rw [this]
        have : start + n + j - start = n + j := by omega
        rw [this]
      · rw [if_neg h2]
        have c1 : (start ≤ p ∧ p < start + (j + 1)) ↔ (start ≤ p ∧ p < start + j) := by omega
        have c2 : (start + n ≤ p ∧ p < start + n + (j + 1))
            ↔ (start + n ≤ p ∧ p < start + n + j) := by omega
        simp only [c1, c2]

/-- The innermost loop of `fft_iterative` on the block that starts at `b * (2 * n)`. -/
theorem fft_block_spec (roots v : List mod_int) (n b : Nat)
    (hv : AllCanonical v) (hr : AllCanonical roots) (h : (b + 1) * (2 * n) ≤ v.length)
    (hn : 0 < n) :
    (NTT.fft_block roots n (b * (2 * n)) v).length = v.length ∧
    AllCanonical (NTT.fft_block roots n (b * (2 * n)) v) ∧
    ∀ p, Zv (NTT.fft_block roots n (b * (2 * n)) v) p =
      if b * (2 * n) ≤ p ∧ p < (b + 1) * (2 * n) then passF n (Zv roots) (Zv v) p
      else Zv v p := by
  have hb : (b + 1) * (2 * n) = b * (2 * n) + 2 * n := by ring
  obtain ⟨hl, hc, hz⟩ := fft_block_inv roots v n (b * (2 * n)) hv hr (by omega) hn n (le_refl _)
  refine ⟨hl, hc, ?_⟩
  intro p
  unfold NTT.fft_block
  rw [hz p]
  by_cases h1 : b * (2 * n) ≤ p ∧ p < b * (2 * n) + n
  · have hmod : p % (2 * n) = p - b * (2 * n) := by
      have : p = (p - b * (2 * n)) + b * (2 * n) := by omega
      conv_lhs => rw [this]
      rw [Nat.add_mul_mod_self_right, Nat.mod_eq_of_lt (by omega)]
    have a1 : b * (2 * n) ≤ p ∧ p < (b + 1) * (2 * n) := by omega
    rw [if_pos h1, if_pos a1]
    unfold passF
    rw [hmod, if_pos (by omega)]
  · rw [if_neg h1]
    by_cases h2 : b * (2 * n) + n ≤ p ∧ p < b * (2 * n) + n + n
    · have hmod : p % (2 * n) = p - b * (2 * n) := by
        have : p = (p - b * (2 * n)) + b * (2 * n) := by omega
        conv_lhs => rw [this]
        rw [Nat.add_mul_mod_self_right, Nat.mod_eq_of_lt (by omega)]
      have a1 : b * (2 * n) ≤ p ∧ p < (b + 1) * (2 * n) := by omega
      rw [if_pos h2, if_pos a1]
      unfold passF
      rw [hmod, if_neg (by omega)]
    · have a1 : ¬ (b * (2 * n) ≤ p ∧ p < (b + 1) * (2 * n)) := by omega
      rw [if_neg h2, if_neg a1]

theorem passF_congr (n : Nat) (r f f' : Nat → ZMod 998244353) (p : Nat)
    (h1 : f p = f' p) (h2 : p % (2 * n) < n → f (p + n) = f' (p + n))
    (h3 : ¬ p % (2 * n) < n → f (p - n) = f' (p - n)) :
    passF n r f p = passF n r f' p := by
  unfold passF
  by_cases h : p % (2 * n) < n
  · rw [if_pos h, if_pos h, h1, h2 h]
  · rw [if_neg h, if_neg h, h1, h3 h]

/-- The loop over `start` of `fft_iterative`, entered at the block `b`, applies one pass of
butterflies to the blocks `b, ..., B - 1`. -/
theorem fft_pass_spec (roots : List mod_int) (n B : Nat) (hn : 0 < n)
    (hr : AllCanonical roots) (fuel : Nat) :
    ∀ (b : Nat) (v : List mod_int), b ≤ B → B - b ≤ fuel → v.length = B * (2 * n) →
      AllCanonical v →
      (NTT.fft_pass roots (B * (2 * n)) n fuel (b * (2 * n)) v).length = v.length ∧
      AllCanonical (NTT.fft_pass roots (B * (2 * n)) n fuel (b * (2 * n)) v) ∧
      ∀ p, Zv (NTT.fft_pass roots (B * (2 * n)) n fuel (b * (2 * n)) v) p =
        if b * (2 * n) ≤ p ∧ p < B * (2 * n) then passF n (Zv roots) (Zv v) p else Zv v p := by
  induction fuel with
  | zero =>
    intro b v hb hf hlen hv
    have hbB : b = B := by omega
    subst hbB
    refine ⟨rfl, hv, ?_⟩
    intro p
    have : ¬ (b * (2 * n) ≤ p ∧ p < b * (2 * n)) := by omega
    rw [if_neg this]
    rfl
  | succ fuel ih =>
    intro b v hb hf hlen hv
    rw [NTT.fft_pass]
    by_cases hlt : b * (2 * n) < B * (2 * n)
    · rw [if_pos hlt]
      have hbB : b < B := by
        by_contra hcon
        have : B = b := by omega
        subst this
        omega
      have hle : (b + 1) * (2 * n) ≤ B * (2 * n) := Nat.mul_le_mul_right _ hbB
      obtain ⟨bl, bc, bz⟩ := fft_block_spec roots v n b hv hr (by rw [hlen]; exact hle) hn
      have hstart : b * (2 * n) + 2 * n = (b + 1) * (2 * n) := by ring
      rw [hstart]
      obtain ⟨il, ic, iz⟩ := ih (b + 1) _ hbB (by omega) (by rw [bl, hlen]) bc
      refine ⟨by rw [il, bl], ic, ?_⟩
      intro p
      rw [iz p]
      by_cases h1 : (b + 1) * (2 * n) ≤ p ∧ p < B * (2 * n)
      · have a1 : b * (2 * n) ≤ p ∧ p < B * (2 * n) := by omega
        rw [if_pos h1, if_pos a1]
        have hq : (b + 1) * (2 * n) ≤ p / (2 * n) * (2 * n) := by
          apply Nat.mul_le_mul_right
          rw [Nat.le_div_iff_mul_le (by omega)]
          exact h1.1
        have hdm : p / (2 * n) * (2 * n) + p % (2 * n) = p := by
          rw [mul_comm]; exact Nat.div_add_mod p (2 * n)
        apply passF_congr
        · rw [bz p, if_neg (by omega)]
        · intro _
          rw [bz (p + n), if_neg (by omega)]
        · intro hk
          rw [bz (p - n), if_neg (by omega)]
      · rw [if_neg h1, bz p]
        by_cases h2 : b * (2 * n) ≤ p ∧ p < (b + 1) * (2 * n)
        · have a1 : b * (2 * n) ≤ p ∧ p < B * (2 * n) := by omega
          rw [if_pos h2, if_pos a1]
        · have a1 : ¬ (b * (2 * n) ≤ p ∧ p < B * (2 * n)) := by omega
          rw [if_neg h2, if_neg a1]
    · rw [if_neg hlt]
      refine ⟨rfl, hv, ?_⟩
      intro p
      have : ¬ (b * (2 * n) ≤ p ∧ p < B * (2 * n)) := by omega
      rw [if_neg this]

/-- One full execution of the loop over `start`: a pass of butterflies on the whole vector. -/
theorem fft_pass_full (roots v : List mod_int) (n B : Nat) (hn : 0 < n)
    (hr : AllCanonical roots) (hv : AllCanonical v) (hlen : v.length = B * (2 * n)) :
    (NTT.fft_pass roots (B * (2 * n)) n (B * (2 * n)) 0 v).length = v.length ∧
    AllCanonical (NTT.fft_pass roots (B * (2 * n)) n (B * (2 * n)) 0 v) ∧
    ∀ p, p < B * (2 * n) →
      Zv (NTT.fft_pass roots (B * (2 * n)) n (B * (2 * n)) 0 v) p
        = passF n (Zv roots) (Zv v) p := by
  have hB : B ≤ B * (2 * n) := Nat.le_mul_of_pos_right _ (by omega)
  have h := fft_pass_spec roots n B hn hr (B * (2 * n)) 0 v (Nat.zero_le _) (by omega) hlen hv
  rw [Nat.zero_mul] at h
  refine ⟨h.1, h.2.1, ?_⟩
  intro p hp
  rw [h.2.2 p, if_pos ⟨Nat.zero_le _, hp⟩]

/-! ## The roots of unity -/

theorem MOD_cast_zero : ((998244353 : Nat) : ZMod 998244353) = 0 := ZMod.natCast_self _

theorem rootZ_pow_half : rootZ ^ (2 ^ 22) = -1 := by
  have h := pow_loop_toZ 64 ⟨31⟩ (mod_int.ctor 1) (2 ^ 22) (by decide) canonical_ctor_one
    (by norm_num)
  have he : mod_int.pow_loop 64 ⟨31⟩ (mod_int.ctor 1) ((2 ^ 22 : Nat) : Int) = ⟨998244352⟩ := by
    decide!
  rw [he, toZ_ctor_one, one_mul] at h
  have h31 : (⟨31⟩ : mod_int).toZ = rootZ := by
    unfold mod_int.toZ rootZ; norm_num
  rw [h31] at h
  rw [← h]
  unfold mod_int.toZ
  have h0 := MOD_cast_zero
  have : ((998244352 : Int) : ZMod 998244353) + 1 = 0 := by
    push_cast at h0 ⊢
    norm_num
    exact h0
  exact eq_neg_of_add_eq_zero_left this

theorem rootZ_pow_full : rootZ ^ (2 ^ 23) = 1 := by
  have : (2 : Nat) ^ 23 = 2 ^ 22 * 2 := by norm_num
  rw [this, pow_mul, rootZ_pow_half]
  norm_num

theorem omegaK_pow (K : Nat) (hK : K ≤ 23) : omegaK K ^ (2 ^ K) = 1 := by
  unfold omegaK
  rw [← pow_mul, ← pow_add, show 23 - K + K = 23 by omega]
  exact rootZ_pow_full

theorem omegaK_pow_half (K : Nat) (hK : K + 1 ≤ 23) : omegaK (K + 1) ^ (2 ^ K) = -1 := by
  unfold omegaK
  rw [← pow_mul, ← pow_add, show 23 - (K + 1) + K = 22 by omega]
  exact rootZ_pow_half

theorem omegaK_sq (K : Nat) (hK : K + 1 ≤ 23) : omegaK (K + 1) ^ 2 = omegaK K := by
  unfold omegaK
  rw [← pow_mul, ← pow_succ, show 23 - (K + 1) + 1 = 23 - K by omega]

/-! ## The passes compute the transform block by block -/

theorem brev_succ_low (l t : Nat) (ht : t < 2 ^ l) : brev (l + 1) t = 2 * brev l t := by
  show 2 * brev l (t % 2 ^ l) + (t / 2 ^ l) % 2 = 2 * brev l t
  rw [Nat.mod_eq_of_lt ht, Nat.div_eq_of_lt ht]
  simp

theorem brev_succ_high (l t : Nat) (ht : t < 2 ^ l) :
    brev (l + 1) (2 ^ l + t) = 2 * brev l t + 1 := by
  show 2 * brev l ((2 ^ l + t) % 2 ^ l) + ((2 ^ l + t) / 2 ^ l) % 2 = 2 * brev l t + 1
  have hpos : 0 < 2 ^ l := Nat.two_pow_pos l
  rw [Nat.add_mod_left, Nat.mod_eq_of_lt ht, Nat.add_div_left _ hpos, Nat.div_eq_of_lt ht]

theorem BlockDFT_zero (N : Nat) (f : Nat → ZMod 998244353) : BlockDFT N 0 f f := by
  intro b k hk _
  have : k = 0 := by simpa using hk
  subst this
  simp [brev]

/-- One pass of butterflies turns the transforms of the blocks of `2^l` positions into the
transforms of the blocks of `2^(l+1)` positions. -/
theorem BlockDFT_step (N l : Nat) (f f' f0 r : Nat → ZMod 998244353) (hl : l + 1 ≤ 23)
    (hN : 2 ^ (l + 1) ∣ N) (hf : BlockDFT N l f f0)
    (hr : ∀ k, k < 2 ^ l → r (2 ^ l + k) = omegaK (l + 1) ^ k)
    (hf' : ∀ p, p < N → f' p = passF (2 ^ l) r f p) : BlockDFT N (l + 1) f' f0 := by
  intro b k hk hp
  have hpos : 0 < 2 ^ l := Nat.two_pow_pos l
  have hpw : 2 ^ (l + 1) = 2 * 2 ^ l := by rw [pow_succ]; ring
  have hpw' : 2 ^ (l + 1) = 2 ^ l + 2 ^ l := by omega
  -- the block `b` lies inside the vector
  have hblock : (b + 1) * 2 ^ (l + 1) ≤ N := by
    obtain ⟨c, rfl⟩ := hN
    have hbc : b < c := by
      by_contra hcon
      have : 2 ^ (l + 1) * c ≤ 2 ^ (l + 1) * b := Nat.mul_le_mul_left _ (by omega)
      have : b * 2 ^ (l + 1) = 2 ^ (l + 1) * b := mul_comm _ _
      omega
    have : 2 ^ (l + 1) * (b + 1) ≤ 2 ^ (l + 1) * c := Nat.mul_le_mul_left _ hbc
    have : (b + 1) * 2 ^ (l + 1) = 2 ^ (l + 1) * (b + 1) := mul_comm _ _
    omega
  have hb1 : b * 2 ^ (l + 1) = (2 * b) * 2 ^ l := by rw [hpw]; ring
  have hb2 : (b + 1) * 2 ^ (l + 1) = (2 * b) * 2 ^ l + 2 ^ l + 2 ^ l := by rw [hpw]; ring
  have hmod : (b * 2 ^ (l + 1) + k) % (2 * 2 ^ l) = k := by
    rw [← hpw, add_comm, Nat.add_mul_mod_self_right, Nat.mod_eq_of_lt hk]
  have hw2 : ∀ e : Nat, omegaK (l + 1) ^ (2 * e) = omegaK l ^ e := by
    intro e
    rw [pow_mul, omegaK_sq l hl]
  rw [hf' _ hp]
  unfold passF
  rw [hmod, hpw', Finset.sum_range_add]
  have hsum1 : ∀ k', k' < 2 ^ l →
      ∑ t in Finset.range (2 ^ l), f0 (b * (2 ^ l + 2 ^ l) + t) *
          omegaK (l + 1) ^ (brev (l + 1) t * k')
        = f (2 * b * 2 ^ l + k') := by
    intro k' hk'
    rw [hf (2 * b) k' hk' (by omega)]
    apply Finset.sum_congr rfl
    intro t ht
    rw [Finset.mem_range] at ht
    rw [brev_succ_low l t ht, mul_assoc, hw2, ← hpw', hb1]
  have hsum2 : ∀ k', k' < 2 ^ l →
      ∑ t in Finset.range (2 ^ l), f0 (b * (2 ^ l + 2 ^ l) + (2 ^ l + t)) *
          omegaK (l + 1) ^ (brev (l + 1) (2 ^ l + t) * k')
        = f ((2 * b + 1) * 2 ^ l + k') * omegaK (l + 1) ^ k' := by
    intro k' hk'
    rw [hf (2 * b + 1) k' hk' (by
      have : (2 * b + 1) * 2 ^ l = 2 * b * 2 ^ l + 2 ^ l := by ring
      omega), Finset.sum_mul]
    apply Finset.sum_congr rfl
    intro t ht
    rw [Finset.mem_range] at ht
    rw [brev_succ_high l t ht, add_mul, one_mul, pow_add, mul_assoc 2, hw2, ← hpw', hb1]
    have : 2 * b * 2 ^ l + (2 ^ l + t) = (2 * b + 1) * 2 ^ l + t := by ring
    rw [this]
    ring
  by_cases hk2 : k < 2 ^ l
  · rw [if_pos hk2, hr k hk2]
    rw [hsum1 k hk2, hsum2 k hk2, ← hpw', hb1]
    have : 2 * b * 2 ^ l + k + 2 ^ l = (2 * b + 1) * 2 ^ l + k := by ring
    rw [this]
  · rw [if_neg hk2]
    obtain ⟨k', rfl⟩ : ∃ k', k = 2 ^ l + k' := ⟨k - 2 ^ l, by omega⟩
    have hk' : k' < 2 ^ l := by omega
    rw [hr k' hk']
    -- the exponents `brev * (2^l + k')` reduce to `brev * k'` up to a sign
    have hz : ∀ t, omegaK l ^ (brev l t * 2 ^ l) = 1 := by
      intro t
      rw [mul_comm, pow_mul, omegaK_pow l (by omega), one_pow]
    have e1 : ∀ t, t < 2 ^ l →
        omegaK (l + 1) ^ (brev (l + 1) t * (2 ^ l + k'))
          = omegaK (l + 1) ^ (brev (l + 1) t * k') := by
      intro t ht
      rw [mul_add, pow_add, brev_succ_low l t ht, mul_assoc 2, hw2, hz t, one_mul]
    have e2 : ∀ t, t < 2 ^ l →
        omegaK (l + 1) ^ (brev (l + 1) (2 ^ l + t) * (2 ^ l + k'))
          = - omegaK (l + 1) ^ (brev (l + 1) (2 ^ l + t) * k') := by
      intro t ht
      rw [mul_add, pow_add, brev_succ_high l t ht, add_mul, one_mul, pow_add,
        omegaK_pow_half l hl, mul_assoc 2, hw2, hz t]
      ring
    have s1 : ∑ t in Finset.range (2 ^ l), f0 (b * (2 ^ l + 2 ^ l) + t) *
          omegaK (l + 1) ^ (brev (l + 1) t * (2 ^ l + k'))
        = ∑ t in Finset.range (2 ^ l), f0 (b * (2 ^ l + 2 ^ l) + t) *
          omegaK (l + 1) ^ (brev (l + 1) t * k') := by
      apply Finset.sum_congr rfl
      intro t ht
      rw [Finset.mem_range] at ht
      rw [e1 t ht]
    have s2 : ∑ t in Finset.range (2 ^ l), f0 (b * (2 ^ l + 2 ^ l) + (2 ^ l + t)) *
          omegaK (l + 1) ^ (brev (l + 1) (2 ^ l + t) * (2 ^ l + k'))
        = - ∑ t in Finset.range (2 ^ l), f0 (b * (2 ^ l + 2 ^ l) + (2 ^ l + t)) *
          omegaK (l + 1) ^ (brev (l + 1) (2 ^ l + t) * k') := by
      rw [← Finset.sum_neg_distrib]
      apply Finset.sum_congr rfl
      intro t ht
      rw [Finset.mem_range] at ht
      rw [e2 t ht]
      ring
    rw [s1, s2, hsum1 k' hk', hsum2 k' hk', ← hpw', hb1]
    have a1 : 2 * b * 2 ^ l + (2 ^ l + k') - 2 ^ l = 2 * b * 2 ^ l + k' := by omega
    have a2 : 2 * b * 2 ^ l + (2 ^ l + k') = (2 * b + 1) * 2 ^ l + k' := by ring
    rw [a1, a2]
    ring

/-- The loop over `n` of `fft_iterative`, entered with half-width `2^l`, brings every block
transform up to the whole length `2^K`. -/
theorem fft_passes_spec (roots : List mod_int) (K : Nat) (hK : K ≤ 23)
    (hr : AllCanonical roots)
    (hroots : ∀ l, l < K → ∀ i, i < 2 ^ l → Zv roots (2 ^ l + i) = omegaK (l + 1) ^ i)
    (f0 : Nat → ZMod 998244353) (fuel : Nat) :
    ∀ (l : Nat) (v : List mod_int), l ≤ K → K - l ≤ fuel → v.length = 2 ^ K →
      AllCanonical v → BlockDFT (2 ^ K) l (Zv v) f0 →
      (NTT.fft_passes roots (2 ^ K) fuel (2 ^ l) v).length = 2 ^ K ∧
      AllCanonical (NTT.fft_passes roots (2 ^ K) fuel (2 ^ l) v) ∧
      BlockDFT (2 ^ K) K (Zv (NTT.fft_passes roots (2 ^ K) fuel (2 ^ l) v)) f0 := by
  induction fuel with
  | zero =>
    intro l v hl hf hlen hv hb
    have : l = K := by omega
    subst this
    exact ⟨hlen, hv, hb⟩
  | succ fuel ih =>
    intro l v hl hf hlen hv hb
    rw [NTT.fft_passes]
    by_cases hlt : 2 ^ l < 2 ^ K
    · rw [if_pos hlt]
      have hlK : l < K := by
        by_contra hcon
        have : 2 ^ K ≤ 2 ^ l := two_pow_le_of_le (by omega)
        omega
      obtain ⟨d, rfl⟩ : ∃ d, K = l + 1 + d := ⟨K - l - 1, by omega⟩
      have hN : 2 ^ (l + 1 + d) = 2 ^ d * (2 * 2 ^ l) := by
        rw [pow_add, pow_succ]; ring
      have hpass := fft_pass_full roots v (2 ^ l) (2 ^ d) (Nat.two_pow_pos l) hr hv
        (by rw [hlen, hN])
      rw [← hN] at hpass
      obtain ⟨pl, pc, pz⟩ := hpass
      have hstep : BlockDFT (2 ^ (l + 1 + d)) (l + 1)
          (Zv (NTT.fft_pass roots (2 ^ (l + 1 + d)) (2 ^ l) (2 ^ (l + 1 + d)) 0 v)) f0 :=
        BlockDFT_step (2 ^ (l + 1 + d)) l (Zv v) _ f0 (Zv roots) (by omega)
          ⟨2 ^ d, by rw [pow_add]⟩ hb (hroots l hlK) pz
      have h2 : 2 ^ l * 2 = 2 ^ (l + 1) := by rw [pow_succ]
      rw [h2]
      exact ih (l + 1) _ (by omega) (by omega) (by rw [pl, hlen]) pc hstep
    · rw [if_neg hlt]
      have : l = K := by
        by_contra hcon
        have : l < K := by omega
        have : 2 ^ l < 2 ^ K := Nat.pow_lt_pow_right (by decide) this
        omega
      subst this
      exact ⟨hlen, hv, hb⟩

/-- Reindexing a sum over the positions by the bit reversal. -/
theorem sum_brev (K : Nat) (F : Nat → ZMod 998244353) :
    ∑ t in Finset.range (2 ^ K), F (brev K t) = ∑ j in Finset.range (2 ^ K), F j := by
  apply Finset.sum_nbij' (brev K) (brev K)
  · intro a _
    exact Finset.mem_range.mpr (brev_lt K a)
  · intro a _
    exact Finset.mem_range.mpr (brev_lt K a)
  · intro a ha
    exact brev_invol K a (Finset.mem_range.mp ha)
  · intro a ha
    exact brev_invol K a (Finset.mem_range.mp ha)
  · intro a _
    rfl

/-- The passes of `fft_iterative` applied to the bit-reversed input compute the discrete Fourier
transform. -/
theorem fft_passes_dft (roots values v : List mod_int) (K : Nat) (hK : K ≤ 23)
    (hr : AllCanonical roots)
    (hroots : ∀ l, l < K → ∀ i, i < 2 ^ l → Zv roots (2 ^ l + i) = omegaK (l + 1) ^ i)
    (hlen : v.length = 2 ^ K) (hv : AllCanonical v)
    (hperm : ∀ p, p < 2 ^ K → Zv v p = Zv values (brev K p)) :
    (NTT.fft_passes roots (2 ^ K) (2 ^ K) 1 v).length = 2 ^ K ∧
    AllCanonical (NTT.fft_passes roots (2 ^ K) (2 ^ K) 1 v) ∧
    ∀ k, k < 2 ^ K →
      Zv (NTT.fft_passes roots (2 ^ K) (2 ^ K) 1 v) k = dft (omegaK K) (2 ^ K) (Zv values) k := by
  have hfuel : K ≤ 2 ^ K := le_of_lt (Nat.lt_two_pow K)
  have h := fft_passes_spec roots K hK hr hroots (Zv v) (2 ^ K) 0 v (Nat.zero_le _) (by omega)
    hlen hv (BlockDFT_zero _ _)
  rw [pow_zero] at h
  obtain ⟨hl, hc, hb⟩ := h
  refine ⟨hl, hc, ?_⟩
  intro k hk
  have := hb 0 k hk (by omega)
  rw [Nat.zero_mul, Nat.zero_add] at this
  rw [this]
  unfold dft
  rw [← sum_brev K (fun j => Zv values j * omegaK K ^ (j * k))]
  apply Finset.sum_congr rfl
  intro t ht
  rw [Finset.mem_range] at ht
  simp only [Nat.zero_mul, Nat.zero_add]
  rw [hperm t ht]

/-! ## The table of roots -/

theorem find_root_eq (s : NTT) :
    NTT.find_root s = some { s with max_size := 8388608, root := ⟨31⟩ } := by
  unfold NTT.find_root
  have h1 : wrap32 (2 ^ builtin_ctz (wrap32 (MOD - 1))) = 8388608 := by decide!
  have h2 : NTT.find_root_loop MOD.toNat 8388608 (mod_int.ctor 2) = some ⟨31⟩ := by decide!
  simp only [h1, h2]

/-- The first `c` iterations of the loop of `prepare_roots` that fills the range
`[2^l, 2^(l+1))` from the range `[2^(l-1), 2^l)`, here with `a = 2^(l-1)`. -/
theorem prepare_roots_fill_inv (z : mod_int) (a : Nat) (roots : List mod_int) (_ha : 1 ≤ a)
    (hz : canonical z) (hc : AllCanonical roots) (hlen : 4 * a ≤ roots.length)
    (c : Nat) (hca : c ≤ a) :
    ((List.range' a c).foldl
      (fun r i =>
        let r1 := r.set (2 * i) (r.getD i (mod_int.ctor 0))
        r1.set (2 * i + 1) (mod_int.mul (r1.getD i (mod_int.ctor 0)) z)) roots).length
      = roots.length ∧
    AllCanonical ((List.range' a c).foldl
      (fun r i =>
        let r1 := r.set (2 * i) (r.getD i (mod_int.ctor 0))
        r1.set (2 * i + 1) (mod_int.mul (r1.getD i (mod_int.ctor 0)) z)) roots) ∧
    ∀ p, Zv ((List.range' a c).foldl
      (fun r i =>
        let r1 := r.set (2 * i) (r.getD i (mod_int.ctor 0))
        r1.set (2 * i + 1) (mod_int.mul (r1.getD i (mod_int.ctor 0)) z)) roots) p
      = if 2 * a ≤ p ∧ p < 2 * a + 2 * c then
          (if p % 2 = 0 then Zv roots (p / 2) else Zv roots (p / 2) * z.toZ)
        else Zv roots p := by
  induction c with
  | zero =>
    refine ⟨rfl, hc, ?_⟩
    intro p
    have : ¬ (2 * a ≤ p ∧ p < 2 * a + 2 * 0) := by omega
    rw [if_neg this]
    rfl
  | succ c ih =>
    obtain ⟨hl, hcan, hz'⟩ := ih (by omega)
    rw [List.range'_1_concat, List.foldl_append]
    simp only [List.foldl_cons, List.foldl_nil]
    generalize hR : (List.range' a c).foldl
      (fun r i =>
        let r1 := r.set (2 * i) (r.getD i (mod_int.ctor 0))
        r1.set (2 * i + 1) (mod_int.mul (r1.getD i (mod_int.ctor 0)) z)) roots = R at hl hcan hz'
    have hread : (R.set (2 * (a + c)) (R.getD (a + c) (mod_int.ctor 0))).getD (a + c)
        (mod_int.ctor 0) = R.getD (a + c) (mod_int.ctor 0) := by
      rw [getD_set_eq, if_neg (by omega)]
    rw [hread]
    have hci := hcan.getD (a + c)
    have hZi : Zv R (a + c) = Zv roots (a + c) := by
      rw [hz' (a + c), if_neg (by omega)]
    refine ⟨by simp [hl], (hcan.set _ _ hci).set _ _ (mul_canonical _ _ hci hz), ?_⟩
    intro p
    rw [Zv_set, Zv_set, List.length_set, toZ_mul _ _ hci hz, hz' p]
    have hZi' : (R.getD (a + c) (mod_int.ctor 0)).toZ = Zv roots (a + c) := hZi
    rw [hZi']
    by_cases h1 : p = 2 * (a + c) + 1
    · have a1 : 2 * (a + c) + 1 = p ∧ 2 * (a + c) + 1 < R.length := ⟨h1.symm, by omega⟩
      have a2 : 2 * a ≤ p ∧ p < 2 * a + 2 * (c + 1) := by omega
      rw [if_pos a1, if_pos a2, if_neg (by omega)]
      have : p / 2 = a + c := by omega
      rw [this]
    · have a1 : ¬ (2 * (a + c) + 1 = p ∧ 2 * (a + c) + 1 < R.length) := fun h => h1 h.1.symm
      rw [if_neg a1]
      by_cases h2 : p = 2 * (a + c)
      · have a3 : 2 * (a + c) = p ∧ 2 * (a + c) < R.length := ⟨h2.symm, by omega⟩
        have a2 : 2 * a ≤ p ∧ p < 2 * a + 2 * (c + 1) := by omega
        rw [if_pos a3, if_pos a2, if_pos (by omega)]
        have : p / 2 = a + c := by omega
        rw [this]
      · have a3 : ¬ (2 * (a + c) = p ∧ 2 * (a + c) < R.length) := fun h => h2 h.1.symm
        rw [if_neg a3]
        have c1 : (2 * a ≤ p ∧ p < 2 * a + 2 * (c + 1)) ↔ (2 * a ≤ p ∧ p < 2 * a + 2 * c) := by
          omega
        simp only [c1]

/-- The loop of `prepare_roots` that fills the range `[2^l, 2^(l+1))`. -/
theorem prepare_roots_fill_spec (z : mod_int) (l : Nat) (roots : List mod_int) (hl : 1 ≤ l)
    (hz : canonical z) (hc : AllCanonical roots) (hlen : 2 ^ (l + 1) ≤ roots.length) :
    (NTT.prepare_roots_fill z l roots).length = roots.length ∧
    AllCanonical (NTT.prepare_roots_fill z l roots) ∧
    ∀ p, Zv (NTT.prepare_roots_fill z l roots) p
      = if 2 ^ l ≤ p ∧ p < 2 ^ (l + 1) then
          (if p % 2 = 0 then Zv roots (p / 2) else Zv roots (p / 2) * z.toZ)
        else Zv roots p := by
  obtain ⟨k, rfl⟩ : ∃ k, l = k + 1 := ⟨l - 1, by omega⟩
  have hpos : 1 ≤ 2 ^ k := Nat.two_pow_pos k
  have e1 : 2 ^ (k + 1) = 2 * 2 ^ k := by rw [pow_succ]; ring
  have e2 : 2 ^ (k + 1 + 1) = 2 * 2 ^ k + 2 * 2 ^ k := by rw [pow_succ, e1]; ring
  have h := prepare_roots_fill_inv z (2 ^ k) roots hpos hz hc (by omega) (2 ^ k) (le_refl _)
  unfold NTT.prepare_roots_fill
  have s1 : 1 <<< (k + 1 - 1) = 2 ^ k := by
    rw [Nat.shiftLeft_eq, Nat.add_sub_cancel, one_mul]
  have s2 : 1 <<< (k + 1) - 1 <<< (k + 1 - 1) = 2 ^ k := by
    rw [Nat.shiftLeft_eq, s1, one_mul]; omega
  rw [s2, s1, e2, e1]
  exact h

theorem vector_resize_length {α : Type} (v : List α) (n : Nat) (x : α) :
    (vector_resize v n x).length = n := by
  unfold vector_resize
  rw [List.length_append, List.length_take, List.length_replicate]
  omega

theorem vector_resize_getD {α : Type} (v : List α) (n p : Nat) (x : α) (hn : v.length ≤ n) :
    (vector_resize v n x).getD p x = v.getD p x := by
  unfold vector_resize
  rw [List.take_of_length_le hn]
  by_cases hp : p < v.length
  · rw [List.getD_append _ _ _ _ hp]
  · rw [List.getD_append_right _ _ _ _ (by omega), getD_of_length_le v p x (by omega)]
    by_cases hq : p - v.length < n - v.length
    · have := getD_mem (List.replicate (n - v.length) x) (p - v.length) x (by simpa using hq)
      exact List.eq_of_mem_replicate this
    · exact getD_of_length_le _ _ _ (by simp; omega)

theorem vector_resize_canonical (v : List mod_int) (n : Nat) (hv : AllCanonical v) :
    AllCanonical (vector_resize v n (mod_int.ctor 0)) := by
  intro x hx
  unfold vector_resize at hx
  rw [List.mem_append] at hx
  rcases hx with h | h
  · exact hv x (List.mem_of_mem_take h)
  · rw [List.eq_of_mem_replicate h]
    exact canonical_ctor_zero

theorem Zv_resize (v : List mod_int) (n p : Nat) (hn : v.length ≤ n) :
    Zv (vector_resize v n (mod_int.ctor 0)) p = Zv v p := by
  unfold Zv
  rw [vector_resize_getD v n p _ hn]

theorem int_two_pow (l : Nat) : (2 : Int) ^ l = ((2 ^ l : Nat) : Int) := by push_cast; rfl

theorem max_size_shift (l : Nat) (hl : l + 1 ≤ 23) :
    (8388608 : Int) >>> (l + 1) = ((2 ^ (22 - l) : Nat) : Int) := by
  rw [Int.shiftRight_eq_div_pow]
  have h : (8388608 : Int) = ((2 ^ 23 : Nat) : Int) := by norm_num
  rw [h, ← Int.natCast_div, Nat.pow_div (by omega) (by decide)]
  congr 2
  omega

theorem toZ_root : (⟨31⟩ : mod_int).toZ = rootZ := by
  unfold mod_int.toZ rootZ; norm_num

/-- The loop `while (1 << length < n)` of `prepare_roots` extends the layout of the table up to
the length `2^K`. -/
theorem prepare_roots_loop_spec (K : Nat) (hK : K ≤ 23) (fuel : Nat) :
    ∀ (l : Nat) (roots : List mod_int), 1 ≤ l → l ≤ K → K - l < fuel → roots.length = 2 ^ K →
      AllCanonical roots →
      (∀ l', l' < l → ∀ i, i < 2 ^ l' → Zv roots (2 ^ l' + i) = omegaK (l' + 1) ^ i) →
      ∃ r', NTT.prepare_roots_loop ⟨31⟩ 8388608 ((2 ^ K : Nat) : Int) fuel l roots = some r' ∧
        r'.length = 2 ^ K ∧ AllCanonical r' ∧
        ∀ l', l' < K → ∀ i, i < 2 ^ l' → Zv r' (2 ^ l' + i) = omegaK (l' + 1) ^ i := by
  induction fuel with
  | zero => intro l roots _ _ hf; omega
  | succ fuel ih =>
    intro l roots hl1 hlK hf hlen hc htab
    rw [NTT.prepare_roots_loop]
    have hl23 : (2 : Nat) ^ l ≤ 2 ^ 23 := two_pow_le_of_le (by omega)
    have hw : wrap32 ((2 : Int) ^ l) = ((2 ^ l : Nat) : Int) := by
      have h0 : (0 : Int) ≤ (2 : Int) ^ l := by positivity
      have h1 : (2 : Int) ^ l ≤ 8388608 := by exact_mod_cast hl23
      rw [wrap32_of_range (by omega) (by omega), int_two_pow]
    rw [hw]
    by_cases hlt : l < K
    · have hpl : 2 ^ l < 2 ^ K := Nat.pow_lt_pow_right (by decide) hlt
      have hcond : ((2 ^ l : Nat) : Int) < ((2 ^ K : Nat) : Int) := by exact_mod_cast hpl
      rw [if_pos hcond, max_size_shift l (by omega)]
      obtain ⟨z, hz, hzc, hzv⟩ := pow_toZ 1 ⟨31⟩ (2 ^ (22 - l)) (by decide) (by
        have : (2 : Nat) ^ (22 - l) ≤ 2 ^ 22 := two_pow_le_of_le (by omega)
        have : (2 : Nat) ^ 22 < 2 ^ 64 := by norm_num
        omega)
      rw [hz]
      simp only
      have hz' : z.toZ = omegaK (l + 1) := by
        rw [hzv, toZ_root]
        unfold omegaK
        rw [show 23 - (l + 1) = 22 - l by omega]
      have hle : 2 ^ (l + 1) ≤ roots.length := by
        rw [hlen]; exact two_pow_le_of_le (by omega)
      obtain ⟨fl, fc, fz⟩ := prepare_roots_fill_spec z l roots hl1 hzc hc hle
      apply ih (l + 1) _ (by omega) (by omega) (by omega) (by rw [fl, hlen]) fc
      intro l' hl' i hi
      have hpl' : 1 ≤ 2 ^ l' := Nat.two_pow_pos l'
      rw [fz]
      by_cases hll : l' < l
      · have : 2 ^ (l' + 1) ≤ 2 ^ l := two_pow_le_of_le (by omega)
        have e : 2 ^ (l' + 1) = 2 * 2 ^ l' := by rw [pow_succ]; ring
        rw [if_neg (by omega)]
        exact htab l' hll i hi
      · have hleq : l' = l := by omega
        subst hleq
        obtain ⟨k, rfl⟩ : ∃ k, l' = k + 1 := ⟨l' - 1, by omega⟩
        have e : 2 ^ (k + 1) = 2 * 2 ^ k := by rw [pow_succ]; ring
        have e2 : 2 ^ (k + 1 + 1) = 2 * 2 ^ (k + 1) := by rw [pow_succ]; ring
        rw [if_pos (by omega)]
        have hhalf : (2 ^ (k + 1) + i) / 2 = 2 ^ k + i / 2 := by omega
        have hpar : (2 ^ (k + 1) + i) % 2 = i % 2 := by omega
        rw [hhalf, hpar, htab k (by omega) (i / 2) (by omega), hz', ← omegaK_sq (k + 1) (by omega),
          ← pow_mul]
        have hi2 : i = 2 * (i / 2) + i % 2 := by omega
        by_cases hpar2 : i % 2 = 0
        · rw [if_pos hpar2]
          conv_rhs => rw [hi2, hpar2, add_zero]
        · rw [if_neg hpar2]
          have : i % 2 = 1 := by omega
          conv_rhs => rw [hi2, this, pow_succ]
    · have hcond : ¬ ((2 ^ l : Nat) : Int) < ((2 ^ K : Nat) : Int) := by
        have : l = K := by omega
        rw [this]; omega
      rw [if_neg hcond]
      have : l = K := by omega
      subst this
      exact ⟨roots, rfl, hlen, hc, htab⟩

theorem two_pow_inj {a b : Nat} (h : 2 ^ a = 2 ^ b) : a = b :=
  Nat.pow_right_injective (le_refl 2) h

/-- The member `prepare_roots`, called with a power of two up to `2^23`, returns, keeps the
invariant and leaves a table of at least that length. -/
theorem prepare_roots_spec (s : NTT) (hs : s.Inv) (K : Nat) (hK : K ≤ 23) :
    ∃ s', NTT.prepare_roots s ((2 ^ K : Nat) : Int) = some s' ∧ s'.Inv ∧
      s'.bit_reverse = s.bit_reverse ∧ s'.max_size = 8388608 ∧ s'.root = ⟨31⟩ ∧
      ∃ L, K ≤ L ∧ L ≤ 23 ∧ s'.roots.length = 2 ^ L ∧
        ∀ l, l < L → ∀ i, i < 2 ^ l → Zv s'.roots (2 ^ l + i) = omegaK (l + 1) ^ i := by
  obtain ⟨⟨hrc, L, hL1, hL23, hLlen, hLtab⟩, htable, hmax⟩ := hs
  -- the state after the optional call of `find_root`
  have h1 : ∃ s1, (if s.max_size < 0 then NTT.find_root s else some s) = some s1 ∧
      s1.roots = s.roots ∧ s1.bit_reverse = s.bit_reverse ∧ s1.max_size = 8388608 ∧
      s1.root = ⟨31⟩ := by
    rcases hmax with h | ⟨h, h'⟩
    · rw [h, if_pos (by decide), find_root_eq]
      exact ⟨_, rfl, rfl, rfl, rfl, rfl⟩
    · rw [h, if_neg (by decide)]
      exact ⟨s, rfl, rfl, rfl, h, h'⟩
  obtain ⟨s1, hs1, hr1, hb1, hm1, hroot1⟩ := h1
  have hK23 : (2 : Nat) ^ K ≤ 2 ^ 23 := two_pow_le_of_le hK
  unfold NTT.prepare_roots
  rw [hs1]
  simp only
  have hassert : ¬ ¬ ((2 ^ K : Nat) : Int) ≤ s1.max_size := by
    rw [hm1]; omega
  rw [if_neg hassert]
  by_cases hge : (s1.roots.length : Int) ≥ ((2 ^ K : Nat) : Int)
  · rw [if_pos hge]
    refine ⟨s1, rfl, ⟨?_, ?_, Or.inr ⟨hm1, hroot1⟩⟩, hb1, hm1, hroot1, L, ?_, hL23, ?_, ?_⟩
    · rw [hr1]; exact ⟨hrc, L, hL1, hL23, hLlen, hLtab⟩
    · rw [hb1]; exact htable
    · rw [hr1, hLlen] at hge
      by_contra hcon
      have : 2 ^ L < 2 ^ K := Nat.pow_lt_pow_right (by decide) (by omega)
      omega
    · rw [hr1]; exact hLlen
    · rw [hr1]; exact hLtab
  · rw [if_neg hge]
    have hLK : L < K := by
      by_contra hcon
      have : 2 ^ K ≤ 2 ^ L := two_pow_le_of_le (by omega)
      rw [hr1, hLlen] at hge
      omega
    rw [hr1, hLlen, get_length_two_pow L (by omega)]
    simp only
    rw [hroot1, hm1, Int.toNat_ofNat]
    have hle : s.roots.length ≤ 2 ^ K := by
      rw [hLlen]; exact two_pow_le_of_le (by omega)
    obtain ⟨r', hr', hlen', hc', htab'⟩ := prepare_roots_loop_spec K hK 32 L
      (vector_resize s.roots (2 ^ K) (mod_int.ctor 0)) hL1 (by omega) (by omega)
      (vector_resize_length _ _ _) (vector_resize_canonical _ _ hrc)
      (by
        intro l' hl' i hi
        rw [Zv_resize _ _ _ hle]
        exact hLtab l' hl' i hi)
    rw [hr']
    simp only
    have hK1 : 1 ≤ K := by omega
    exact ⟨_, rfl, ⟨⟨hc', K, hK1, hK, hlen', htab'⟩, by simpa [hb1] using htable,
      Or.inr ⟨rfl, rfl⟩⟩, hb1, rfl, rfl, K, le_refl _, hK, hlen', htab'⟩

/-! ## `bit_reorder` and `fft_iterative` -/

theorem fill_table_ok (K : Nat) :
    TableOK (NTT.bit_reverse_fill K (2 ^ K) (List.replicate (2 ^ K) 0)) := by
  intro K' hlen i hi
  have hK : K' = K := by
    have := (bit_reverse_fill_getD K 0 (Nat.two_pow_pos K)).2
    rw [this] at hlen
    exact (two_pow_inj hlen).symm
  subst hK
  exact (bit_reverse_fill_getD K' i hi).1

/-- The member `bit_reorder`, called with `n = 2^K` on a vector of that length, permutes the
vector by the bit reversal and keeps a correct table. -/
theorem bit_reorder_spec (s : NTT) (htab : TableOK s.bit_reverse) (K : Nat) (hK : K < 31)
    (values : List mod_int) (hlen : values.length = 2 ^ K) :
    ∃ s' out, NTT.bit_reorder s ((2 ^ K : Nat) : Int) values = some (s', out) ∧
      s'.roots = s.roots ∧ s'.max_size = s.max_size ∧ s'.root = s.root ∧
      TableOK s'.bit_reverse ∧ out.length = 2 ^ K ∧
      ∀ p, p < 2 ^ K → out.getD p (mod_int.ctor 0) = values.getD (brev K p) (mod_int.ctor 0) := by
  unfold NTT.bit_reorder
  by_cases hne : (s.bit_reverse.length : Int) ≠ ((2 ^ K : Nat) : Int)
  · rw [if_pos hne, get_length_two_pow K hK]
    simp only [Int.toNat_ofNat]
    have hsw := bit_reorder_swaps_spec K _ values hlen
      (fun i hi => (bit_reverse_fill_getD K i hi).1)
    exact ⟨_, _, rfl, rfl, rfl, rfl, fill_table_ok K, hsw.1, hsw.2⟩
  · rw [if_neg hne]
    simp only [Int.toNat_ofNat]
    have hl : s.bit_reverse.length = 2 ^ K := by
      have : (s.bit_reverse.length : Int) = ((2 ^ K : Nat) : Int) := by
        by_contra h; exact hne h
      exact_mod_cast this
    have hsw := bit_reorder_swaps_spec K s.bit_reverse values hlen (htab K hl)
    exact ⟨_, _, rfl, rfl, rfl, rfl, htab, hsw.1, hsw.2⟩

/-- The member `fft_iterative`, called with `N = 2^K <= 2^23` on a vector of `N` canonical
values, returns and leaves in the vector its discrete Fourier transform. -/
theorem fft_iterative_spec (s : NTT) (hs : s.Inv) (K : Nat) (hK : K ≤ 23)
    (values : List mod_int) (hlen : values.length = 2 ^ K) (hc : AllCanonical values) :
    ∃ s' out, NTT.fft_iterative s ((2 ^ K : Nat) : Int) values = some (s', out) ∧ s'.Inv ∧
      out.length = 2 ^ K ∧ AllCanonical out ∧
      ∀ k, k < 2 ^ K → Zv out k = dft (omegaK K) (2 ^ K) (Zv values) k := by
  unfold NTT.fft_iterative
  rw [is_power_of_two_two_pow K (by omega)]
  simp only [not_true_eq_false, if_false]
  obtain ⟨s1, hp, hinv1, _, hm1, hroot1, L, hKL, hL23, hLlen, hLtab⟩ :=
    prepare_roots_spec s hs K hK
  rw [hp]
  simp only
  obtain ⟨s2, v, hb, hr2, hm2, hroot2, htab2, hvlen, hvperm⟩ :=
    bit_reorder_spec s1 hinv1.2.1 K (by omega) values hlen
  rw [hb]
  simp only [Int.toNat_ofNat]
  have hvc : AllCanonical v := by
    intro x hx
    obtain ⟨p, hp1, hp2⟩ := mem_iff_getD v (mod_int.ctor 0) x hx
    rw [← hp2, hvperm p (by omega)]
    exact hc.getD _
  have hrc : AllCanonical s2.roots := by rw [hr2]; exact hinv1.1.1
  have hroots : ∀ l, l < K → ∀ i, i < 2 ^ l → Zv s2.roots (2 ^ l + i) = omegaK (l + 1) ^ i := by
    intro l hl i hi
    rw [hr2]
    exact hLtab l (by omega) i hi
  have hZperm : ∀ p, p < 2 ^ K → Zv v p = Zv values (brev K p) := by
    intro p hp
    unfold Zv
    rw [hvperm p hp]
  obtain ⟨ol, oc, oz⟩ := fft_passes_dft s2.roots values v K hK hrc hroots hvlen hvc hZperm
  refine ⟨s2, _, rfl, ⟨?_, htab2, ?_⟩, ol, oc, oz⟩
  · rw [hr2]; exact hinv1.1
  · rw [hm2, hroot2]; exact Or.inr ⟨hm1, hroot1⟩

/-! ## Orthogonality of the roots of unity -/

theorem pow_congr_mod (w : ZMod 998244353) (N : Nat) (hw : w ^ N = 1) (a b : Nat)
    (h : a ≡ b [MOD N]) : w ^ a = w ^ b := by
  rw [pow_eq_pow_mod a hw, pow_eq_pow_mod b hw]
  exact congrArg _ h

/-- The sum of the `t`-th powers of the `2^K`-th roots of unity is `2^K` when `2^K` divides `t`
and zero otherwise; only `w ^ (2^K / 2) = -1` is used. -/
theorem root_sum (K : Nat) :
    ∀ (w : ZMod 998244353) (t : Nat), w ^ (2 ^ K) = 1 → (∀ j, K = j + 1 → w ^ (2 ^ j) = -1) →
      ∑ q in Finset.range (2 ^ K), w ^ (q * t)
        = if 2 ^ K ∣ t then ((2 ^ K : Nat) : ZMod 998244353) else 0 := by
  induction K with
  | zero =>
    intro w t _ _
    simp
  | succ K ih =>
    intro w t hw1 hw2
    have hhalf : w ^ (2 ^ K) = -1 := hw2 K rfl
    have hpw : 2 ^ (K + 1) = 2 ^ K + 2 ^ K := by rw [pow_succ]; ring
    have hsq1 : (w ^ 2) ^ (2 ^ K) = 1 := by
      rw [← pow_mul, mul_comm, ← pow_succ]; exact hw1
    have hsq2 : ∀ j, K = j + 1 → (w ^ 2) ^ (2 ^ j) = -1 := by
      intro j hj
      rw [← pow_mul, mul_comm, ← pow_succ, ← hj]; exact hhalf
    rw [hpw, Finset.sum_range_add]
    have hshift : ∀ q, w ^ ((2 ^ K + q) * t) = (-1) ^ t * w ^ (q * t) := by
      intro q
      rw [add_mul, pow_add, pow_mul, hhalf]
    simp only [hshift]
    rw [← Finset.mul_sum]
    rcases Nat.even_or_odd' t with ⟨u, hu | hu⟩
    · -- `t = 2 * u`
      have hone : (-1 : ZMod 998244353) ^ t = 1 := by rw [hu, pow_mul]; norm_num
      have hre : ∀ q, w ^ (q * t) = (w ^ 2) ^ (q * u) := by
        intro q
        rw [hu, ← pow_mul]; congr 1; ring
      simp only [hone, hre, one_mul]
      rw [ih (w ^ 2) u hsq1 hsq2]
      have hdvd : (2 ^ K + 2 ^ K ∣ t) ↔ (2 ^ K ∣ u) := by
        rw [hu, ← two_mul]
        exact Nat.mul_dvd_mul_iff_left (by decide)
      by_cases hd : 2 ^ K ∣ u
      · rw [if_pos hd, if_pos (hdvd.mpr hd)]
        push_cast; ring
      · rw [if_neg hd, if_neg (fun h => hd (hdvd.mp h))]
        ring
    · -- `t = 2 * u + 1`
      have hone : (-1 : ZMod 998244353) ^ t = -1 := by
        rw [hu, pow_succ, pow_mul]; norm_num
      have hnd : ¬ (2 ^ K + 2 ^ K ∣ t) := by
        rw [← two_mul]
        intro h
        have h2 : 2 ∣ t := Dvd.dvd.trans (Dvd.intro _ rfl) h
        omega
      rw [hone, if_neg hnd]
      ring

theorem omegaK_root_sum (K : Nat) (hK : K ≤ 23) (t : Nat) :
    ∑ q in Finset.range (2 ^ K), omegaK K ^ (q * t)
      = if 2 ^ K ∣ t then ((2 ^ K : Nat) : ZMod 998244353) else 0 := by
  apply root_sum K (omegaK K) t (omegaK_pow K hK)
  intro j hj
  subst hj
  exact omegaK_pow_half j hK

/-! ## `invert_fft` -/

/-- A loop `for (i = 0; i < n; i++) v[i] *= g(i)`. -/
theorem scale_loop_spec (g : Nat → mod_int) (hg : ∀ i, canonical (g i)) (v : List mod_int)
    (hv : AllCanonical v) (n : Nat) (hn : n ≤ v.length) :
    ((List.range n).foldl
      (fun v i => v.set i (mod_int.mul_assign (v.getD i (mod_int.ctor 0)) (g i))) v).length
      = v.length ∧
    AllCanonical ((List.range n).foldl
      (fun v i => v.set i (mod_int.mul_assign (v.getD i (mod_int.ctor 0)) (g i))) v) ∧
    ∀ p, Zv ((List.range n).foldl
      (fun v i => v.set i (mod_int.mul_assign (v.getD i (mod_int.ctor 0)) (g i))) v) p
      = if p < n then Zv v p * (g p).toZ else Zv v p := by
  induction n with
  | zero =>
    refine ⟨rfl, hv, ?_⟩
    intro p
    rw [if_neg (by omega)]
    rfl
  | succ n ih =>
    obtain ⟨hl, hc, hz⟩ := ih (by omega)
    rw [List.range_succ, List.foldl_append]
    simp only [List.foldl_cons, List.foldl_nil]
    generalize (List.range n).foldl
      (fun v i => v.set i (mod_int.mul_assign (v.getD i (mod_int.ctor 0)) (g i))) v = R
      at hl hc hz
    have hci := hc.getD n
    refine ⟨by simp [hl], hc.set _ _ (mul_assign_canonical _ _ hci (hg n)), ?_⟩
    intro p
    rw [Zv_set, toZ_mul_assign _ _ hci (hg n)]
    by_cases h1 : p = n
    · subst h1
      have hzp := hz p
      rw [if_neg (by omega)] at hzp
      rw [if_pos ⟨rfl, by omega⟩, if_pos (by omega)]
      show Zv R p * _ = _
      rw [hzp]
    · have a1 : ¬ (n = p ∧ n < R.length) := fun h => h1 h.1.symm
      rw [if_neg a1, hz p]
      have c1 : p < n + 1 ↔ p < n := by omega
      simp only [c1]

theorem reverse_tail_length (v : List mod_int) : (NTT.reverse_tail v).length = v.length := by
  unfold NTT.reverse_tail
  rw [List.length_append, List.length_take, List.length_reverse, List.length_drop]
  omega

theorem reverse_tail_getD (v : List mod_int) (p : Nat) (hp : p < v.length) :
    (NTT.reverse_tail v).getD p (mod_int.ctor 0)
      = v.getD ((v.length - p) % v.length) (mod_int.ctor 0) := by
  unfold NTT.reverse_tail
  have hlt : (List.take 1 v).length = 1 := by rw [List.length_take]; omega
  by_cases h0 : p = 0
  · subst h0
    rw [Nat.sub_zero, Nat.mod_self, List.getD_append _ _ _ _ (by omega)]
    cases v with
    | nil => exact absurd hp (by simp)
    | cons a rest => rfl
  · rw [List.getD_append_right _ _ _ _ (by omega), hlt, Nat.mod_eq_of_lt (by omega)]
    have hd : (List.drop 1 v).length = v.length - 1 := List.length_drop 1 v
    rw [List.getD_eq_getElem _ _ (by rw [List.length_reverse, hd]; omega),
      List.getD_eq_getElem _ _ (by omega), List.getElem_reverse, List.getElem_drop]
    congr 1
    rw [hd]
    omega

theorem reverse_tail_canonical (v : List mod_int) (hv : AllCanonical v) :
    AllCanonical (NTT.reverse_tail v) := by
  intro x hx
  unfold NTT.reverse_tail at hx
  rw [List.mem_append] at hx
  rcases hx with h | h
  · exact hv x (List.mem_of_mem_take h)
  · exact hv x (List.mem_of_mem_drop (List.mem_reverse.mp h))

theorem two_pow_int_range (K : Nat) (hK : K ≤ 23) :
    (0 : Int) ≤ ((2 ^ K : Nat) : Int) ∧ ((2 ^ K : Nat) : Int) ≤ 8388608 := by
  have hK23 : (2 : Nat) ^ K ≤ 2 ^ 23 := two_pow_le_of_le hK
  constructor
  · exact Int.natCast_nonneg _
  · exact_mod_cast hK23

/-- Every transform length has an inverse that `inv()` finds. -/
theorem inv_two_pow : ∀ K < 24,
    mod_int.mul_assign (mod_int.inv (mod_int.ctor ((2 ^ K : Nat) : Int)))
      (mod_int.ctor ((2 ^ K : Nat) : Int)) = ⟨1⟩ := by
  decide!

theorem toZ_inv_two_pow (K : Nat) (hK : K ≤ 23) :
    (mod_int.inv (mod_int.ctor ((2 ^ K : Nat) : Int))).toZ * ((2 ^ K : Nat) : ZMod 998244353)
      = 1 := by
  have h := inv_two_pow K (by omega)
  obtain ⟨h0, h1⟩ := two_pow_int_range K hK
  have hc : canonical (mod_int.ctor ((2 ^ K : Nat) : Int)) :=
    ctor_canonical _ (by omega) (by omega)
  have h2 := toZ_mul_assign _ _ (inv_canonical (mod_int.ctor ((2 ^ K : Nat) : Int))) hc
  rw [h, toZ_ctor _ (by omega) (by omega), Int.cast_natCast] at h2
  rw [← h2]
  unfold mod_int.toZ
  norm_num

theorem neg_index_invol (N q : Nat) (hq : q < N) : (N - (N - q) % N) % N = q := by
  by_cases h0 : q = 0
  · subst h0; simp
  · rw [Nat.mod_eq_of_lt (by omega : N - q < N), Nat.mod_eq_of_lt (by omega)]
    omega

theorem neg_index_modEq (N q t : Nat) (hq : q < N) :
    (N - q) % N * t ≡ q * ((N - 1) * t) [MOD N] := by
  have h1 : (N - q) % N ≡ N - q [MOD N] := Nat.mod_modEq _ _
  have h2 : N - q + q ≡ q * (N - 1) + q [MOD N] := by
    have e1 : N - q + q = N := by omega
    have e2 : q * (N - 1) + q = q * N := by
      have hN : 1 ≤ N := by omega
      obtain ⟨M, rfl⟩ : ∃ M, N = M + 1 := ⟨N - 1, by omega⟩
      rw [Nat.add_sub_cancel]; ring
    rw [e1, e2]
    have a1 : N ≡ 0 [MOD N] := by
      show N % N = 0 % N
      simp
    have a2 : q * N ≡ 0 [MOD N] := by
      show q * N % N = 0 % N
      simp
    exact a1.trans a2.symm
  have h3 : N - q ≡ q * (N - 1) [MOD N] := Nat.ModEq.add_right_cancel' q h2
  have h4 := (h1.trans h3).mul_right t
  rwa [mul_assoc] at h4

/-- The member `invert_fft`, called with `N = 2^K <= 2^23` on a vector of `N` canonical values,
returns and leaves in the vector its inverse transform. -/
theorem invert_fft_spec (s : NTT) (hs : s.Inv) (K : Nat) (hK : K ≤ 23)
    (v : List mod_int) (hlen : v.length = 2 ^ K) (hc : AllCanonical v) :
    ∃ s' out, NTT.invert_fft s ((2 ^ K : Nat) : Int) v = some (s', out) ∧ s'.Inv ∧
      out.length = 2 ^ K ∧ AllCanonical out ∧
      ∀ t, t < 2 ^ K → Zv out t = idft K (Zv v) t := by
  unfold NTT.invert_fft
  simp only [Int.toNat_ofNat]
  have hci : canonical (mod_int.inv (mod_int.ctor ((2 ^ K : Nat) : Int))) := inv_canonical _
  obtain ⟨sl, sc, sz⟩ := scale_loop_spec
    (fun _ => mod_int.inv (mod_int.ctor ((2 ^ K : Nat) : Int))) (fun _ => hci) v hc (2 ^ K)
    (by omega)
  generalize (List.range (2 ^ K)).foldl
    (fun v i => v.set i (mod_int.mul_assign (v.getD i (mod_int.ctor 0))
      (mod_int.inv (mod_int.ctor ((2 ^ K : Nat) : Int))))) v = v1 at sl sc sz
  have hpos : 0 < 2 ^ K := Nat.two_pow_pos K
  have hylen : (NTT.reverse_tail v1).length = 2 ^ K := by
    rw [reverse_tail_length, sl, hlen]
  obtain ⟨s', out, hf, hinv, ol, oc, oz⟩ := fft_iterative_spec s hs K hK (NTT.reverse_tail v1)
    hylen (reverse_tail_canonical v1 sc)
  refine ⟨s', out, hf, hinv, ol, oc, ?_⟩
  intro t ht
  rw [oz t ht]
  unfold dft idft
  rw [Finset.mul_sum]
  have hy : ∀ p, p < 2 ^ K →
      Zv (NTT.reverse_tail v1) p = Zv v ((2 ^ K - p) % 2 ^ K) * invZ K := by
    intro p hp
    have h1 : Zv (NTT.reverse_tail v1) p = Zv v1 ((2 ^ K - p) % 2 ^ K) := by
      unfold Zv
      rw [reverse_tail_getD v1 p (by rw [sl, hlen]; exact hp), sl, hlen]
    rw [h1, sz, if_pos (Nat.mod_lt _ hpos)]
    rfl
  apply Finset.sum_nbij' (fun p => (2 ^ K - p) % 2 ^ K) (fun p => (2 ^ K - p) % 2 ^ K)
  · intro a _
    exact Finset.mem_range.mpr (Nat.mod_lt _ hpos)
  · intro a _
    exact Finset.mem_range.mpr (Nat.mod_lt _ hpos)
  · intro a ha
    exact neg_index_invol _ a (Finset.mem_range.mp ha)
  · intro a ha
    exact neg_index_invol _ a (Finset.mem_range.mp ha)
  · intro a ha
    rw [Finset.mem_range] at ha
    rw [hy a ha]
    have hq : (2 ^ K - a) % 2 ^ K < 2 ^ K := Nat.mod_lt _ hpos
    have hexp := pow_congr_mod (omegaK K) (2 ^ K) (omegaK_pow K hK) _ _
      (neg_index_modEq (2 ^ K) ((2 ^ K - a) % 2 ^ K) t hq)
    rw [neg_index_invol _ a ha] at hexp
    rw [← hexp]
    ring

/-- The sum over the roots of unity that appears in the inverse transform of a transform. -/
theorem root_sum_shift (K : Nat) (hK : K ≤ 23) (e t : Nat) (ht : t < 2 ^ K) :
    ∑ q in Finset.range (2 ^ K), omegaK K ^ (e * q) * omegaK K ^ (q * ((2 ^ K - 1) * t))
      = if e % 2 ^ K = t then ((2 ^ K : Nat) : ZMod 998244353) else 0 := by
  have hpos : 0 < 2 ^ K := Nat.two_pow_pos K
  have h1 : ∀ q, omegaK K ^ (e * q) * omegaK K ^ (q * ((2 ^ K - 1) * t))
      = omegaK K ^ (q * (e + (2 ^ K - 1) * t)) := by
    intro q
    rw [← pow_add]; congr 1; ring
  simp only [h1]
  rw [omegaK_root_sum K hK]
  have hiff : (2 ^ K ∣ e + (2 ^ K - 1) * t) ↔ e % 2 ^ K = t := by
    have e2 : e + (2 ^ K - 1) * t + t = e + 2 ^ K * t := by
      obtain ⟨M, hM⟩ : ∃ M, 2 ^ K = M + 1 := ⟨2 ^ K - 1, by omega⟩
      rw [hM, Nat.add_sub_cancel]; ring
    have h3 : e + (2 ^ K - 1) * t + t ≡ e [MOD 2 ^ K] := by
      rw [e2]
      show (e + 2 ^ K * t) % 2 ^ K = e % 2 ^ K
      rw [Nat.add_mul_mod_self_left]
    constructor
    · intro hd
      have h4 : e + (2 ^ K - 1) * t ≡ 0 [MOD 2 ^ K] := (Nat.modEq_zero_iff_dvd).mpr hd
      have h5 : e + (2 ^ K - 1) * t + t ≡ 0 + t [MOD 2 ^ K] := h4.add_right t
      have h6 : e ≡ 0 + t [MOD 2 ^ K] := h3.symm.trans h5
      have h7 : e % 2 ^ K = (0 + t) % 2 ^ K := h6
      rw [h7, Nat.zero_add, Nat.mod_eq_of_lt ht]
    · intro he
      have h6 : e ≡ 0 + t [MOD 2 ^ K] := by
        show e % 2 ^ K = (0 + t) % 2 ^ K
        rw [he, Nat.zero_add, Nat.mod_eq_of_lt ht]
      have h5 : e + (2 ^ K - 1) * t + t ≡ 0 + t [MOD 2 ^ K] := h3.trans h6
      exact (Nat.modEq_zero_iff_dvd).mp (Nat.ModEq.add_right_cancel' t h5)
  by_cases h : e % 2 ^ K = t
  · rw [if_pos h, if_pos (hiff.mpr h)]
  · rw [if_neg h, if_neg (fun hd => h (hiff.mp hd))]

/-- The inverse transform undoes the transform. -/
theorem idft_dft (K : Nat) (hK : K ≤ 23) (x : Nat → ZMod 998244353) (t : Nat) (ht : t < 2 ^ K) :
    idft K (dft (omegaK K) (2 ^ K) x) t = x t := by
  unfold idft dft
  have h1 : ∑ q in Finset.range (2 ^ K),
        (∑ j in Finset.range (2 ^ K), x j * omegaK K ^ (j * q)) *
          omegaK K ^ (q * ((2 ^ K - 1) * t))
      = ∑ j in Finset.range (2 ^ K), x j *
          ∑ q in Finset.range (2 ^ K),
            omegaK K ^ (j * q) * omegaK K ^ (q * ((2 ^ K - 1) * t)) := by
    simp only [Finset.sum_mul, Finset.mul_sum]
    rw [Finset.sum_comm]
    apply Finset.sum_congr rfl
    intro j _
    apply Finset.sum_congr rfl
    intro q _
    ring
  rw [h1]
  have h2 : ∀ j ∈ Finset.range (2 ^ K), x j *
        ∑ q in Finset.range (2 ^ K),
          omegaK K ^ (j * q) * omegaK K ^ (q * ((2 ^ K - 1) * t))
      = if j = t then x t * ((2 ^ K : Nat) : ZMod 998244353) else 0 := by
    intro j hj
    rw [Finset.mem_range] at hj
    rw [root_sum_shift K hK j t ht, Nat.mod_eq_of_lt hj]
    by_cases h : j = t
    · rw [if_pos h, if_pos h, h]
    · rw [if_neg h, if_neg h, mul_zero]
  rw [Finset.sum_congr rfl h2, Finset.sum_ite_eq', if_pos (Finset.mem_range.mpr ht)]
  unfold invZ
  rw [mul_comm (x t), ← mul_assoc, toZ_inv_two_pow K hK, one_mul]

/-- The inverse transform of the pointwise product of two transforms is the cyclic convolution
of length `2^K`. -/
theorem idft_mul_dft (K : Nat) (hK : K ≤ 23) (a b : Nat → ZMod 998244353) (t : Nat)
    (ht : t < 2 ^ K) :
    idft K (fun q => dft (omegaK K) (2 ^ K) a q * dft (omegaK K) (2 ^ K) b q) t
      = ∑ i in Finset.range (2 ^ K), ∑ j in Finset.range (2 ^ K),
          if (i + j) % 2 ^ K = t then a i * b j else 0 := by
  unfold idft dft
  have h1 : ∑ q in Finset.range (2 ^ K),
        ((∑ i in Finset.range (2 ^ K), a i * omegaK K ^ (i * q)) *
          (∑ j in Finset.range (2 ^ K), b j * omegaK K ^ (j * q))) *
          omegaK K ^ (q * ((2 ^ K - 1) * t))
      = ∑ i in Finset.range (2 ^ K), ∑ j in Finset.range (2 ^ K), (a i * b j) *
          ∑ q in Finset.range (2 ^ K),
            omegaK K ^ ((i + j) * q) * omegaK K ^ (q * ((2 ^ K - 1) * t)) := by
    have step : ∀ q ∈ Finset.range (2 ^ K),
        ((∑ i in Finset.range (2 ^ K), a i * omegaK K ^ (i * q)) *
          (∑ j in Finset.range (2 ^ K), b j * omegaK K ^ (j * q))) *
          omegaK K ^ (q * ((2 ^ K - 1) * t))
        = ∑ i in Finset.range (2 ^ K), ∑ j in Finset.range (2 ^ K), (a i * b j) *
            (omegaK K ^ ((i + j) * q) * omegaK K ^ (q * ((2 ^ K - 1) * t))) := by
      intro q _
      rw [Finset.sum_mul_sum, Finset.sum_mul]
      apply Finset.sum_congr rfl
      intro i _
      rw [Finset.sum_mul]
      apply Finset.sum_congr rfl
      intro j _
      rw [add_mul, pow_add]
      ring
    rw [Finset.sum_congr rfl step, Finset.sum_comm]
    apply Finset.sum_congr rfl
    intro i _
    rw [Finset.sum_comm]
    apply Finset.sum_congr rfl
    intro j _
    rw [Finset.mul_sum]
  rw [h1, Finset.mul_sum]
  apply Finset.sum_congr rfl
  intro i _
  rw [Finset.mul_sum]
  apply Finset.sum_congr rfl
  intro j _
  rw [root_sum_shift K hK (i + j) t ht]
  by_cases h : (i + j) % 2 ^ K = t
  · rw [if_pos h, if_pos h]
    unfold invZ
    rw [mul_comm (a i * b j), ← mul_assoc, toZ_inv_two_pow K hK, one_mul]
  · rw [if_neg h, if_neg h, mul_zero, mul_zero]

/-! ## The brute-force branch of `mod_multiply` -/

theorem U64_BOUND_eq : NTT.U64_BOUND = 17450252285413163006 := by decide!

theorem mod_output_size_natCast (S x : Nat) (hx : x < 2147483648) :
    (NTT.mod_output_size (S : Int) (wrap32 ((x : Nat) : Int))).toNat = wrap_index S x := by
  unfold NTT.mod_output_size wrap_index
  rw [wrap32_of_range (by omega) (by omega)]
  by_cases h : x < S
  · have h' : (x : Int) < (S : Int) := by exact_mod_cast h
    rw [if_pos h', if_pos h]
    simp
  · have h' : ¬ (x : Int) < (S : Int) := by omega
    rw [if_neg h', if_neg h, wrap32_of_range (by omega) (by omega)]
    omega

theorem emod_emod_MOD (x : Int) : x % MOD % MOD = x % MOD := by
  unfold MOD; omega

theorem add_emod_congr (x y z : Int) (h : x % MOD = y % MOD) :
    (x + z) % MOD = (y + z) % MOD := by
  unfold MOD at *; omega

/-- One lazily reduced addition into a 64-bit accumulator: no wrap-around, and the bound and
the residue class are kept. -/
theorem acc_step (x a b : Int) (hx0 : 0 ≤ x) (hx1 : x ≤ 17450252285413163006)
    (ha : 0 ≤ a ∧ a < 998244353) (hb : 0 ≤ b ∧ b < 998244353) :
    0 ≤ (if u64 (x + u64 (u64 (wrap64 a) * u64 (wrap64 b))) > NTT.U64_BOUND then
          u64 (x + u64 (u64 (wrap64 a) * u64 (wrap64 b))) % u64 MOD
        else u64 (x + u64 (u64 (wrap64 a) * u64 (wrap64 b)))) ∧
    (if u64 (x + u64 (u64 (wrap64 a) * u64 (wrap64 b))) > NTT.U64_BOUND then
          u64 (x + u64 (u64 (wrap64 a) * u64 (wrap64 b))) % u64 MOD
        else u64 (x + u64 (u64 (wrap64 a) * u64 (wrap64 b)))) ≤ 17450252285413163006 ∧
    (if u64 (x + u64 (u64 (wrap64 a) * u64 (wrap64 b))) > NTT.U64_BOUND then
          u64 (x + u64 (u64 (wrap64 a) * u64 (wrap64 b))) % u64 MOD
        else u64 (x + u64 (u64 (wrap64 a) * u64 (wrap64 b)))) % MOD = (x + a * b) % MOD := by
  have h0 : 0 ≤ a * b := Int.mul_nonneg ha.1 hb.1
  have h1 : a * b ≤ 998244352 * 998244352 :=
    Int.mul_le_mul (by omega) (by omega) (by omega) (by omega)
  rw [wrap64_of_range (x := a) (by omega) (by omega),
    wrap64_of_range (x := b) (by omega) (by omega),
    u64_of_range (x := a) (by omega) (by omega), u64_of_range (x := b) (by omega) (by omega)]
  generalize a * b = c at h0 h1 ⊢
  rw [u64_of_range (x := c) (by omega) (by omega),
    u64_of_range (x := x + c) (by omega) (by omega), U64_BOUND_eq,
    u64_of_range (x := MOD) (by decide) (by decide)]
  by_cases hbig : x + c > 17450252285413163006
  · rw [if_pos hbig, emod_emod_MOD]
    refine ⟨?_, ?_, rfl⟩
    · unfold MOD; omega
    · unfold MOD; omega
  · rw [if_neg hbig]
    exact ⟨by omega, by omega, rfl⟩

/-- One execution of the body of the double loop of the brute-force branch. -/
theorem brute_step_spec (left right : List mod_int) (hl : AllCanonical left)
    (hr : AllCanonical right) (S i j : Nat) (hij : i + j < 2147483648)
    (hidx : wrap_index S (i + j) < S) (r : List Int) (f : Nat → Int) (hinv : AccInv S r f) :
    AccInv S (NTT.brute_step left right (S : Int) i j r)
      (fun k => f k + if wrap_index S (i + j) = k then
        (left.getD i (mod_int.ctor 0)).val * (right.getD j (mod_int.ctor 0)).val else 0) := by
  obtain ⟨hlen, hacc⟩ := hinv
  have ha : 0 ≤ (left.getD i (mod_int.ctor 0)).val ∧
      (left.getD i (mod_int.ctor 0)).val < 998244353 := hl.getD i
  have hb : 0 ≤ (right.getD j (mod_int.ctor 0)).val ∧
      (right.getD j (mod_int.ctor 0)).val < 998244353 := hr.getD j
  unfold NTT.brute_step
  have hcast : ((i : Int) + (j : Int)) = ((i + j : Nat) : Int) := by push_cast; rfl
  rw [hcast, mod_output_size_natCast S (i + j) hij]
  simp only
  obtain ⟨r0, r1, r2⟩ := hacc _ hidx
  obtain ⟨s0, s1, s2⟩ := acc_step _ _ _ r0 r1 ha hb
  refine ⟨by rw [List.length_set]; exact hlen, ?_⟩
  intro k hk
  beta_reduce
  rw [getD_set_eq, hlen]
  by_cases hkk : wrap_index S (i + j) = k
  · rw [if_pos ⟨hkk, hidx⟩, if_pos hkk]
    refine ⟨s0, s1, ?_⟩
    rw [s2, ← hkk]
    exact add_emod_congr _ _ _ r2
  · have a1 : ¬ (wrap_index S (i + j) = k ∧ wrap_index S (i + j) < S) := fun h => hkk h.1
    rw [if_neg a1, if_neg hkk, add_zero]
    exact hacc k hk

/-- The inner loop `for (int j = 0; j < m; j++)` of the brute-force branch. -/
theorem brute_inner_spec (left right : List mod_int) (hl : AllCanonical left)
    (hr : AllCanonical right) (S i : Nat) (c : Nat) (hic : i + c < 2147483648)
    (hidx : ∀ j, j < c → wrap_index S (i + j) < S) (r : List Int) (f : Nat → Int)
    (hinv : AccInv S r f) :
    AccInv S ((List.range c).foldl (fun r j => NTT.brute_step left right (S : Int) i j r) r)
      (fun k => f k + ∑ j in Finset.range c, if wrap_index S (i + j) = k then
        (left.getD i (mod_int.ctor 0)).val * (right.getD j (mod_int.ctor 0)).val else 0) := by
  induction c with
  | zero => simpa using hinv
  | succ c ih =>
    rw [List.range_succ, List.foldl_append]
    simp only [List.foldl_cons, List.foldl_nil]
    have h := brute_step_spec left right hl hr S i c (by omega) (hidx c (by omega)) _ _
      (ih (by omega) (fun j hj => hidx j (by omega)))
    have e : (fun k => f k + ∑ j in Finset.range (c + 1), if wrap_index S (i + j) = k then
          (left.getD i (mod_int.ctor 0)).val * (right.getD j (mod_int.ctor 0)).val else 0)
        = (fun k => (f k + ∑ j in Finset.range c, if wrap_index S (i + j) = k then
          (left.getD i (mod_int.ctor 0)).val * (right.getD j (mod_int.ctor 0)).val else 0) +
          if wrap_index S (i + c) = k then
            (left.getD i (mod_int.ctor 0)).val * (right.getD c (mod_int.ctor 0)).val else 0) := by
      funext k
      rw [Finset.sum_range_succ, add_assoc]
    rw [e]
    exact h

/-- The double loop of the brute-force branch. -/
theorem brute_outer_spec (left right : List mod_int) (hl : AllCanonical left)
    (hr : AllCanonical right) (S m : Nat) (c : Nat) (hic : c + m < 2147483648)
    (hidx : ∀ i j, i < c → j < m → wrap_index S (i + j) < S) (r : List Int) (f : Nat → Int)
    (hinv : AccInv S r f) :
    AccInv S ((List.range c).foldl
        (fun r i => (List.range m).foldl
          (fun r j => NTT.brute_step left right (S : Int) i j r) r) r)
      (fun k => f k + ∑ i in Finset.range c, ∑ j in Finset.range m,
        if wrap_index S (i + j) = k then
          (left.getD i (mod_int.ctor 0)).val * (right.getD j (mod_int.ctor 0)).val else 0) := by
  induction c with
  | zero => simpa using hinv
  | succ c ih =>
    rw [List.range_succ, List.foldl_append]
    simp only [List.foldl_cons, List.foldl_nil]
    have h := brute_inner_spec left right hl hr S c m (by omega)
      (fun j hj => hidx c j (by omega) hj) _ _
      (ih (by omega) (fun i j hi hj => hidx i j (by omega) hj))
    have e : (fun k => f k + ∑ i in Finset.range (c + 1), ∑ j in Finset.range m,
          if wrap_index S (i + j) = k then
            (left.getD i (mod_int.ctor 0)).val * (right.getD j (mod_int.ctor 0)).val else 0)
        = (fun k => (f k + ∑ i in Finset.range c, ∑ j in Finset.range m,
          if wrap_index S (i + j) = k then
            (left.getD i (mod_int.ctor 0)).val * (right.getD j (mod_int.ctor 0)).val else 0) +
          ∑ j in Finset.range m, if wrap_index S (c + j) = k then
            (left.getD c (mod_int.ctor 0)).val * (right.getD j (mod_int.ctor 0)).val else 0) := by
      funext k
      rw [Finset.sum_range_succ, add_assoc]
    rw [e]
    exact h

theorem getD_replicate_int (n p : Nat) : (List.replicate n (0 : Int)).getD p 0 = 0 := by
  by_cases h : p < n
  · have := getD_mem (List.replicate n (0 : Int)) p 0 (by simpa using h)
    exact List.eq_of_mem_replicate this
  · exact getD_of_length_le _ _ _ (by simpa using h)

theorem getD_map_of_lt {α β : Type} (g : α → β) (l : List α) (p : Nat) (d : α) (e : β)
    (hp : p < l.length) : (l.map g).getD p e = g (l.getD p d) := by
  rw [List.getD_eq_getElem _ _ (by simpa using hp), List.getD_eq_getElem _ _ hp, List.getElem_map]

/-- The brute-force branch returns, at every position `k`, the residue of the sum of the
products `left[i] * right[j]` whose wrapped index is `k`. -/
theorem mod_multiply_brute_spec (left right : List mod_int) (hl : AllCanonical left)
    (hr : AllCanonical right) (S : Nat) (hS : left.length + right.length ≤ 2 * S + 1)
    (hbig : left.length + right.length < 2147483648) :
    NTT.mod_multiply_brute left right (S : Int)
      = (List.range S).map (fun k =>
          (∑ i in Finset.range left.length, ∑ j in Finset.range right.length,
            if wrap_index S (i + j) = k then
              (left.getD i (mod_int.ctor 0)).val * (right.getD j (mod_int.ctor 0)).val
            else 0) % MOD) := by
  have hidx : ∀ i j, i < left.length → j < right.length → wrap_index S (i + j) < S := by
    intro i j hi hj
    unfold wrap_index
    split <;> omega
  have h0 : AccInv S (List.replicate S 0) (fun _ => 0) := by
    refine ⟨by simp, ?_⟩
    intro k _
    rw [getD_replicate_int]
    exact ⟨le_refl _, by decide, rfl⟩
  obtain ⟨hlen, hacc⟩ := brute_outer_spec left right hl hr S right.length left.length hbig
    hidx _ _ h0
  unfold NTT.mod_multiply_brute
  simp only [Int.toNat_ofNat]
  generalize (List.range left.length).foldl
    (fun r i => (List.range right.length).foldl
      (fun r j => NTT.brute_step left right (S : Int) i j r) r) (List.replicate S 0) = R
    at hlen hacc
  apply list_ext_getD _ _ 0
  · simp [hlen]
  · intro k hk
    have hk' : k < S := by simpa [hlen] using hk
    obtain ⟨a0, a1, a2⟩ := hacc k hk'
    rw [getD_map_of_lt wrap64 _ k 0 0 (by simpa [hlen] using hk'),
      getD_map_of_lt _ R k 0 0 (by omega),
      getD_map_of_lt _ (List.range S) k 0 0 (by simpa using hk')]
    have hr : (List.range S).getD k 0 = k := by
      rw [List.getD_eq_getElem _ _ (by simpa using hk'), List.getElem_range]
    rw [hr, u64_of_range (x := MOD) (by decide) (by decide)]
    simp only [zero_add] at a2
    rw [← a2]
    generalize R.getD k 0 = x at a0 a1
    by_cases hge : x ≥ MOD
    · rw [if_pos hge, wrap64_of_range (by unfold MOD; omega) (by unfold MOD; omega)]
    · rw [if_neg hge]
      unfold MOD at hge ⊢
      rw [wrap64_of_range (by omega) (by omega)]
      omega

/-! ## The transform branch of `mod_multiply` -/

theorem sum_range_of_zero (n N : Nat) (h : n ≤ N) (F : Nat → ZMod 998244353)
    (hF : ∀ i, n ≤ i → F i = 0) :
    ∑ i in Finset.range N, F i = ∑ i in Finset.range n, F i := by
  symm
  apply Finset.sum_subset (Finset.range_subset.mpr h)
  intro i _ hi
  exact hF i (by simpa using hi)

/-- The cyclic convolution of two zero-padded vectors only involves the original entries. -/
theorem cyclic_sum_restrict (left right : List mod_int) (N t : Nat) (hn : left.length ≤ N)
    (hm : right.length ≤ N) :
    ∑ i in Finset.range N, ∑ j in Finset.range N,
        (if (i + j) % N = t then Zv left i * Zv right j else 0)
      = ∑ i in Finset.range left.length, ∑ j in Finset.range right.length,
        if (i + j) % N = t then Zv left i * Zv right j else 0 := by
  rw [sum_range_of_zero left.length N hn]
  · apply Finset.sum_congr rfl
    intro i _
    apply sum_range_of_zero right.length N hm
    intro j hj
    rw [Zv_of_length_le right j hj, mul_zero]
    simp
  · intro i hi
    apply Finset.sum_eq_zero
    intro j _
    rw [Zv_of_length_le left i hi, zero_mul]
    simp

theorem take_getD {α : Type} (out : List α) (S k : Nat) (d : α) (hk : k < S) :
    (out.take S).getD k d = out.getD k d := by
  simp only [List.getD_eq_getElem?_getD]
  rw [List.getElem?_take_of_lt hk]

theorem take_map_getD (out : List mod_int) (S k : Nat) (hk : k < S) (hS : S ≤ out.length) :
    ((out.take S).map (fun x => x.val)).getD k 0 = (out.getD k (mod_int.ctor 0)).val := by
  rw [getD_map_of_lt _ _ k (mod_int.ctor 0) 0 (by rw [List.length_take]; omega), take_getD _ _ _ _ hk]

/-- The end of the transform branch: pointwise product of the two transforms, inverse
transform and truncation. -/
theorem transform_tail (s2 : NTT) (hinv2 : s2.Inv) (left right left2 right2 : List mod_int)
    (K : Nat) (hK : K ≤ 23) (S : Nat) (l2len : left2.length = 2 ^ K)
    (l2c : AllCanonical left2) (r2c : AllCanonical right2)
    (l2z : ∀ k, k < 2 ^ K → Zv left2 k = dft (omegaK K) (2 ^ K) (Zv left) k)
    (r2z : ∀ k, k < 2 ^ K → Zv right2 k = dft (omegaK K) (2 ^ K) (Zv right) k)
    (hn : left.length ≤ 2 ^ K) (hm : right.length ≤ 2 ^ K) :
    ∃ s' out,
      (NTT.invert_fft s2 ((2 ^ K : Nat) : Int)
        ((List.range (2 ^ K)).foldl
          (fun v i => v.set i (mod_int.mul_assign (v.getD i (mod_int.ctor 0))
            (right2.getD i (mod_int.ctor 0)))) left2)).bind
        (fun r => some (r.1, (r.2.take S).map (fun x => x.val)))
        = some (s', (out.take S).map (fun x => x.val)) ∧ s'.Inv ∧
      out.length = 2 ^ K ∧ AllCanonical out ∧
      ∀ t, t < 2 ^ K → Zv out t =
        ∑ i in Finset.range left.length, ∑ j in Finset.range right.length,
          if (i + j) % 2 ^ K = t then Zv left i * Zv right j else 0 := by
  obtain ⟨pl, pc, pz⟩ := scale_loop_spec (fun i => right2.getD i (mod_int.ctor 0))
    (fun i => r2c.getD i) left2 l2c (2 ^ K) (by omega)
  generalize (List.range (2 ^ K)).foldl
    (fun v i => v.set i (mod_int.mul_assign (v.getD i (mod_int.ctor 0))
      (right2.getD i (mod_int.ctor 0)))) left2 = left3 at pl pc pz
  obtain ⟨s3, out, hi, hinv3, ol, oc, oz⟩ :=
    invert_fft_spec s2 hinv2 K hK left3 (by rw [pl, l2len]) pc
  rw [hi]
  refine ⟨s3, out, rfl, hinv3, ol, oc, ?_⟩
  intro t ht'
  rw [oz t ht']
  have hprod : ∀ q, q < 2 ^ K → Zv left3 q
      = dft (omegaK K) (2 ^ K) (Zv left) q * dft (omegaK K) (2 ^ K) (Zv right) q := by
    intro q hq
    rw [pz q, if_pos hq, l2z q hq, ← r2z q hq]
    rfl
  have hcongr : idft K (Zv left3) t
      = idft K (fun q => dft (omegaK K) (2 ^ K) (Zv left) q *
          dft (omegaK K) (2 ^ K) (Zv right) q) t := by
    unfold idft
    congr 1
    apply Finset.sum_congr rfl
    intro q hq
    rw [hprod q (Finset.mem_range.mp hq)]
  rw [hcongr, idft_mul_dft K hK _ _ t ht', cyclic_sum_restrict left right (2 ^ K) t hn hm]

/-- The transform branch of `mod_multiply` returns the first `S` entries of the cyclic
convolution of length `2^K = round_up_power_two(S)`. -/
theorem mod_multiply_transform_spec (s : NTT) (hs : s.Inv) (left right : List mod_int)
    (hl : AllCanonical left) (hr : AllCanonical right) (K : Nat) (hK : K ≤ 23) (S : Nat)
    (hround : NTT.round_up_power_two (S : Int) = ((2 ^ K : Nat) : Int))
    (hn : left.length ≤ 2 ^ K) (hm : right.length ≤ 2 ^ K) :
    ∃ s' out, NTT.mod_multiply_transform s left right (S : Int)
        = some (s', (out.take S).map (fun x => x.val)) ∧ s'.Inv ∧
      out.length = 2 ^ K ∧ AllCanonical out ∧
      ∀ t, t < 2 ^ K → Zv out t =
        ∑ i in Finset.range left.length, ∑ j in Finset.range right.length,
          if (i + j) % 2 ^ K = t then Zv left i * Zv right j else 0 := by
  unfold NTT.mod_multiply_transform
  simp only [hround, Int.toNat_ofNat]
  have hl1len := vector_resize_length left (2 ^ K) (mod_int.ctor 0)
  have hr1len := vector_resize_length right (2 ^ K) (mod_int.ctor 0)
  have hl1c := vector_resize_canonical left (2 ^ K) hl
  have hr1c := vector_resize_canonical right (2 ^ K) hr
  have hZl : ∀ p, Zv (vector_resize left (2 ^ K) (mod_int.ctor 0)) p = Zv left p :=
    fun p => Zv_resize left _ p hn
  have hZr : ∀ p, Zv (vector_resize right (2 ^ K) (mod_int.ctor 0)) p = Zv right p :=
    fun p => Zv_resize right _ p hm
  generalize vector_resize left (2 ^ K) (mod_int.ctor 0) = left1 at hl1len hl1c hZl
  generalize vector_resize right (2 ^ K) (mod_int.ctor 0) = right1 at hr1len hr1c hZr
  obtain ⟨s1, left2, h1, hinv1, l2len, l2c, l2z⟩ :=
    fft_iterative_spec s hs K hK left1 hl1len hl1c
  have hdl : ∀ k, dft (omegaK K) (2 ^ K) (Zv left1) k = dft (omegaK K) (2 ^ K) (Zv left) k := by
    intro k; unfold dft; simp only [hZl]
  have hdr : ∀ k, dft (omegaK K) (2 ^ K) (Zv right1) k
      = dft (omegaK K) (2 ^ K) (Zv right) k := by
    intro k; unfold dft; simp only [hZr]
  have hl2 : ∀ k, k < 2 ^ K → Zv left2 k = dft (omegaK K) (2 ^ K) (Zv left) k := by
    intro k hk; rw [l2z k hk, hdl]
  by_cases heq : left1 = right1
  · rw [if_pos heq, h1, Option.some_bind, Option.some_bind]
    have hr2 : ∀ k, k < 2 ^ K → Zv left2 k = dft (omegaK K) (2 ^ K) (Zv right) k := by
      intro k hk; rw [l2z k hk, ← hdr, ← heq]
    exact transform_tail s1 hinv1 left right left2 left2 K hK S l2len l2c l2c hl2 hr2 hn hm
  · rw [if_neg heq, h1, Option.some_bind]
    obtain ⟨s2, right2, h2, hinv2, _, r2c, r2z⟩ :=
      fft_iterative_spec s1 hinv1 K hK right1 hr1len hr1c
    rw [h2, Option.some_bind, Option.some_bind]
    have hr2 : ∀ k, k < 2 ^ K → Zv right2 k = dft (omegaK K) (2 ^ K) (Zv right) k := by
      intro k hk; rw [r2z k hk, hdr]
    exact transform_tail s2 hinv2 left right left2 right2 K hK S l2len l2c r2c hl2 hr2 hn hm

/-! ## `mod_multiply`: both branches and the specification -/

theorem canonical_ctor (v : Int) : canonical (mod_int.ctor v) := by
  unfold canonical
  rw [ctor_val_all]
  unfold MOD
  omega

theorem toZ_ctor_all (v : Int) : (mod_int.ctor v).toZ = (v : ZMod 998244353) := by
  unfold mod_int.toZ
  rw [ctor_val_all, intCast_emod_MOD]

theorem map_ctor_canonical (l : List Int) : AllCanonical (l.map mod_int.ctor) := by
  intro x hx
  obtain ⟨v, _, rfl⟩ := List.mem_map.mp hx
  exact canonical_ctor v

theorem getD_map_ctor (l : List Int) (i : Nat) :
    (l.map mod_int.ctor).getD i (mod_int.ctor 0) = mod_int.ctor (l.getD i 0) := by
  by_cases h : i < l.length
  · exact getD_map_of_lt mod_int.ctor l i 0 (mod_int.ctor 0) h
  · rw [getD_of_length_le _ _ _ (by simpa using h), getD_of_length_le _ _ _ (by omega)]

theorem Zv_map_ctor (l : List Int) (i : Nat) :
    Zv (l.map mod_int.ctor) i = ((l.getD i 0 : Int) : ZMod 998244353) := by
  unfold Zv
  rw [getD_map_ctor, toZ_ctor_all]

theorem emod_eq_of_cast_eq (x y : Int)
    (h : (x : ZMod 998244353) = (y : ZMod 998244353)) : x % MOD = y % MOD := by
  rw [ZMod.intCast_eq_intCast_iff] at h
  exact h

theorem wrap_index_eq_mod (S x : Nat) (hx : x < 2 * S) : wrap_index S x = x % S := by
  unfold wrap_index
  by_cases h : x < S
  · rw [if_pos h, Nat.mod_eq_of_lt h]
  · rw [if_neg h]
    have : x = (x - S) + S := by omega
    conv_rhs => rw [this, Nat.add_mod_right, Nat.mod_eq_of_lt (by omega)]

/-- The brute-force branch on lifted sequences, in terms of the original integers. -/
theorem mod_multiply_brute_int (left right : List Int) (S : Nat)
    (hS : left.length + right.length ≤ 2 * S + 1)
    (hbig : left.length + right.length < 2147483648) :
    NTT.mod_multiply_brute (left.map mod_int.ctor) (right.map mod_int.ctor) (S : Int)
      = (List.range S).map (fun k =>
          (∑ i in Finset.range left.length, ∑ j in Finset.range right.length,
            if wrap_index S (i + j) = k then left.getD i 0 * right.getD j 0 else 0) % MOD) := by
  rw [mod_multiply_brute_spec _ _ (map_ctor_canonical left) (map_ctor_canonical right) S
    (by simpa using hS) (by simpa using hbig)]
  apply List.map_congr_left
  intro k _
  simp only [List.length_map]
  apply emod_eq_of_cast_eq
  push_cast
  apply Finset.sum_congr rfl
  intro i _
  apply Finset.sum_congr rfl
  intro j _
  by_cases h : wrap_index S (i + j) = k
  · rw [if_pos h, if_pos h, getD_map_ctor, getD_map_ctor]
    have e1 := toZ_ctor_all (left.getD i 0)
    have e2 := toZ_ctor_all (right.getD j 0)
    unfold mod_int.toZ at e1 e2
    rw [e1, e2]
  · rw [if_neg h, if_neg h]

/-- The index conditions of the two branches agree on the entries that are returned. -/
theorem index_agree (n m S N i j : Nat) (hcase : S = N ∨ n + m ≤ S + 1) (hSN : S ≤ N)
    (hn : n ≤ S) (hm : m ≤ S) (hi : i < n) (hj : j < m) :
    (i + j) % N = wrap_index S (i + j) := by
  rcases hcase with h | h
  · subst h
    rw [wrap_index_eq_mod S (i + j) (by omega)]
  · unfold wrap_index
    rw [if_pos (by omega), Nat.mod_eq_of_lt (by omega)]

/-- Both branches of `mod_multiply` return the same vector. -/
theorem transform_eq_brute (s : NTT) (hs : s.Inv) (left right : List mod_int)
    (hl : AllCanonical left) (hr : AllCanonical right) (K : Nat) (hK : K ≤ 23) (S : Nat)
    (hround : NTT.round_up_power_two (S : Int) = ((2 ^ K : Nat) : Int))
    (hSN : S ≤ 2 ^ K) (hn : left.length ≤ S) (hm : right.length ≤ S)
    (hcase : S = 2 ^ K ∨ left.length + right.length ≤ S + 1) :
    ∃ s', NTT.mod_multiply_transform s left right (S : Int)
        = some (s', NTT.mod_multiply_brute left right (S : Int)) ∧ s'.Inv := by
  obtain ⟨s', out, ht, hinv, ol, oc, oz⟩ := mod_multiply_transform_spec s hs left right hl hr K hK
    S hround (by omega) (by omega)
  refine ⟨s', ?_, hinv⟩
  rw [ht]
  have hK23 : (2 : Nat) ^ K ≤ 2 ^ 23 := two_pow_le_of_le hK
  rw [mod_multiply_brute_spec left right hl hr S (by omega) (by omega)]
  congr 2
  apply list_ext_getD _ _ 0
  · simp [ol, hSN]
  · intro k hk
    have hk' : k < S := by simpa [ol, hSN] using hk
    rw [take_map_getD out S k hk' (by omega),
      getD_map_of_lt _ (List.range S) k 0 0 (by simpa using hk')]
    have hrk : (List.range S).getD k 0 = k := by
      rw [List.getD_eq_getElem _ _ (by simpa using hk'), List.getElem_range]
    rw [hrk]
    apply canonical_val_eq_of_cast _ _ (oc.getD k) (by unfold MOD; omega)
    rw [intCast_emod_MOD]
    have hz := oz k (by omega)
    unfold Zv mod_int.toZ at hz
    rw [hz]
    push_cast
    apply Finset.sum_congr rfl
    intro i hi
    apply Finset.sum_congr rfl
    intro j hj
    rw [Finset.mem_range] at hi hj
    rw [index_agree left.length right.length S (2 ^ K) i j hcase hSN hn hm hi hj]

theorem int_min_natCast (a b : Nat) : int_min (a : Int) (b : Int) = ((min a b : Nat) : Int) := by
  unfold int_min
  split <;> omega

/-- The output size that `mod_multiply` computes, and the transform length that goes with it. -/
theorem output_size_spec (n m : Nat) (hn : 1 ≤ n) (hm : 1 ≤ m) (circular : Bool)
    (hsize : if circular then max n m ≤ 2 ^ 23 else n + m - 1 ≤ 2 ^ 23) :
    ∃ (S K : Nat), (if circular then NTT.round_up_power_two (int_max (n : Int) (m : Int))
        else (n : Int) + (m : Int) - 1) = ((S : Nat) : Int) ∧
      K ≤ 23 ∧ NTT.round_up_power_two (S : Int) = ((2 ^ K : Nat) : Int) ∧ S ≤ 2 ^ K ∧
      2 ^ K < 2 * S ∧ n ≤ S ∧ m ≤ S ∧
      (if circular then S = 2 ^ K ∧ 2 ^ K < 2 * max n m else S = n + m - 1) := by
  cases circular with
  | true =>
    simp only [if_true] at hsize ⊢
    obtain ⟨e, he1, he2⟩ := exists_two_pow_bracket (max n m) (by omega)
    have he : e ≤ 23 := by
      by_contra hcon
      have : 2 ^ 24 ≤ 2 ^ e := two_pow_le_of_le (by omega)
      omega
    have hpos : 1 ≤ 2 ^ e := Nat.two_pow_pos e
    refine ⟨2 ^ e, e, ?_, he, ?_, le_refl _, by omega, by omega, by omega, rfl, he2⟩
    · rw [int_max_natCast]
      exact round_up_power_two_spec _ e (by omega) he1 he2
    · exact round_up_power_two_spec _ e (by omega) (le_refl _) (by omega)
  | false =>
    simp only [Bool.false_eq_true, if_false] at hsize ⊢
    obtain ⟨e, he1, he2⟩ := exists_two_pow_bracket (n + m - 1) (by omega)
    have he : e ≤ 23 := by
      by_contra hcon
      have : 2 ^ 24 ≤ 2 ^ e := two_pow_le_of_le (by omega)
      omega
    refine ⟨n + m - 1, e, by omega, he, ?_, he1, he2, by omega, by omega, rfl⟩
    exact round_up_power_two_spec _ e (by omega) he1 he2

/-- The member `mod_multiply` on non-empty sequences within the size limit returns what its
brute-force branch computes for the output size, whichever branch is taken. -/
theorem mod_multiply_eq_brute (s : NTT) (hs : s.Inv) (left right : List Int)
    (hl : left ≠ []) (hr : right ≠ []) (circular : Bool)
    (hsize : if circular then max left.length right.length ≤ 2 ^ 23
      else left.length + right.length - 1 ≤ 2 ^ 23) :
    ∃ (s' : NTT) (S K : Nat), NTT.mod_multiply s left right circular
        = some (s', NTT.mod_multiply_brute (left.map mod_int.ctor) (right.map mod_int.ctor)
            (S : Int)) ∧ s'.Inv ∧
      K ≤ 23 ∧ S ≤ 2 ^ K ∧ 2 ^ K < 2 * S ∧ left.length ≤ S ∧ right.length ≤ S ∧
      (if circular then S = 2 ^ K ∧ 2 ^ K < 2 * max left.length right.length
        else S = left.length + right.length - 1) := by
  have hn : 1 ≤ left.length := List.length_pos.mpr hl
  have hm : 1 ≤ right.length := List.length_pos.mpr hr
  obtain ⟨S, K, hos, hK, hround, hSK, hKS, hnS, hmS, hc⟩ :=
    output_size_spec left.length right.length hn hm circular hsize
  unfold NTT.mod_multiply
  have he : (left.isEmpty || right.isEmpty) = false := by
    cases left with
    | nil => exact absurd rfl hl
    | cons a l =>
      cases right with
      | nil => exact absurd rfl hr
      | cons b r => rfl
  rw [he]
  simp only [Bool.false_eq_true, if_false, List.length_map]
  rw [hos]
  by_cases hcut : int_min (left.length : Int) (right.length : Int) < NTT.FFT_CUTOFF
  · rw [if_pos hcut]
    exact ⟨s, S, K, rfl, hs, hK, hSK, hKS, hnS, hmS, hc⟩
  · rw [if_neg hcut]
    have hcase : S = 2 ^ K ∨ (left.map mod_int.ctor).length
        + (right.map mod_int.ctor).length ≤ S + 1 := by
      cases circular with
      | true => left; simpa using hc.1
      | false => right; simp only [Bool.false_eq_true, if_false] at hc; simp; omega
    obtain ⟨s', h, hinv⟩ := transform_eq_brute s hs _ _ (map_ctor_canonical left)
      (map_ctor_canonical right) K hK S hround hSK (by simpa using hnS) (by simpa using hmS) hcase
    exact ⟨s', S, K, h, hinv, hK, hSK, hKS, hnS, hmS, hc⟩

/-! ## Reachable states keep the invariant -/

theorem init_inv : NTT.init.Inv := by
  refine ⟨⟨?_, 1, le_refl _, by omega, rfl, ?_⟩, ?_, Or.inl rfl⟩
  · intro x hx
    simp only [NTT.init, List.mem_cons, List.mem_singleton, List.not_mem_nil, or_false] at hx
    rcases hx with h | h
    · rw [h]; exact canonical_ctor_zero
    · rw [h]; exact canonical_ctor_one
  · intro l hl i hi
    have hl0 : l = 0 := by omega
    subst hl0
    have hi0 : i = 0 := by simpa using hi
    subst hi0
    show (mod_int.ctor 1).toZ = _
    rw [toZ_ctor_one]
    simp
  · intro K hK
    exfalso
    have : 1 ≤ 2 ^ K := Nat.two_pow_pos K
    simp [NTT.init] at hK
    omega

theorem reset_inv (s : NTT) (hs : s.Inv) : (NTT.reset s).Inv := by
  refine ⟨init_inv.1, hs.2.1, Or.inl rfl⟩

theorem mod_multiply_empty (s : NTT) (left right : List Int) (circular : Bool)
    (h : left = [] ∨ right = []) : NTT.mod_multiply s left right circular = some (s, []) := by
  unfold NTT.mod_multiply
  have he : (left.isEmpty || right.isEmpty) = true := by
    rcases h with h | h
    · subst h; rfl
    · subst h; simp
  rw [he]
  rfl

/-- A call of `mod_multiply` within the size limit returns and keeps the invariant. -/
theorem mod_multiply_inv (s : NTT) (hs : s.Inv) (left right : List Int) (circular : Bool)
    (hsize : if circular then max left.length right.length ≤ 2 ^ 23
      else left.length + right.length - 1 ≤ 2 ^ 23) :
    ∃ s' out, NTT.mod_multiply s left right circular = some (s', out) ∧ s'.Inv := by
  by_cases hl : left = []
  · exact ⟨s, [], mod_multiply_empty s left right circular (Or.inl hl), hs⟩
  · by_cases hr : right = []
    · exact ⟨s, [], mod_multiply_empty s left right circular (Or.inr hr), hs⟩
    · obtain ⟨s', S, K, h, hinv, _⟩ := mod_multiply_eq_brute s hs left right hl hr circular hsize
      exact ⟨s', _, h, hinv⟩

/-- Every reachable state of the engine satisfies the invariant of the cache. -/
theorem reachable_inv (s : NTT) (h : NTT.Reachable s) : s.Inv := by
  induction h with
  | init => exact init_inv
  | reset s _ ih => exact reset_inv s ih
  | find_root s s' _ hf ih =>
    rw [find_root_eq] at hf
    cases hf
    exact ⟨ih.1, ih.2.1, Or.inr ⟨rfl, rfl⟩⟩
  | prepare_roots s s' K _ hK hp ih =>
    obtain ⟨s'', h1, hinv, _⟩ := prepare_roots_spec s ih K hK
    rw [h1] at hp
    cases hp
    exact hinv
  | bit_reorder s s' K values out _ hK hlen hb ih =>
    obtain ⟨s'', out', h1, hr, hm, hroot, htab, _⟩ :=
      bit_reorder_spec s ih.2.1 K (by omega) values hlen
    rw [h1] at hb
    cases hb
    refine ⟨by rw [hr]; exact ih.1, htab, by rw [hm, hroot]; exact ih.2.2⟩
  | fft_iterative s s' K values out _ hK hlen hc hf ih =>
    obtain ⟨s'', out', h1, hinv, _⟩ := fft_iterative_spec s ih K hK values hlen hc
    rw [h1] at hf
    cases hf
    exact hinv
  | invert_fft s s' K values out _ hK hlen hc hf ih =>
    obtain ⟨s'', out', h1, hinv, _⟩ := invert_fft_spec s ih K hK values hlen hc
    rw [h1] at hf
    cases hf
    exact hinv
  | mod_multiply s s' left right out circular _ hsize hm ih =>
    obtain ⟨s'', out', h1, hinv⟩ := mod_multiply_inv s ih left right circular hsize
    rw [h1] at hm
    cases hm
    exact hinv

/-! ## The product that `mod_multiply` returns -/

theorem wrap_index_conv (left right : List Int) (k : Nat) :
    (∑ i in Finset.range left.length, ∑ j in Finset.range right.length,
      if wrap_index (left.length + right.length - 1) (i + j) = k then
        left.getD i 0 * right.getD j 0 else 0) = conv_coeff left right k := by
  unfold conv_coeff
  apply Finset.sum_congr rfl
  intro i hi
  apply Finset.sum_congr rfl
  intro j hj
  rw [Finset.mem_range] at hi hj
  have : wrap_index (left.length + right.length - 1) (i + j) = i + j := by
    unfold wrap_index
    rw [if_pos (by omega)]
  rw [this]

theorem wrap_index_cconv (left right : List Int) (S k : Nat) (hn : left.length ≤ S)
    (hm : right.length ≤ S) :
    (∑ i in Finset.range left.length, ∑ j in Finset.range right.length,
      if wrap_index S (i + j) = k then left.getD i 0 * right.getD j 0 else 0)
      = cconv_coeff left right S k := by
  unfold cconv_coeff
  apply Finset.sum_congr rfl
  intro i hi
  apply Finset.sum_congr rfl
  intro j hj
  rw [Finset.mem_range] at hi hj
  rw [wrap_index_eq_mod S (i + j) (by omega)]

/-- The circular coefficient `k` is the plain coefficient `k` plus the plain coefficient
`k + S`. -/
theorem cconv_eq_conv_add (left right : List Int) (S k : Nat) (hn : left.length ≤ S)
    (hm : right.length ≤ S) (hk : k < S) :
    cconv_coeff left right S k = conv_coeff left right k + conv_coeff left right (k + S) := by
  unfold cconv_coeff conv_coeff
  rw [← Finset.sum_add_distrib]
  apply Finset.sum_congr rfl
  intro i hi
  rw [← Finset.sum_add_distrib]
  apply Finset.sum_congr rfl
  intro j hj
  rw [Finset.mem_range] at hi hj
  rw [← wrap_index_eq_mod S (i + j) (by omega)]
  unfold wrap_index
  by_cases h1 : i + j < S
  · rw [if_pos h1]
    by_cases h2 : i + j = k
    · rw [if_pos h2, if_neg (by omega), add_zero]
    · rw [if_neg h2, if_neg (by omega), add_zero]
  · rw [if_neg h1]
    by_cases h2 : i + j - S = k
    · rw [if_pos h2, if_neg (by omega), if_pos (by omega), zero_add]
    · rw [if_neg h2, if_neg (by omega), if_neg (by omega), add_zero]

/-- Non-circular `mod_multiply` on non-empty sequences within the size limit returns the
product, in every state that satisfies the invariant. -/
theorem mod_multiply_false_spec (s : NTT) (hs : s.Inv) (left right : List Int)
    (hl : left ≠ []) (hr : right ≠ [])
    (hsize : left.length + right.length - 1 ≤ 2 ^ 23) :
    ∃ s', NTT.mod_multiply s left right false = some (s', pmul left right) ∧ s'.Inv := by
  obtain ⟨s', S, K, h, hinv, _, _, _, hn, hm, hc⟩ :=
    mod_multiply_eq_brute s hs left right hl hr false (by simpa using hsize)
  simp only [Bool.false_eq_true, if_false] at hc
  subst hc
  refine ⟨s', ?_, hinv⟩
  rw [h, mod_multiply_brute_int left right _ (by omega) (by omega)]
  unfold pmul
  rw [if_neg (by simp [hl, hr])]
  congr 2
  apply List.map_congr_left
  intro k _
  rw [wrap_index_conv]

/-- Circular `mod_multiply` on non-empty sequences within the size limit returns the circular
product of size `2^e`, the smallest power of two that is at least both lengths. -/
theorem mod_multiply_true_spec (s : NTT) (hs : s.Inv) (left right : List Int)
    (hl : left ≠ []) (hr : right ≠ [])
    (hsize : max left.length right.length ≤ 2 ^ 23) :
    ∃ (s' : NTT) (e : Nat), NTT.mod_multiply s left right true
        = some (s', cmul left right (2 ^ e)) ∧ s'.Inv ∧
      left.length ≤ 2 ^ e ∧ right.length ≤ 2 ^ e ∧
      2 ^ e < 2 * max left.length right.length := by
  obtain ⟨s', S, K, h, hinv, _, _, _, hn, hm, hc⟩ :=
    mod_multiply_eq_brute s hs left right hl hr true (by simpa using hsize)
  simp only [if_true] at hc
  obtain ⟨hS, hmin⟩ := hc
  subst hS
  refine ⟨s', K, ?_, hinv, hn, hm, hmin⟩
  have h23 : (2 : Nat) ^ 23 = 8388608 := by norm_num
  rw [h, mod_multiply_brute_int left right _ (by omega) (by omega)]
  unfold cmul
  congr 2
  apply List.map_congr_left
  intro k _
  rw [wrap_index_cconv left right _ k hn hm]

theorem idft_congr (K : Nat) (f g : Nat → ZMod 998244353) (t : Nat)
    (h : ∀ q, q < 2 ^ K → f q = g q) : idft K f t = idft K g t := by
  unfold idft
  congr 1
  apply Finset.sum_congr rfl
  intro q hq
  rw [h q (Finset.mem_range.mp hq)]

/-- Forward transform then inverse transform gives back the vector. -/
theorem fft_roundtrip (s : NTT) (hs : s.Inv) (K : Nat) (hK : K ≤ 23) (values : List mod_int)
    (hlen : values.length = 2 ^ K) (hc : AllCanonical values) :
    ∃ s1 out1 s2, NTT.fft_iterative s ((2 ^ K : Nat) : Int) values = some (s1, out1) ∧
      NTT.invert_fft s1 ((2 ^ K : Nat) : Int) out1 = some (s2, values) ∧ s1.Inv ∧ s2.Inv ∧
      out1.length = 2 ^ K ∧ AllCanonical out1 := by
  obtain ⟨s1, out1, h1, hinv1, l1, c1, z1⟩ := fft_iterative_spec s hs K hK values hlen hc
  obtain ⟨s2, out2, h2, hinv2, l2, c2, z2⟩ := invert_fft_spec s1 hinv1 K hK out1 l1 c1
  have heq : out2 = values := by
    apply list_ext_getD _ _ (mod_int.ctor 0) (by rw [l2, hlen])
    intro t ht
    rw [l2] at ht
    apply canonical_eq_of_toZ _ _ (c2.getD t) (hc.getD t)
    have h3 : Zv out2 t = Zv values t := by
      rw [z2 t ht, idft_congr K (Zv out1) (dft (omegaK K) (2 ^ K) (Zv values)) t z1,
        idft_dft K hK _ t ht]
    exact h3
  rw [heq] at h2
  exact ⟨s1, out1, s2, h1, h2, hinv1, hinv2, l1, c1⟩

/-! ### Products of sequences as products of generating series -/

theorem cf_of_length_le (l : List Int) (k : Nat) (h : l.length ≤ k) : cf l k = 0 := by
  unfold cf
  rw [getD_of_length_le l k 0 h]
  simp

theorem pmul_eq_nil_iff (a b : List Int) : pmul a b = [] ↔ a = [] ∨ b = [] := by
  unfold pmul
  by_cases h : a = [] ∨ b = []
  · rw [if_pos h]; simp [h]
  · rw [if_neg h]
    simp only [h, iff_false]
    intro hcon
    have hl := congrArg List.length hcon
    simp only [List.length_map, List.length_range, List.length_nil] at hl
    push_neg at h
    have h1 := List.length_pos.mpr h.1
    have h2 := List.length_pos.mpr h.2
    omega

theorem pmul_length (a b : List Int) (ha : a ≠ []) (hb : b ≠ []) :
    (pmul a b).length = a.length + b.length - 1 := by
  unfold pmul
  rw [if_neg (by simp [ha, hb])]
  simp

theorem pmul_canonical (a b : List Int) : IntCanonical (pmul a b) := by
  unfold pmul
  by_cases h : a = [] ∨ b = []
  · rw [if_pos h]
    intro x hx
    simp at hx
  · rw [if_neg h]
    intro x hx
    rw [List.mem_map] at hx
    obtain ⟨k, _, rfl⟩ := hx
    unfold MOD
    omega

theorem conv_coeff_cast (a b : List Int) (k : Nat) :
    ((conv_coeff a b k : Int) : ZMod 998244353)
      = ∑ p in Finset.antidiagonal k, cf a p.1 * cf b p.2 := by
  unfold conv_coeff
  have h1 : ∀ i j : Nat, (((if i + j = k then a.getD i 0 * b.getD j 0 else 0 : Int) : Int)
      : ZMod 998244353) = if i + j = k then cf a i * cf b j else 0 := by
    intro i j
    unfold cf
    split
    · push_cast; rfl
    · simp
  rw [Int.cast_sum]
  simp only [Int.cast_sum, h1]
  rw [← Finset.sum_product' (Finset.range a.length) (Finset.range b.length)
    (fun i j => if i + j = k then cf a i * cf b j else 0)]
  rw [← Finset.sum_filter]
  apply Finset.sum_subset
  · intro x hx
    rw [Finset.mem_filter] at hx
    rw [Finset.mem_antidiagonal]
    exact hx.2
  · intro x hx hnot
    rw [Finset.mem_antidiagonal] at hx
    rw [Finset.mem_filter, Finset.mem_product, Finset.mem_range, Finset.mem_range] at hnot
    by_cases h : x.1 < a.length
    · have h2 : b.length ≤ x.2 := by
        by_contra hcon
        exact hnot ⟨⟨h, by omega⟩, hx⟩
      rw [cf_of_length_le b x.2 h2, mul_zero]
    · rw [cf_of_length_le a x.1 (by omega), zero_mul]

theorem conv_coeff_zero (a b : List Int) (k : Nat) (hk : a.length + b.length - 1 ≤ k) :
    conv_coeff a b k = 0 := by
  unfold conv_coeff
  apply Finset.sum_eq_zero
  intro i hi
  apply Finset.sum_eq_zero
  intro j hj
  rw [Finset.mem_range] at hi hj
  rw [if_neg (by omega)]

theorem cf_pmul_coeff (a b : List Int) (ha : a ≠ []) (hb : b ≠ []) (k : Nat) :
    cf (pmul a b) k = ((conv_coeff a b k : Int) : ZMod 998244353) := by
  by_cases hk : k < a.length + b.length - 1
  · unfold cf pmul
    rw [if_neg (by simp [ha, hb])]
    rw [getD_map_of_lt _ (List.range _) k 0 0 (by simpa using hk)]
    have hrk : (List.range (a.length + b.length - 1)).getD k 0 = k := by
      rw [List.getD_eq_getElem _ _ (by simpa using hk), List.getElem_range]
    rw [hrk, intCast_emod_MOD]
  · rw [cf_of_length_le _ _ (by rw [pmul_length a b ha hb]; omega),
      conv_coeff_zero a b k (by omega)]
    simp

/-- The generating series of a product is the product of the generating series. -/
theorem cf_pmul (a b : List Int) (ha : a ≠ []) (hb : b ≠ []) :
    PowerSeries.mk (cf (pmul a b)) = PowerSeries.mk (cf a) * PowerSeries.mk (cf b) := by
  apply PowerSeries.ext
  intro k
  rw [PowerSeries.coeff_mk, PowerSeries.coeff_mul, cf_pmul_coeff a b ha hb, conv_coeff_cast]
  apply Finset.sum_congr rfl
  intro p _
  rw [PowerSeries.coeff_mk, PowerSeries.coeff_mk]

/-- Two canonical sequences of the same length with the same generating series are equal. -/
theorem canonical_ext (R1 R2 : List Int) (h1 : IntCanonical R1) (h2 : IntCanonical R2)
    (hlen : R1.length = R2.length) (h : PowerSeries.mk (cf R1) = PowerSeries.mk (cf R2)) :
    R1 = R2 := by
  apply list_ext_getD R1 R2 0 hlen
  intro k hk
  apply canonical_val_eq_of_cast _ _ (h1 _ (getD_mem R1 k 0 hk))
    (h2 _ (getD_mem R2 k 0 (by omega)))
  have := congrArg (PowerSeries.coeff (ZMod 998244353) k) h
  rw [PowerSeries.coeff_mk, PowerSeries.coeff_mk] at this
  exact this

theorem degsum_append (A B : List (List Int)) : degsum (A ++ B) = degsum A + degsum B := by
  unfold degsum
  rw [List.map_append, List.sum_append]

theorem degsum_perm (A B : List (List Int)) (h : A.Perm B) : degsum A = degsum B := by
  unfold degsum
  exact (h.map _).sum_eq

theorem represents_perm (A B : List (List Int)) (R : List Int) (h : A.Perm B)
    (hr : Represents A R) : Represents B R := by
  refine ⟨fun hm => hr.1 (h.mem_iff.mpr hm), fun hm => ?_⟩
  obtain ⟨hl, hp⟩ := hr.2 (fun hcon => hm (h.mem_iff.mp hcon))
  refine ⟨by rw [hl, degsum_perm A B h], ?_⟩
  rw [hp]
  exact (h.map _).prod_eq

theorem represents_single (p : List Int) : Represents [p] p := by
  refine ⟨fun hm => ?_, fun hm => ?_⟩
  · simp only [List.mem_singleton] at hm
    exact hm.symm
  · simp only [List.mem_singleton] at hm
    have hp : p ≠ [] := fun h => hm h.symm
    have := List.length_pos.mpr hp
    refine ⟨?_, ?_⟩
    · unfold degsum
      simp only [List.map_cons, List.map_nil, List.sum_cons, List.sum_nil]
      omega
    · simp

theorem represents_length_le (A : List (List Int)) (R : List Int) (h : Represents A R) :
    R.length ≤ degsum A + 1 := by
  by_cases hm : [] ∈ A
  · rw [h.1 hm]; simp
  · rw [(h.2 hm).1]

/-- The product of two sequences holds the product of the two batches together. -/
theorem represents_mul (A B : List (List Int)) (R1 R2 : List Int) (h1 : Represents A R1)
    (h2 : Represents B R2) : Represents (A ++ B) (pmul R1 R2) := by
  refine ⟨fun hm => ?_, fun hm => ?_⟩
  · rw [pmul_eq_nil_iff]
    rcases List.mem_append.mp hm with h | h
    · exact Or.inl (h1.1 h)
    · exact Or.inr (h2.1 h)
  · have hA : [] ∉ A := fun h => hm (List.mem_append.mpr (Or.inl h))
    have hB : [] ∉ B := fun h => hm (List.mem_append.mpr (Or.inr h))
    obtain ⟨l1, p1⟩ := h1.2 hA
    obtain ⟨l2, p2⟩ := h2.2 hB
    have n1 : R1 ≠ [] := by
      intro h; rw [h] at l1; simp at l1
    have n2 : R2 ≠ [] := by
      intro h; rw [h] at l2; simp at l2
    refine ⟨?_, ?_⟩
    · rw [pmul_length R1 R2 n1 n2, degsum_append, l1, l2]
      omega
    · rw [cf_pmul R1 R2 n1 n2, p1, p2, List.map_append, List.prod_append]

/-- Replacing two factors of a batch by their product does not change what the batch
represents. -/
theorem represents_combine (a b : List Int) (L : List (List Int)) (R : List Int)
    (h : Represents (pmul a b :: L) R) : Represents (a :: b :: L) R := by
  by_cases hab : a = [] ∨ b = []
  · have hnil : pmul a b = [] := (pmul_eq_nil_iff a b).mpr hab
    have hR : R = [] := h.1 (by rw [hnil]; exact List.mem_cons_self _ _)
    refine ⟨fun _ => hR, fun hm => ?_⟩
    exfalso
    apply hm
    rcases hab with h1 | h1
    · rw [h1]; exact List.mem_cons_self _ _
    · rw [h1]; exact List.mem_cons_of_mem _ (List.mem_cons_self _ _)
  · push_neg at hab
    obtain ⟨ha, hb⟩ := hab
    have hne : pmul a b ≠ [] := fun hcon => by
      rcases (pmul_eq_nil_iff a b).mp hcon with h1 | h1
      · exact ha h1
      · exact hb h1
    refine ⟨fun hm => ?_, fun hm => ?_⟩
    · apply h.1
      simp only [List.mem_cons] at hm ⊢
      rcases hm with h1 | h1 | h1
      · exact absurd h1.symm ha
      · exact absurd h1.symm hb
      · exact Or.inr h1
    · have hm2 : [] ∉ pmul a b :: L := by
        simp only [List.mem_cons, not_or] at hm ⊢
        exact ⟨fun hcon => hne hcon.symm, hm.2.2⟩
      obtain ⟨hl, hp⟩ := h.2 hm2
      have la := List.length_pos.mpr ha
      have lb := List.length_pos.mpr hb
      refine ⟨?_, ?_⟩
      · rw [hl]
        unfold degsum
        simp only [List.map_cons, List.sum_cons]
        rw [pmul_length a b ha hb]
        omega
      · rw [hp]
        simp only [List.map_cons, List.prod_cons]
        rw [cf_pmul a b ha hb, mul_assoc]

/-- A batch has at most one canonical product. -/
theorem represents_unique (A : List (List Int)) (R1 R2 : List Int) (h1 : Represents A R1)
    (h2 : Represents A R2) (c1 : IntCanonical R1) (c2 : IntCanonical R2) : R1 = R2 := by
  by_cases hm : [] ∈ A
  · rw [h1.1 hm, h2.1 hm]
  · obtain ⟨l1, p1⟩ := h1.2 hm
    obtain ⟨l2, p2⟩ := h2.2 hm
    exact canonical_ext R1 R2 c1 c2 (by rw [l1, l2]) (by rw [p1, p2])

theorem represents_nil_one : Represents [] [1] := by
  refine ⟨fun hm => by simp at hm, fun _ => ⟨by simp [degsum], ?_⟩⟩
  apply PowerSeries.ext
  intro k
  rw [PowerSeries.coeff_mk]
  simp only [List.map_nil, List.prod_nil, PowerSeries.coeff_one]
  unfold cf
  cases k with
  | zero => simp
  | succ k => simp

theorem degsum_replicate (e : Nat) (v : List Int) :
    degsum (List.replicate e v) = e * (v.length - 1) := by
  unfold degsum
  rw [List.map_replicate, List.sum_replicate]
  simp

/-- The repeated product represents the batch of `e` copies of `v`, and it is canonical. -/
theorem pow_naive_represents (v : List Int) (e : Nat) :
    Represents (List.replicate e v) (pow_naive v e) := by
  induction e with
  | zero => exact represents_nil_one
  | succ e ih =>
    rw [List.replicate_succ']
    exact represents_mul _ _ _ _ ih (represents_single v)

theorem pow_naive_canonical (v : List Int) (e : Nat) : IntCanonical (pow_naive v e) := by
  cases e with
  | zero =>
    intro x hx
    simp only [pow_naive, List.mem_singleton] at hx
    rw [hx]; unfold MOD; omega
  | succ e => exact pmul_canonical _ _

/-- Multiplying by the sequence `[1]` reduces every entry modulo `MOD` and nothing else. -/
theorem pmul_one_left (v : List Int) (hv : IntCanonical v) : pmul [1] v = v := by
  by_cases hnil : v = []
  · rw [hnil]; rfl
  · have h1 : Represents ([[1]] ++ [v]) (pmul [1] v) :=
      represents_mul _ _ _ _ (represents_single [1]) (represents_single v)
    have h2 : Represents ([[1]] ++ [v]) v := by
      refine ⟨fun hm => ?_, fun hm => ⟨?_, ?_⟩⟩
      · simp at hm
        exact absurd hm hnil
      · have := List.length_pos.mpr hnil
        simp [degsum]
        omega
      · have h3 := represents_nil_one.2 (by simp)
        simp only [List.singleton_append, List.map_cons, List.map_nil, List.prod_cons,
          List.prod_nil, mul_one]
        rw [h3.2]
        simp
    exact represents_unique _ _ _ h1 h2 (pmul_canonical _ _) hv

/-! ### `mod_multiply` as the product of sequences, `mod_power`, `mod_multiply_all` -/

theorem brute_eq_pmul (left right : List Int) (hl : left ≠ []) (hr : right ≠ [])
    (hbig : left.length + right.length < 2147483648) :
    NTT.mod_multiply_brute (left.map mod_int.ctor) (right.map mod_int.ctor)
      ((left.length + right.length - 1 : Nat) : Int) = pmul left right := by
  rw [mod_multiply_brute_int left right _ (by omega) hbig]
  unfold pmul
  rw [if_neg (by simp [hl, hr])]
  apply List.map_congr_left
  intro k _
  rw [wrap_index_conv]

/-- Non-circular `mod_multiply` returns the product whenever it runs within the size limit;
an empty factor gives the empty sequence at once. -/
theorem mod_multiply_pmul (s : NTT) (hs : s.Inv) (left right : List Int)
    (hsize : left ≠ [] → right ≠ [] → left.length + right.length - 1 ≤ 2 ^ 23) :
    ∃ s', NTT.mod_multiply s left right false = some (s', pmul left right) ∧ s'.Inv := by
  by_cases h : left = [] ∨ right = []
  · refine ⟨s, ?_, hs⟩
    rw [mod_multiply_empty s left right false h, (pmul_eq_nil_iff left right).mpr h]
  · push_neg at h
    exact mod_multiply_false_spec s hs left right h.1 h.2 (hsize h.1 h.2)

/-- When one factor has fewer than `FFT_CUTOFF` entries, non-circular `mod_multiply` returns
the product and leaves the engine as it was. -/
theorem mod_multiply_small (s : NTT) (left right : List Int)
    (hcut : min left.length right.length < 150)
    (hbig : left.length + right.length < 2147483648) :
    NTT.mod_multiply s left right false = some (s, pmul left right) := by
  by_cases h : left = [] ∨ right = []
  · rw [mod_multiply_empty s left right false h, (pmul_eq_nil_iff left right).mpr h]
  · push_neg at h
    obtain ⟨hl, hr⟩ := h
    have hn : 1 ≤ left.length := List.length_pos.mpr hl
    have hm : 1 ≤ right.length := List.length_pos.mpr hr
    unfold NTT.mod_multiply
    have he : (left.isEmpty || right.isEmpty) = false := by
      cases left with
      | nil => exact absurd rfl hl
      | cons a l =>
        cases right with
        | nil => exact absurd rfl hr
        | cons b r => rfl
    rw [he]
    simp only [Bool.false_eq_true, if_false, List.length_map]
    have hcut2 : int_min (left.length : Int) (right.length : Int) < NTT.FFT_CUTOFF := by
      rw [int_min_natCast]
      unfold NTT.FFT_CUTOFF
      exact_mod_cast hcut
    rw [if_pos hcut2]
    have hos : (left.length : Int) + (right.length : Int) - 1
        = ((left.length + right.length - 1 : Nat) : Int) := by omega
    rw [hos, brute_eq_pmul left right hl hr hbig]

theorem clz_loop_spec (fuel : Nat) : ∀ x : Nat, 0 < x → x < 2 ^ 32 → 2 ^ 32 ≤ x * 2 ^ fuel →
    2 ^ 31 ≤ x * 2 ^ builtin_clz_loop fuel (x : Int) ∧
      x * 2 ^ builtin_clz_loop fuel (x : Int) < 2 ^ 32 := by
  induction fuel with
  | zero =>
    intro x _ h1 h2
    omega
  | succ fuel ih =>
    intro x h0 h1 h2
    rw [builtin_clz_loop]
    by_cases hx : (x : Int) < 2147483648
    · rw [if_pos hx]
      have e1 : 2 * x * 2 ^ fuel = x * 2 ^ (fuel + 1) := by ring
      have h3 := ih (2 * x) (by omega) (by omega) (by rw [e1]; exact h2)
      have hc : (2 : Int) * (x : Int) = ((2 * x : Nat) : Int) := by push_cast; rfl
      have e2 : x * 2 ^ (builtin_clz_loop fuel ((2 * x : Nat) : Int) + 1)
          = 2 * x * 2 ^ builtin_clz_loop fuel ((2 * x : Nat) : Int) := by ring
      rw [hc, e2]
      exact h3
    · rw [if_neg hx]
      simp only [pow_zero, mul_one]
      omega

/-- The expression `31 - __builtin_clz(e)` is the position of the top bit of `e`. -/
theorem clz_top_bit (e : Nat) (h0 : 0 < e) (h1 : e < 2 ^ 31) :
    e < 2 ^ (31 - builtin_clz (e : Int) + 1) := by
  unfold builtin_clz
  have hu : u32 (e : Int) = (e : Int) := u32_of_range (by omega) (by omega)
  rw [hu]
  obtain ⟨h2, h3⟩ := clz_loop_spec 32 e h0 (by omega) (by omega)
  generalize builtin_clz_loop 32 (e : Int) = c at h2 h3
  have hc : c ≤ 31 := by
    by_contra hcon
    have : 2 ^ 32 ≤ 2 ^ c := two_pow_le_of_le (by omega)
    have : 2 ^ c ≤ e * 2 ^ c := Nat.le_mul_of_pos_left _ h0
    omega
  have h4 : (2 : Nat) ^ 32 = 2 ^ (31 - c + 1) * 2 ^ c := by
    rw [← pow_add]
    congr 1
    omega
  rw [h4] at h3
  exact Nat.lt_of_mul_lt_mul_right h3

theorem bit_test (e k : Nat) :
    Int.land ((e : Int) >>> k) 1 ≠ 0 ↔ e / 2 ^ k % 2 = 1 := by
  have h1 : (e : Int) >>> k = ((e / 2 ^ k : Nat) : Int) := by
    rw [Int.shiftRight_eq_div_pow]
    push_cast
    rfl
  rw [h1, int_land_one _ (Int.natCast_nonneg _)]
  omega

/-- The loop of `mod_power`: the result after the iterations for the bits `k - 1, ..., 0`
holds the product of `e` copies of `v`, when the result before them holds the product of
`e / 2^k` copies. -/
theorem mod_power_loop_spec (v : List Int) (e : Nat)
    (hsize : e * (v.length - 1) + 1 ≤ 2 ^ 23) (k : Nat) :
    ∀ (s : NTT) (result : List Int), s.Inv → Represents (List.replicate (e / 2 ^ k) v) result →
      IntCanonical result →
      ∃ s' R, NTT.mod_power_loop v (e : Int) k s result = some (s', R) ∧ s'.Inv ∧
        Represents (List.replicate e v) R ∧ IntCanonical R := by
  induction k with
  | zero =>
    intro s result hs hr hc
    rw [pow_zero, Nat.div_one] at hr
    exact ⟨s, result, rfl, hs, hr, hc⟩
  | succ k ih =>
    intro s result hs hr hc
    have ha : e / 2 ^ k = 2 * (e / 2 ^ (k + 1)) + e / 2 ^ k % 2 := by
      rw [pow_succ, ← Nat.div_div_eq_div_mul]
      omega
    generalize e / 2 ^ (k + 1) = a at hr ha
    have hle : e / 2 ^ k ≤ e := Nat.div_le_self _ _
    have hlen := represents_length_le _ _ hr
    rw [degsum_replicate] at hlen
    have hmul : e / 2 ^ k * (v.length - 1) ≤ e * (v.length - 1) := Nat.mul_le_mul_right _ hle
    obtain ⟨s1, h1, hs1⟩ := mod_multiply_pmul s hs result result (by
      intro _ _
      have : 2 * a * (v.length - 1) ≤ e / 2 ^ k * (v.length - 1) :=
        Nat.mul_le_mul_right _ (by omega)
      have h2 : 2 * a * (v.length - 1) = 2 * (a * (v.length - 1)) := by ring
      omega)
    have hr1 : Represents (List.replicate (2 * a) v) (pmul result result) := by
      have := represents_mul _ _ _ _ hr hr
      rw [List.append_replicate_replicate] at this
      rw [two_mul]
      exact this
    have hlen1 := represents_length_le _ _ hr1
    rw [degsum_replicate] at hlen1
    rw [NTT.mod_power_loop, h1]
    simp only []
    by_cases hb : e / 2 ^ k % 2 = 1
    · rw [if_pos ((bit_test e k).mpr hb)]
      obtain ⟨s2, h2, hs2⟩ := mod_multiply_pmul s1 hs1 (pmul result result) v (by
        intro _ hv
        have := List.length_pos.mpr hv
        have h3 : e / 2 ^ k * (v.length - 1) = 2 * a * (v.length - 1) + (v.length - 1) := by
          rw [ha, hb]; ring
        omega)
      rw [h2]
      simp only []
      apply ih s2 _ hs2 _ (pmul_canonical _ _)
      have := represents_mul _ _ _ _ hr1 (represents_single v)
      rw [← List.replicate_succ'] at this
      rw [ha, hb]
      exact this
    · rw [if_neg (fun hcon => hb ((bit_test e k).mp hcon))]
      apply ih s1 _ hs1 _ (pmul_canonical _ _)
      have h0 : e / 2 ^ k % 2 = 0 := by omega
      rw [ha, h0, add_zero]
      exact hr1

/-- The member `mod_power` returns the repeated product, for every exponent that fits an `int`
and every sequence for which the result fits the transform. -/
theorem mod_power_spec (s : NTT) (hs : s.Inv) (v : List Int) (e : Nat) (he : e < 2 ^ 31)
    (hsize : e * (v.length - 1) + 1 ≤ 2 ^ 23) :
    ∃ s', NTT.mod_power s v (e : Int) = some (s', pow_naive v e) ∧ s'.Inv := by
  unfold NTT.mod_power
  rw [if_neg (by omega)]
  by_cases h0 : e = 0
  · subst h0
    exact ⟨s, by simp [pow_naive], hs⟩
  · rw [if_neg (by omega)]
    have htop := clz_top_bit e (by omega) he
    have hdiv : e / 2 ^ (31 - builtin_clz (e : Int) + 1) = 0 := Nat.div_eq_of_lt htop
    obtain ⟨s', R, h, hs', hr, hc⟩ := mod_power_loop_spec v e hsize
      (31 - builtin_clz (e : Int) + 1) s [1] hs (by rw [hdiv]; exact represents_nil_one)
      (by intro x hx; simp only [List.mem_singleton] at hx; rw [hx]; unfold MOD; omega)
    refine ⟨s', ?_, hs'⟩
    rw [h, represents_unique _ _ _ hr (pow_naive_represents v e) hc (pow_naive_canonical v e)]

theorem eraseIdx_perm (l : List (List Int)) (i : Nat) (h : i < l.length) :
    l.Perm (l.getD i [] :: l.eraseIdx i) := by
  rw [List.eraseIdx_eq_take_drop_succ, List.getD_eq_getElem _ _ h]
  have h1 : l = List.take i l ++ l[i] :: List.drop (i + 1) l := by
    rw [← List.drop_eq_getElem_cons h, List.take_append_drop]
  conv_lhs => rw [h1]
  exact List.perm_middle

theorem degsum_cons (p : List Int) (L : List (List Int)) :
    degsum (p :: L) = (p.length - 1) + degsum L := by
  unfold degsum
  simp

/-- The loop of `mod_multiply_all` returns a product of the whole queue, whichever shortest
elements `top()` picks. -/
theorem mod_multiply_all_loop_spec (top : Nat → List (List Int) → Nat) (htop : IsQueueTop top)
    (fuel : Nat) : ∀ (s : NTT) (pq : List (List Int)), s.Inv → 1 ≤ pq.length →
      pq.length ≤ fuel → degsum pq + 1 ≤ 2 ^ 23 →
      ∃ s' R, NTT.mod_multiply_all_loop top fuel s pq = some (s', R) ∧ s'.Inv ∧
        Represents pq R ∧ (∀ p, pq = [p] → R = p) ∧ (2 ≤ pq.length → IntCanonical R) := by
  induction fuel with
  | zero =>
    intro s pq _ h1 h2 _
    omega
  | succ fuel ih =>
    intro s pq hs h1 h2 hsize
    rw [NTT.mod_multiply_all_loop]
    by_cases hlen : pq.length > 1
    · rw [if_pos hlen]
      simp only []
      have hne : pq ≠ [] := by
        intro h; rw [h] at hlen; simp at hlen
      have ht1 := (htop (2 * fuel + 1) pq hne).1
      generalize top (2 * fuel + 1) pq = i at ht1
      have hp1 := eraseIdx_perm pq i ht1
      have hl1 : (pq.eraseIdx i).length = pq.length - 1 := by
        rw [List.length_eraseIdx, if_pos ht1]
      have hne1 : pq.eraseIdx i ≠ [] := by
        intro h; rw [h] at hl1; simp at hl1; omega
      have ht2 := (htop (2 * fuel) (pq.eraseIdx i) hne1).1
      generalize top (2 * fuel) (pq.eraseIdx i) = j at ht2
      have hp2 := eraseIdx_perm (pq.eraseIdx i) j ht2
      have hl2 : ((pq.eraseIdx i).eraseIdx j).length = pq.length - 2 := by
        rw [List.length_eraseIdx, if_pos ht2, hl1]
        omega
      generalize pq.getD i [] = a at hp1
      generalize (pq.eraseIdx i).getD j [] = b at hp2
      generalize (pq.eraseIdx i).eraseIdx j = pq2 at hp2 hl2
      have hperm : pq.Perm (a :: b :: pq2) := hp1.trans (hp2.cons a)
      have hdeg : degsum pq = (a.length - 1) + ((b.length - 1) + degsum pq2) := by
        rw [degsum_perm _ _ hperm, degsum_cons, degsum_cons]
      obtain ⟨s1, hm, hs1⟩ := mod_multiply_pmul s hs a b (by
        intro ha hb
        have := List.length_pos.mpr ha
        have := List.length_pos.mpr hb
        omega)
      rw [hm]
      simp only []
      have hdeg2 : degsum (pq2 ++ [pmul a b]) ≤ degsum pq := by
        rw [degsum_append, hdeg, degsum_cons]
        have h0 : degsum [] = 0 := rfl
        rw [h0]
        by_cases hab : a = [] ∨ b = []
        · rw [(pmul_eq_nil_iff a b).mpr hab]
          simp only [List.length_nil]
          omega
        · push_neg at hab
          rw [pmul_length a b hab.1 hab.2]
          have := List.length_pos.mpr hab.1
          have := List.length_pos.mpr hab.2
          omega
      obtain ⟨s', R, hloop, hs', hr, hone, hcan⟩ := ih s1 (pq2 ++ [pmul a b]) hs1
        (by simp) (by simp only [List.length_append, List.length_singleton]; omega) (by omega)
      refine ⟨s', R, hloop, hs', ?_, ?_, ?_⟩
      · apply represents_perm _ _ _ hperm.symm
        apply represents_combine
        exact represents_perm _ _ _ (List.perm_append_singleton _ _) hr
      · intro p hp
        rw [hp] at hlen
        simp at hlen
      · intro _
        by_cases h3 : 2 ≤ (pq2 ++ [pmul a b]).length
        · exact hcan h3
        · simp only [List.length_append, List.length_singleton] at h3
          have h4 : pq2 = [] := List.length_eq_zero.mp (by omega)
          rw [hone (pmul a b) (by rw [h4]; rfl)]
          exact pmul_canonical a b
    · rw [if_neg hlen]
      obtain ⟨p, hp⟩ := List.length_eq_one.mp (by omega : pq.length = 1)
      subst hp
      have ht := (htop (2 * fuel + 1) [p] (by simp)).1
      simp only [List.length_singleton, Nat.lt_one_iff] at ht
      rw [ht]
      refine ⟨s, p, rfl, hs, represents_single p, ?_, ?_⟩
      · intro q hq
        simp only [List.cons.injEq, and_true] at hq
        exact hq
      · intro h
        simp at h

/-- The left-to-right fold returns a product of the accumulator and the remaining factors. -/
theorem mod_multiply_fold_spec (rest : List (List Int)) : ∀ (s : NTT) (acc : List Int), s.Inv →
    degsum (acc :: rest) + 1 ≤ 2 ^ 23 →
    ∃ s' R, mod_multiply_fold s acc rest = some (s', R) ∧ s'.Inv ∧
      Represents (acc :: rest) R ∧ (rest ≠ [] → IntCanonical R) := by
  induction rest with
  | nil =>
    intro s acc hs _
    exact ⟨s, acc, rfl, hs, represents_single acc, fun h => absurd rfl h⟩
  | cons p rest ih =>
    intro s acc hs hsize
    rw [degsum_cons, degsum_cons] at hsize
    obtain ⟨s1, hm, hs1⟩ := mod_multiply_pmul s hs acc p (by
      intro ha hb
      have := List.length_pos.mpr ha
      have := List.length_pos.mpr hb
      omega)
    have hdeg : degsum (pmul acc p :: rest) + 1 ≤ 2 ^ 23 := by
      rw [degsum_cons]
      by_cases hab : acc = [] ∨ p = []
      · rw [(pmul_eq_nil_iff acc p).mpr hab]
        simp only [List.length_nil]
        omega
      · push_neg at hab
        rw [pmul_length acc p hab.1 hab.2]
        have := List.length_pos.mpr hab.1
        have := List.length_pos.mpr hab.2
        omega
    obtain ⟨s', R, hf, hs', hr, hcan⟩ := ih s1 (pmul acc p) hs1 hdeg
    refine ⟨s', R, ?_, hs', represents_combine _ _ _ _ hr, ?_⟩
    · rw [mod_multiply_fold, hm, Option.some_bind]
      exact hf
    · intro _
      by_cases h3 : rest = []
      · subst h3
        rw [mod_multiply_fold] at hf
        cases hf
        exact pmul_canonical acc p
      · exact hcan h3

/-! ### The extended Euclidean loop of `mod_inv` -/

theorem three_pow (p : Nat) (hp : p < 2 ^ 64) :
    (3 : ZMod 998244353) ^ p = (mod_int.pow_loop 64 ⟨3⟩ (mod_int.ctor 1) (p : Int)).toZ := by
  have hc : canonical ⟨3⟩ := by decide
  rw [pow_loop_toZ 64 ⟨3⟩ (mod_int.ctor 1) p hc canonical_ctor_one hp, toZ_ctor_one, one_mul]
  unfold mod_int.toZ
  norm_num

theorem toZ_ne_one (x : mod_int) (hx : canonical x) (h : x.val ≠ 1) : x.toZ ≠ 1 := by
  intro hcon
  apply h
  apply canonical_val_eq_of_cast x.val 1 hx (by unfold MOD; omega)
  unfold mod_int.toZ at hcon
  rw [hcon]
  norm_num

/-- The modulus is prime: `3` has order `MOD - 1 = 2^23 * 7 * 17`. -/
theorem prime_MOD : Nat.Prime 998244353 := by
  have hfac : (998244353 : Nat) - 1 = 2 ^ 23 * 7 * 17 := by norm_num
  have hc : canonical ⟨3⟩ := by decide
  have hcan : ∀ p : Nat, canonical (mod_int.pow_loop 64 ⟨3⟩ (mod_int.ctor 1) (p : Int)) :=
    fun p => pow_loop_canonical 64 ⟨3⟩ (mod_int.ctor 1) (p : Int) hc canonical_ctor_one
  apply lucas_primality 998244353 (3 : ZMod 998244353)
  · rw [three_pow _ (by norm_num)]
    have e : mod_int.pow_loop 64 ⟨3⟩ (mod_int.ctor 1) ((998244353 - 1 : Nat) : Int) = ⟨1⟩ := by
      decide!
    rw [e]
    unfold mod_int.toZ
    norm_num
  · intro q hq hdvd
    rw [hfac] at hdvd
    have hq3 : q = 2 ∨ q = 7 ∨ q = 17 := by
      rcases (Nat.Prime.dvd_mul hq).mp hdvd with h | h
      · rcases (Nat.Prime.dvd_mul hq).mp h with h2 | h2
        · left
          exact (Nat.prime_dvd_prime_iff_eq hq Nat.prime_two).mp (hq.dvd_of_dvd_pow h2)
        · right; left
          exact (Nat.prime_dvd_prime_iff_eq hq (by norm_num)).mp h2
      · right; right
        exact (Nat.prime_dvd_prime_iff_eq hq (by norm_num)).mp h
    rcases hq3 with h | h | h
    · subst h
      rw [three_pow _ (by norm_num)]
      exact toZ_ne_one _ (hcan _) (by decide!)
    · subst h
      rw [three_pow _ (by norm_num)]
      exact toZ_ne_one _ (hcan _) (by decide!)
    · subst h
      rw [three_pow _ (by norm_num)]
      exact toZ_ne_one _ (hcan _) (by decide!)

theorem in_int32_of_abs (x m : Int) (hm : m < 2147483648) (h1 : -m ≤ x) (h2 : x ≤ m) :
    in_int32 x := by
  unfold in_int32
  omega

theorem euclid_step_bounds (g r q X Y m : Int) (hr : 0 < r) (hq : 0 ≤ q) (hX : 0 ≤ X)
    (hY : 0 ≤ Y) (hg : r < g) (hrem : 0 ≤ g - r * q) (hinv : g * Y + r * X = m) :
    r * (X + q * Y) + (g - r * q) * Y = m ∧ X + q * Y ≤ m ∧ q * Y ≤ m ∧ Y ≤ m := by
  have e1 : r * (X + q * Y) + (g - r * q) * Y = g * Y + r * X := by ring
  have h1 : 0 ≤ (g - r * q) * Y := mul_nonneg hrem hY
  have h2 : 0 ≤ q * Y := mul_nonneg hq hY
  have h3 : X + q * Y ≤ r * (X + q * Y) := by nlinarith
  have h4 : Y ≤ g * Y := by nlinarith
  have h5 : 0 ≤ r * X := mul_nonneg (le_of_lt hr) hX
  refine ⟨by rw [e1, hinv], by linarith, by linarith, by linarith⟩

/-- The loop of `mod_inv` on `0 <= r < g <= m`: it ends within `r` iterations, no intermediate
value leaves the range of `int`, and the returned coefficient `x0` satisfies
`x0 * a = g0 (mod m)` for a proper divisor `g0` of `m`. -/
theorem mod_inv_loop_exact (m a : Int) (hm2 : m < 2147483648) (fuel : Nat) :
    ∀ g r x y X Y : Int, 0 ≤ r → r < g → g ≤ m → (r = 0 → g < m) →
      ((X = -x ∧ Y = y) ∨ (X = x ∧ Y = -y)) → 0 ≤ X → X ≤ m → 0 ≤ Y → g * Y + r * X = m →
      m ∣ x * a - g → m ∣ y * a - r → r.toNat ≤ fuel →
      ∃ x0 g0, mod_inv_exact_loop fuel g r x y = some x0 ∧
        mod_int.mod_inv_loop fuel g r x y = x0 ∧ -m ≤ x0 ∧ x0 ≤ m ∧ m ∣ x0 * a - g0 ∧
        0 < g0 ∧ g0 < m ∧ g0 ∣ m := by
  have hend : ∀ (fuel : Nat) (g x y X Y : Int), 0 < g → g < m →
      ((X = -x ∧ Y = y) ∨ (X = x ∧ Y = -y)) → 0 ≤ X → X ≤ m → g * Y + 0 * X = m →
      m ∣ x * a - g →
      ∃ x0 g0, mod_inv_exact_loop fuel g 0 x y = some x0 ∧
        mod_int.mod_inv_loop fuel g 0 x y = x0 ∧ -m ≤ x0 ∧ x0 ≤ m ∧ m ∣ x0 * a - g0 ∧
        0 < g0 ∧ g0 < m ∧ g0 ∣ m := by
    intro fuel g x y X Y hg0 hgm hsign hX0 hXm hinv hcx
    refine ⟨x, g, ?_, ?_, ?_, ?_, hcx, hg0, hgm, ⟨Y, by linarith⟩⟩
    · cases fuel <;> simp [mod_inv_exact_loop]
    · cases fuel <;> simp [mod_int.mod_inv_loop]
    · rcases hsign with ⟨h1, _⟩ | ⟨h1, _⟩ <;> omega
    · rcases hsign with ⟨h1, _⟩ | ⟨h1, _⟩ <;> omega
  induction fuel with
  | zero =>
    intro g r x y X Y hr0 hrg hgm hlast hsign hX0 hXm hY0 hinv hcx hcy hfuel
    have hr : r = 0 := by omega
    subst hr
    exact hend 0 g x y X Y (by omega) (hlast rfl) hsign hX0 hXm hinv hcx
  | succ fuel ih =>
    intro g r x y X Y hr0 hrg hgm hlast hsign hX0 hXm hY0 hinv hcx hcy hfuel
    by_cases hr : r = 0
    · subst hr
      exact hend (fuel + 1) g x y X Y (by omega) (hlast rfl) hsign hX0 hXm hinv hcx
    · have hrpos : 0 < r := by omega
      rw [mod_inv_exact_loop, mod_int.mod_inv_loop, if_pos hr, if_pos hr]
      simp only []
      rw [Int.tdiv_eq_ediv (by omega) (by omega), Int.tmod_eq_emod (by omega) (by omega)]
      have hq0 : 0 ≤ g / r := Int.ediv_nonneg (by omega) (by omega)
      have hqg : g / r ≤ g := Int.ediv_le_self r (by omega)
      have hmod : g % r = g - r * (g / r) := by
        have := Int.emod_add_ediv g r
        linarith
      have hr1 : 0 ≤ g % r := Int.emod_nonneg _ hr
      have hr2 : g % r < r := Int.emod_lt_of_pos _ hrpos
      rw [hmod] at hr1 hr2 ⊢
      generalize g / r = q at hq0 hqg hr1 hr2 ⊢
      obtain ⟨hnew, hY', hqY, hYm⟩ := euclid_step_bounds g r q X Y m hrpos hq0 hX0 hY0 hrg hr1 hinv
      have hqY0 : 0 ≤ q * Y := mul_nonneg hq0 hY0
      have hq32 : in_int32 q := in_int32_of_abs q m hm2 (by omega) (by omega)
      have hqy : -m ≤ q * y ∧ q * y ≤ m := by
        rcases hsign with ⟨_, h2⟩ | ⟨_, h2⟩
        · rw [← h2]; omega
        · have : q * y = -(q * Y) := by rw [h2]; ring
          omega
      have hqy32 : in_int32 (q * y) := in_int32_of_abs _ m hm2 hqy.1 hqy.2
      have hx1 : (X + q * Y = -(x - q * y) ∧ Y = y) ∨ (X + q * Y = x - q * y ∧ Y = -y) := by
        rcases hsign with ⟨h1, h2⟩ | ⟨h1, h2⟩
        · left; rw [h1, h2]; constructor
          · ring
          · rfl
        · right; rw [h1, h2]; constructor
          · ring
          · rfl
      have hx1r : -m ≤ x - q * y ∧ x - q * y ≤ m := by
        rcases hx1 with ⟨h1, _⟩ | ⟨h1, _⟩ <;> omega
      have hx32 : in_int32 (x - q * y) := in_int32_of_abs _ m hm2 hx1r.1 hx1r.2
      rw [if_pos ⟨hq32, hqy32, hx32⟩]
      rw [wrap32_of_range (x := q) hq32.1 hq32.2, wrap32_of_range (x := q * y) hqy32.1 hqy32.2,
        wrap32_of_range (x := x - q * y) hx32.1 hx32.2]
      apply ih r (g - r * q) y (x - q * y) Y (X + q * Y) hr1 hr2 (by omega) (fun _ => by omega)
      · rcases hx1 with ⟨h1, h2⟩ | ⟨h1, h2⟩
        · right; exact ⟨h2, by omega⟩
        · left; exact ⟨h2, by omega⟩
      · exact hY0
      · exact hYm
      · omega
      · exact hnew
      · exact hcy
      · have e : (x - q * y) * a - (g - r * q) = (x * a - g) - q * (y * a - r) := by ring
        rw [e]
        exact dvd_sub hcx (Dvd.dvd.mul_left hcy q)
      · omega

/-- For `0 < a < MOD` the function `mod_inv` ends without overflow and returns the inverse of
`a` in `[0, MOD)`. -/
theorem mod_inv_spec (a : Int) (h0 : 0 < a) (h1 : a < MOD) :
    ∃ x0, mod_inv_exact_loop (a.natAbs + 1) MOD a 0 1 = some x0 ∧ in_int32 (x0 + MOD) ∧
      mod_int.mod_inv a MOD = (if x0 < 0 then x0 + MOD else x0) ∧
      0 ≤ mod_int.mod_inv a MOD ∧ mod_int.mod_inv a MOD < MOD ∧
      (a * mod_int.mod_inv a MOD) % MOD = 1 := by
  obtain ⟨x0, g0, he, hl, hlo, hhi, hc, hg0, hgm, hdvd⟩ :=
    mod_inv_loop_exact MOD a (by unfold MOD; omega) (a.natAbs + 1) MOD a 0 1 0 1
      (by omega) h1 (le_refl _) (fun h => by omega) (Or.inl ⟨by ring, rfl⟩) (le_refl _)
      (by unfold MOD; omega) (by omega) (by ring) (by simp) (by simp) (by omega)
  have hg1 : g0 = 1 := by
    have h2 : g0.natAbs ∣ 998244353 := by
      have h3 : MOD.natAbs = 998244353 := rfl
      rw [← h3]
      exact Int.natAbs_dvd_natAbs.mpr hdvd
    rcases (Nat.dvd_prime prime_MOD).mp h2 with h3 | h3
    · omega
    · unfold MOD at hgm; omega
  subst hg1
  obtain ⟨c, hc⟩ := hc
  have hx0m : x0 ≠ MOD := by
    intro h
    rw [h] at hc
    have : MOD * (a - c) = 1 := by linarith
    have h4 : MOD ∣ 1 := ⟨a - c, this.symm⟩
    have h5 := Int.le_of_dvd (by omega) h4
    unfold MOD at h5
    omega
  have hval : mod_int.mod_inv a MOD = (if x0 < 0 then x0 + MOD else x0) := by
    unfold mod_int.mod_inv
    simp only []
    rw [hl]
    split
    · rw [wrap32_of_range (by unfold MOD at *; omega) (by unfold MOD at *; omega)]
    · rfl
  refine ⟨x0, he, ?_, hval, ?_, ?_, ?_⟩
  · unfold in_int32; unfold MOD at *; omega
  · rw [hval]; split <;> omega
  · rw [hval]; split <;> omega
  · rw [hval]
    have h6 : ∃ d, a * (if x0 < 0 then x0 + MOD else x0) = 1 + MOD * d := by
      split
      · exact ⟨c + a, by linarith⟩
      · exact ⟨c, by linarith⟩
    obtain ⟨d, hd⟩ := h6
    rw [hd, Int.add_mul_emod_self_left]
    unfold MOD
    rfl

theorem mod_int_eq_of_val (a b : mod_int) (h : a.val = b.val) : a = b := by
  cases a; cases b; simp only [mod_int.mk.injEq]; exact h

/-- The member `inv` of a canonical nonzero value is its multiplicative inverse. -/
theorem inv_spec (a : mod_int) (ha : canonical a) (hne : a.val ≠ 0) :
    canonical (mod_int.inv a) ∧ (a.val * (mod_int.inv a).val) % MOD = 1 := by
  obtain ⟨x0, _, _, _, h0, h1, h2⟩ := mod_inv_spec a.val (by have := ha.1; omega) ha.2
  have hinv : (mod_int.inv a).val = mod_int.mod_inv a.val MOD := by
    unfold mod_int.inv
    rw [ctor_val_all]
    exact Int.emod_eq_of_lt h0 h1
  refine ⟨inv_canonical a, ?_⟩
  rw [hinv]
  exact h2

theorem toZ_inv (a : mod_int) (ha : canonical a) (hne : a.val ≠ 0) :
    a.toZ * (mod_int.inv a).toZ = 1 := by
  have h := (inv_spec a ha hne).2
  unfold mod_int.toZ
  have h2 : ((a.val * (mod_int.inv a).val : Int) : ZMod 998244353)
      = (((a.val * (mod_int.inv a).val) % MOD : Int) : ZMod 998244353) :=
    (intCast_emod_MOD _).symm
  rw [h] at h2
  push_cast at h2
  exact h2

/-! ### The checked brute-force branch -/

theorem foldl_option_some {ι σ : Type} (P : σ → Prop) (step : ι → σ → σ)
    (F : ι → Option σ → Option σ) (l : List ι) :
    ∀ r0 : σ, (∀ i ∈ l, ∀ r, P r → F i (some r) = some (step i r) ∧ P (step i r)) → P r0 →
      l.foldl (fun acc i => F i acc) (some r0) = some (l.foldl (fun r i => step i r) r0) ∧
        P (l.foldl (fun r i => step i r) r0) := by
  induction l with
  | nil =>
    intro r0 _ h0
    exact ⟨rfl, h0⟩
  | cons a l ih =>
    intro r0 h h0
    obtain ⟨h1, h2⟩ := h a (List.mem_cons_self _ _) r0 h0
    simp only [List.foldl_cons]
    rw [h1]
    exact ih (step a r0) (fun i hi r hr => h i (List.mem_cons_of_mem _ hi) r hr) h2

theorem mod_output_size_eq (S x : Nat) (hx : x < 2147483648) :
    NTT.mod_output_size (S : Int) (wrap32 ((x : Nat) : Int)) = ((wrap_index S x : Nat) : Int) := by
  unfold NTT.mod_output_size wrap_index
  rw [wrap32_of_range (by omega) (by omega)]
  by_cases h : x < S
  · have h' : (x : Int) < (S : Int) := by exact_mod_cast h
    rw [if_pos h', if_pos h]
  · have h' : ¬ (x : Int) < (S : Int) := by omega
    rw [if_neg h', if_neg h, wrap32_of_range (by omega) (by omega)]
    omega

theorem product_bounds (a b : Int) (ha : 0 ≤ a ∧ a < 998244353) (hb : 0 ≤ b ∧ b < 998244353) :
    0 ≤ a * b ∧ a * b < 998244353 * 998244353 ∧ a * b ≤ 998244352 * 998244352 := by
  have h0 : 0 ≤ a * b := Int.mul_nonneg ha.1 hb.1
  have h1 : a * b ≤ 998244352 * 998244352 :=
    Int.mul_le_mul (by omega) (by omega) hb.1 (by omega)
  refine ⟨h0, by omega, h1⟩

/-- One step of the brute-force loop passes every check when the accumulators satisfy their
invariant. -/
theorem brute_step_checked_spec (left right : List mod_int) (hl : AllCanonical left)
    (hr : AllCanonical right) (S i j : Nat) (hij : i + j < 2147483648)
    (hidx : wrap_index S (i + j) < S) (r : List Int) (hP : ∃ f, AccInv S r f) :
    NTT.brute_step_checked left right (S : Int) i j r
        = some (NTT.brute_step left right (S : Int) i j r) ∧
      ∃ f, AccInv S (NTT.brute_step left right (S : Int) i j r) f := by
  obtain ⟨f, hinv⟩ := hP
  refine ⟨?_, _, brute_step_spec left right hl hr S i j hij hidx r f hinv⟩
  obtain ⟨hlen, hacc⟩ := hinv
  have ha : 0 ≤ (left.getD i (mod_int.ctor 0)).val ∧
      (left.getD i (mod_int.ctor 0)).val < 998244353 := hl.getD i
  have hb : 0 ≤ (right.getD j (mod_int.ctor 0)).val ∧
      (right.getD j (mod_int.ctor 0)).val < 998244353 := hr.getD j
  obtain ⟨p0, p1, p2⟩ := product_bounds _ _ ha hb
  have hcast : ((i : Int) + (j : Int)) = ((i + j : Nat) : Int) := by push_cast; rfl
  obtain ⟨a0, a1, _⟩ := hacc _ hidx
  unfold NTT.brute_step_checked
  simp only []
  rw [hcast, mod_output_size_eq S (i + j) hij, Int.toNat_ofNat, U64_BOUND_eq]
  rw [if_pos]
  refine ⟨?_, ?_, ?_, ?_, a1, p0, ?_, ?_⟩
  · unfold in_int32; omega
  · omega
  · exact_mod_cast hidx
  · rw [hlen]; exact hidx
  · unfold MOD; exact p1
  · omega

/-- The brute-force branch passes every check: the index is always a position of `result`,
the accumulator read is at most `U64_BOUND`, and the 64-bit sum does not wrap. -/
theorem mod_multiply_brute_checked_spec (left right : List mod_int) (hl : AllCanonical left)
    (hr : AllCanonical right) (S : Nat) (hS : left.length + right.length ≤ 2 * S + 1)
    (hbig : left.length + right.length < 2147483648) :
    NTT.mod_multiply_brute_checked left right (S : Int)
      = some (NTT.mod_multiply_brute left right (S : Int)) := by
  have hidx : ∀ i j, i < left.length → j < right.length → wrap_index S (i + j) < S := by
    intro i j hi hj
    unfold wrap_index
    split <;> omega
  have h0 : ∃ f, AccInv S (List.replicate S (0 : Int)) f := by
    refine ⟨fun _ => 0, by simp, ?_⟩
    intro k _
    rw [getD_replicate_int]
    exact ⟨le_refl _, by omega, rfl⟩
  have houter := foldl_option_some (fun r => ∃ f, AccInv S r f)
    (fun i r => (List.range right.length).foldl
      (fun r j => NTT.brute_step left right (S : Int) i j r) r)
    (fun i acc => (List.range right.length).foldl
      (fun r j => r.bind (NTT.brute_step_checked left right (S : Int) i j)) acc)
    (List.range left.length) (List.replicate S (0 : Int))
    (by
      intro i hi r hr'
      rw [List.mem_range] at hi
      exact foldl_option_some (fun r => ∃ f, AccInv S r f)
        (fun j r => NTT.brute_step left right (S : Int) i j r)
        (fun j acc => acc.bind (NTT.brute_step_checked left right (S : Int) i j))
        (List.range right.length) r
        (by
          intro j hj r2 hr2
          rw [List.mem_range] at hj
          beta_reduce
          rw [Option.some_bind]
          exact brute_step_checked_spec left right hl hr S i j (by omega) (hidx i j hi hj)
            r2 hr2)
        hr')
    h0
  unfold NTT.mod_multiply_brute_checked NTT.mod_multiply_brute
  simp only [Int.toNat_ofNat]
  rw [houter.1, Option.some_bind]

/-! ### The table of roots under a sequence of calls of `prepare_roots` -/

theorem fill_fold_getD_zero (z : mod_int) (c : Nat) : ∀ (a : Nat) (roots : List mod_int), 1 ≤ a →
    ((List.range' a c).foldl
      (fun r i =>
        let r1 := r.set (2 * i) (r.getD i (mod_int.ctor 0))
        r1.set (2 * i + 1) (mod_int.mul (r1.getD i (mod_int.ctor 0)) z))
      roots).getD 0 (mod_int.ctor 0) = roots.getD 0 (mod_int.ctor 0) := by
  induction c with
  | zero => intro a roots _; rfl
  | succ c ih =>
    intro a roots ha
    rw [List.range'_succ]
    simp only [List.foldl_cons]
    rw [ih (a + 1) _ (by omega)]
    rw [getD_set_eq, if_neg (by omega), getD_set_eq, if_neg (by omega)]

theorem prepare_roots_loop_getD_zero (root : mod_int) (max_size n : Int) (fuel : Nat) :
    ∀ (length : Nat) (roots r' : List mod_int),
      NTT.prepare_roots_loop root max_size n fuel length roots = some r' →
      r'.getD 0 (mod_int.ctor 0) = roots.getD 0 (mod_int.ctor 0) := by
  induction fuel with
  | zero =>
    intro length roots r' h
    rw [NTT.prepare_roots_loop] at h
    cases h
  | succ fuel ih =>
    intro length roots r' h
    rw [NTT.prepare_roots_loop] at h
    by_cases hc : wrap32 (2 ^ length) < n
    · rw [if_pos hc] at h
      cases hz : mod_int.pow 1 root (max_size >>> (length + 1)) with
      | none => rw [hz] at h; cases h
      | some z =>
        rw [hz] at h
        simp only [] at h
        rw [ih _ _ _ h]
        unfold NTT.prepare_roots_fill
        apply fill_fold_getD_zero
        rw [Nat.one_shiftLeft]
        exact Nat.two_pow_pos _
    · rw [if_neg hc] at h
      cases h
      rfl

/-- A call of `prepare_roots` with a power of two leaves a table whose length is the larger of
the old length and the argument, and does not touch position `0`. -/
theorem prepare_roots_frame (s : NTT) (hs : s.Inv) (K : Nat) (hK : K ≤ 23) (s' : NTT)
    (h : NTT.prepare_roots s ((2 ^ K : Nat) : Int) = some s') :
    s'.roots.length = max s.roots.length (2 ^ K) ∧
      s'.roots.getD 0 (mod_int.ctor 0) = s.roots.getD 0 (mod_int.ctor 0) := by
  obtain ⟨⟨hrc, L, hL1, hL23, hLlen, hLtab⟩, htable, hmax⟩ := hs
  have h1 : ∃ s1, (if s.max_size < 0 then NTT.find_root s else some s) = some s1 ∧
      s1.roots = s.roots ∧ s1.max_size = 8388608 ∧ s1.root = ⟨31⟩ := by
    rcases hmax with h | ⟨h, h'⟩
    · rw [h, if_pos (by decide), find_root_eq]
      exact ⟨_, rfl, rfl, rfl, rfl⟩
    · rw [h, if_neg (by decide)]
      exact ⟨s, rfl, rfl, h, h'⟩
  obtain ⟨s1, hs1, hr1, hm1, hroot1⟩ := h1
  have hK23 : (2 : Nat) ^ K ≤ 2 ^ 23 := two_pow_le_of_le hK
  unfold NTT.prepare_roots at h
  rw [hs1] at h
  simp only at h
  have hassert : ¬ ¬ ((2 ^ K : Nat) : Int) ≤ s1.max_size := by
    rw [hm1]; omega
  rw [if_neg hassert] at h
  by_cases hge : (s1.roots.length : Int) ≥ ((2 ^ K : Nat) : Int)
  · rw [if_pos hge] at h
    cases h
    rw [hr1] at hge ⊢
    refine ⟨?_, rfl⟩
    rw [max_eq_left (by omega)]
  · rw [if_neg hge] at h
    have hLK : L < K := by
      by_contra hcon
      have : 2 ^ K ≤ 2 ^ L := two_pow_le_of_le (by omega)
      rw [hr1, hLlen] at hge
      omega
    rw [hr1, hLlen, get_length_two_pow L (by omega)] at h
    simp only at h
    rw [hroot1, hm1, Int.toNat_ofNat] at h
    have hle : s.roots.length ≤ 2 ^ K := by
      rw [hLlen]; exact two_pow_le_of_le (by omega)
    obtain ⟨r', hr', hlen', _, _⟩ := prepare_roots_loop_spec K hK 32 L
      (vector_resize s.roots (2 ^ K) (mod_int.ctor 0)) hL1 (by omega) (by omega)
      (vector_resize_length _ _ _) (vector_resize_canonical _ _ hrc)
      (by
        intro l' hl' i hi
        rw [Zv_resize _ _ _ hle]
        exact hLtab l' hl' i hi)
    rw [hr'] at h
    simp only at h
    cases h
    refine ⟨?_, ?_⟩
    · show r'.length = _
      rw [hlen', max_eq_right hle]
    · show r'.getD 0 _ = _
      rw [prepare_roots_loop_getD_zero _ _ _ _ _ _ _ hr', vector_resize_getD _ _ _ _ hle]

/-- A sequence of calls of `prepare_roots` with powers of two up to `2^23` runs through, keeps
the invariant, and leaves a table as long as the largest argument or the old table. -/
theorem prepare_roots_seq_spec (ks : List Nat) : ∀ s : NTT, s.Inv → (∀ k ∈ ks, k ≤ 23) →
    ∃ s', NTT.prepare_roots_seq s (ks.map (fun k => ((2 ^ k : Nat) : Int))) = some s' ∧ s'.Inv ∧
      s'.roots.length = (ks.map (fun k => 2 ^ k)).foldl max s.roots.length ∧
      s'.roots.getD 0 (mod_int.ctor 0) = s.roots.getD 0 (mod_int.ctor 0) ∧
      (ks = [] → s' = s) ∧ (ks ≠ [] → s'.max_size = 8388608 ∧ s'.root = ⟨31⟩) ∧
      (s.max_size = 8388608 ∧ s.root = ⟨31⟩ → s'.max_size = 8388608 ∧ s'.root = ⟨31⟩) := by
  induction ks with
  | nil =>
    intro s hs _
    exact ⟨s, rfl, hs, rfl, rfl, fun _ => rfl, fun h => absurd rfl h, fun h => h⟩
  | cons k ks ih =>
    intro s hs hk
    obtain ⟨s1, hp, hinv1, _, hm1, hroot1, _⟩ :=
      prepare_roots_spec s hs k (hk k (List.mem_cons_self _ _))
    obtain ⟨hlen1, hz1⟩ := prepare_roots_frame s hs k (hk k (List.mem_cons_self _ _)) s1 hp
    obtain ⟨s', hseq, hinv', hlen', hz', _, _, hset⟩ :=
      ih s1 hinv1 (fun k' hk' => hk k' (List.mem_cons_of_mem _ hk'))
    refine ⟨s', ?_, hinv', ?_, ?_, fun h => (by cases h), fun _ => hset ⟨hm1, hroot1⟩,
      fun _ => hset ⟨hm1, hroot1⟩⟩
    · simp only [List.map_cons]
      rw [NTT.prepare_roots_seq, hp, Option.some_bind]
      exact hseq
    · simp only [List.map_cons, List.foldl_cons]
      rw [hlen', hlen1]
    · rw [hz', hz1]

/-- Two tables with the layout of the roots agree wherever both are defined. -/
theorem roots_agree (r1 r2 : List mod_int) (h1 : RootsOK r1) (h2 : RootsOK r2)
    (hlen : r1.length ≤ r2.length)
    (h0 : r2.getD 0 (mod_int.ctor 0) = r1.getD 0 (mod_int.ctor 0)) :
    ∀ p, p < r1.length → r2.getD p (mod_int.ctor 0) = r1.getD p (mod_int.ctor 0) := by
  obtain ⟨c1, L1, _, _, hl1, t1⟩ := h1
  obtain ⟨c2, L2, _, _, hl2, t2⟩ := h2
  intro p hp
  by_cases hp0 : p = 0
  · rw [hp0]; exact h0
  · have ha : 2 ^ Nat.log 2 p ≤ p := Nat.pow_log_le_self 2 hp0
    have hb : p < 2 ^ (Nat.log 2 p + 1) := Nat.lt_pow_succ_log_self (by decide) p
    generalize Nat.log 2 p = l at ha hb
    have hlL1 : l < L1 := by
      by_contra hcon
      have : 2 ^ L1 ≤ 2 ^ l := two_pow_le_of_le (by omega)
      omega
    have hL12 : L1 ≤ L2 := by
      by_contra hcon
      have h3 : 2 ^ (L2 + 1) ≤ 2 ^ L1 := two_pow_le_of_le (by omega)
      have h4 := Nat.two_pow_pos L2
      rw [pow_succ] at h3
      omega
    rw [pow_succ] at hb
    have e : p = 2 ^ l + (p - 2 ^ l) := by omega
    apply canonical_eq_of_toZ _ _ (c2.getD p) (c1.getD p)
    have z1 := t1 l hlL1 (p - 2 ^ l) (by omega)
    have z2 := t2 l (by omega) (p - 2 ^ l) (by omega)
    rw [← e] at z1 z2
    unfold Zv at z1 z2
    rw [z1, z2]

/-- The layout of the table in terms of the cached root: the range `[2^l, 2^(l+1))` holds
the powers `root ^ ((max_size / 2^(l+1)) * i)`. -/
theorem roots_layout (s : NTT) (hs : s.Inv) (hm : s.max_size = 8388608) (hroot : s.root = ⟨31⟩)
    (l i : Nat) (hl : 2 ^ (l + 1) ≤ s.roots.length) (hi : i < 2 ^ l) :
    (s.roots.getD (2 ^ l + i) (mod_int.ctor 0)).toZ
      = s.root.toZ ^ ((s.max_size.toNat / 2 ^ (l + 1)) * i) := by
  obtain ⟨⟨_, L, _, hL23, hLlen, htab⟩, _, _⟩ := hs
  have hlL : l < L := by
    by_contra hcon
    have h3 : 2 ^ (L + 1) ≤ 2 ^ (l + 1) := two_pow_le_of_le (by omega)
    have h4 := Nat.two_pow_pos L
    rw [pow_succ] at h3
    omega
  have h := htab l hlL i hi
  unfold Zv at h
  rw [h, hm, hroot, toZ_root]
  unfold omegaK
  have e : (8388608 : Int).toNat / 2 ^ (l + 1) = 2 ^ (23 - (l + 1)) := by
    have h5 : (8388608 : Int).toNat = 2 ^ 23 := by decide
    rw [h5, Nat.pow_div (by omega) (by decide)]
  rw [e, pow_mul]

/-! ### Further facts about the modular integers and the engine -/

theorem pmul_getD (a b : List Int) (ha : a ≠ []) (hb : b ≠ []) (k : Nat) :
    (pmul a b).getD k 0 = conv_coeff a b k % MOD := by
  by_cases hk : k < a.length + b.length - 1
  · unfold pmul
    rw [if_neg (by simp [ha, hb])]
    rw [getD_map_of_lt _ (List.range _) k 0 0 (by simpa using hk)]
    have hrk : (List.range (a.length + b.length - 1)).getD k 0 = k := by
      rw [List.getD_eq_getElem _ _ (by simpa using hk), List.getElem_range]
    rw [hrk]
  · rw [getD_of_length_le _ _ _ (by rw [pmul_length a b ha hb]; omega),
      conv_coeff_zero a b k (by omega)]
    rfl

theorem cmul_getD (a b : List Int) (S k : Nat) (hk : k < S) :
    (cmul a b S).getD k 0 = cconv_coeff a b S k % MOD := by
  unfold cmul
  rw [getD_map_of_lt _ (List.range _) k 0 0 (by simpa using hk)]
  have hrk : (List.range S).getD k 0 = k := by
    rw [List.getD_eq_getElem _ _ (by simpa using hk), List.getElem_range]
  rw [hrk]

theorem cmul_length (a b : List Int) (S : Nat) : (cmul a b S).length = S := by
  unfold cmul
  simp

/-- The candidates `2, ..., 30` fail the test of `find_root`. -/
theorem find_root_candidates : ∀ r : Nat, r < 31 →
    (r < 2 ∨ ¬ (mod_int.pow_loop 64 ⟨(r : Int)⟩ (mod_int.ctor 1) 8388608).val = 1 ∨
      (mod_int.pow_loop 64 ⟨(r : Int)⟩ (mod_int.ctor 1) 4194304).val = 1) := by
  decide!

theorem toZ_eq_one_iff (x : mod_int) (hx : canonical x) : x.toZ = 1 ↔ x.val = 1 := by
  constructor
  · intro h
    apply canonical_val_eq_of_cast x.val 1 hx (by unfold MOD; omega)
    unfold mod_int.toZ at h
    rw [h]
    norm_num
  · intro h
    unfold mod_int.toZ
    rw [h]
    norm_num

theorem natCast_pow_eq (r : Nat) (hr : r < 31) (p : Nat) (hp : p < 2 ^ 64) :
    ((r : Nat) : ZMod 998244353) ^ p
      = (mod_int.pow_loop 64 ⟨(r : Int)⟩ (mod_int.ctor 1) (p : Int)).toZ := by
  have hc : canonical ⟨(r : Int)⟩ := by unfold canonical MOD; constructor <;> simp only <;> omega
  rw [pow_loop_toZ 64 ⟨(r : Int)⟩ (mod_int.ctor 1) p hc canonical_ctor_one hp, toZ_ctor_one,
    one_mul]
  unfold mod_int.toZ
  simp

/-- No residue `2, ..., 30` passes the test that `find_root` applies. -/
theorem root_least (r : Nat) (h2 : 2 ≤ r) (h31 : r < 31) :
    ¬ (((r : Nat) : ZMod 998244353) ^ 8388608 = 1 ∧ ((r : Nat) : ZMod 998244353) ^ 4194304 ≠ 1) := by
  have hc : canonical ⟨(r : Int)⟩ := by unfold canonical MOD; constructor <;> simp only <;> omega
  rintro ⟨ha, hb⟩
  have e1 := natCast_pow_eq r h31 8388608 (by norm_num)
  have e2 := natCast_pow_eq r h31 4194304 (by norm_num)
  rw [e1] at ha
  rw [e2] at hb
  have c1 := pow_loop_canonical 64 ⟨(r : Int)⟩ (mod_int.ctor 1) ((8388608 : Nat) : Int) hc
    canonical_ctor_one
  have c2 := pow_loop_canonical 64 ⟨(r : Int)⟩ (mod_int.ctor 1) ((4194304 : Nat) : Int) hc
    canonical_ctor_one
  rw [toZ_eq_one_iff _ c1] at ha
  rcases find_root_candidates r h31 with h | h | h
  · omega
  · exact h ha
  · exact hb ((toZ_eq_one_iff _ c2).mpr h)

theorem rootZ_order : orderOf rootZ = 2 ^ 23 := by
  haveI : Fact (Nat.Prime 2) := ⟨Nat.prime_two⟩
  apply orderOf_eq_prime_pow
  · rw [rootZ_pow_half]
    intro h
    have h3 : (2 : ZMod 998244353) = 0 := by linear_combination -h
    have h2 : ((2 : Nat) : ZMod 998244353) = 0 := by exact_mod_cast h3
    rw [ZMod.natCast_zmod_eq_zero_iff_dvd] at h2
    omega
  · exact rootZ_pow_full

/-- A positive `int` that is not a power of two fails the test `is_power_of_two`. -/
theorem is_power_of_two_false (n : Nat) (h0 : 0 < n) (h1 : n < 2147483648)
    (hn : ∀ k, n ≠ 2 ^ k) : NTT.is_power_of_two (n : Int) = false := by
  obtain ⟨t, q, hq, rfl⟩ := Nat.exists_eq_two_pow_mul_odd (by omega : n ≠ 0)
  obtain ⟨r, rfl⟩ := hq
  have hr : r ≠ 0 := by
    intro h
    subst h
    exact hn t (by ring)
  unfold NTT.is_power_of_two
  have hw : wrap32 (((2 ^ t * (2 * r + 1) : Nat) : Int) - 1)
      = ((2 ^ t * (2 * r + 1) - 1 : Nat) : Int) := by
    rw [wrap32_of_range (by omega) (by omega)]
    omega
  rw [hw, and32_natCast _ _ h1, Nat.mod_eq_of_lt (by omega), land_pred]
  have hpos : 0 < 2 ^ (t + 1) * r := Nat.mul_pos (Nat.two_pow_pos _) (by omega)
  have hne : ((2 ^ (t + 1) * r : Nat) : Int) ≠ 0 := by omega
  simpa using hne

/-- A positive length that is not a power of two, or that exceeds `2^23`, makes
`fft_iterative` fail an assertion. -/
theorem fft_iterative_rejects (s : NTT) (hs : s.Inv) (n : Nat) (h0 : 0 < n)
    (h1 : n < 2147483648) (hn : (∀ k, n ≠ 2 ^ k) ∨ 2 ^ 23 < n) (values : List mod_int) :
    NTT.fft_iterative s (n : Int) values = none := by
  unfold NTT.fft_iterative
  by_cases hp : ∀ k, n ≠ 2 ^ k
  · rw [is_power_of_two_false n h0 h1 hp]
    simp
  · have hbig : 2 ^ 23 < n := by
      rcases hn with h | h
      · exact absurd h hp
      · exact h
    split
    · rfl
    · have h1' : ∃ s1, (if s.max_size < 0 then NTT.find_root s else some s) = some s1 ∧
          s1.max_size = 8388608 := by
        rcases hs.2.2 with h | ⟨h, _⟩
        · rw [h, if_pos (by decide), find_root_eq]
          exact ⟨_, rfl, rfl⟩
        · rw [h, if_neg (by decide)]
          exact ⟨s, rfl, h⟩
      obtain ⟨s1, hs1, hm1⟩ := h1'
      have hpr : NTT.prepare_roots s (n : Int) = none := by
        unfold NTT.prepare_roots
        rw [hs1]
        simp only
        rw [if_pos (by rw [hm1]; omega)]
      rw [hpr]

theorem mod_inv_loop_zero (fuel : Nat) (m x y : Int) :
    mod_int.mod_inv_loop fuel m 0 x y = x ∧ mod_inv_exact_loop fuel m 0 x y = some x := by
  cases fuel <;> simp [mod_int.mod_inv_loop, mod_inv_exact_loop]

theorem mod_int_inv_zero : mod_int.inv ⟨0⟩ = ⟨0⟩ := by decide!

theorem mul_assign_zero (a : mod_int) : mod_int.mul_assign a ⟨0⟩ = ⟨0⟩ := by
  unfold mod_int.mul_assign mod_int.fast_mod
  have h0 : u64 (0 : Int) = 0 := u64_of_range (by omega) (by omega)
  have h1 : u32 (0 : Int) = 0 := u32_of_range (by omega) (by omega)
  have h2 : wrap32 (0 : Int) = 0 := wrap32_of_range (by omega) (by omega)
  simp only [h0, mul_zero, Int.zero_emod, h1, h2]

/-! ### Negative exponents of `pow` -/

theorem canonical_zero_mk : canonical ⟨0⟩ := by
  unfold canonical MOD
  constructor <;> simp only <;> omega

theorem toZ_zero_mk : (⟨0⟩ : mod_int).toZ = 0 := by
  unfold mod_int.toZ
  simp

theorem val_ne_zero_of_unit (x : mod_int) (u : ZMod 998244353) (h : x.toZ * u = 1) :
    x.val ≠ 0 := by
  haveI : Fact (1 < 998244353) := ⟨by norm_num⟩
  intro h0
  unfold mod_int.toZ at h
  rw [h0] at h
  simp at h

/-- The member `inv` returns the one inverse there is. -/
theorem toZ_inv_unique (x : mod_int) (hx : canonical x) (u : ZMod 998244353)
    (h : x.toZ * u = 1) : (mod_int.inv x).toZ = u := by
  have h1 := toZ_inv x hx (val_ne_zero_of_unit x u h)
  calc (mod_int.inv x).toZ = (mod_int.inv x).toZ * (x.toZ * u) := by rw [h, mul_one]
    _ = (x.toZ * (mod_int.inv x).toZ) * u := by ring
    _ = u := by rw [h1, one_mul]

theorem pow_loop_one (x : mod_int) (hx : canonical x) :
    mod_int.pow_loop 64 x (mod_int.ctor 1) 1 = x := by
  apply canonical_eq_of_toZ _ _ (pow_loop_canonical _ _ _ _ hx canonical_ctor_one) hx
  have h := pow_loop_toZ 64 x (mod_int.ctor 1) 1 hx canonical_ctor_one (by norm_num)
  rw [toZ_ctor_one, one_mul, pow_one] at h
  exact h

theorem pow_neg_one (x : mod_int) : mod_int.pow 1 x (-1) = some (mod_int.inv x) := by
  rw [pow_neg_eq 0 x (-1) (by omega) (by omega)]
  have : (-(-1) : Int) = 1 := by norm_num
  rw [this, pow_loop_one _ (inv_canonical x)]

/-- For every exponent `e` other than zero and the least 64-bit integer, `a.pow(e).pow(-1)` and
`a.pow(-e)` return the same value. -/
theorem pow_neg_consistent (a : mod_int) (ha : canonical a) (e : Int) (he : e ≠ 0)
    (h1 : -9223372036854775808 < e) (h2 : e < 9223372036854775808) :
    ∃ r1 r2, mod_int.pow 1 a e = some r1 ∧ mod_int.pow 1 r1 (-1) = some r2 ∧
      mod_int.pow 1 a (-e) = some r2 := by
  have hpow : ∀ (x : mod_int) (n : Nat), canonical x → n < 2 ^ 64 →
      canonical (mod_int.pow_loop 64 x (mod_int.ctor 1) (n : Int)) ∧
      (mod_int.pow_loop 64 x (mod_int.ctor 1) (n : Int)).toZ = x.toZ ^ n := by
    intro x n hx hn
    refine ⟨pow_loop_canonical _ _ _ _ hx canonical_ctor_one, ?_⟩
    rw [pow_loop_toZ 64 x _ n hx canonical_ctor_one hn, toZ_ctor_one, one_mul]
  have hkey : ∀ (x y : mod_int) (n : Nat), canonical x → canonical y → n ≠ 0 → n < 2 ^ 64 →
      (x.val = 0 → y.val = 0) → (x.val ≠ 0 → x.toZ * y.toZ = 1) →
      mod_int.inv (mod_int.pow_loop 64 x (mod_int.ctor 1) (n : Int))
        = mod_int.pow_loop 64 y (mod_int.ctor 1) (n : Int) := by
    intro x y n hx hy hn0 hn hz hu
    obtain ⟨cx, zx⟩ := hpow x n hx hn
    obtain ⟨cy, zy⟩ := hpow y n hy hn
    apply canonical_eq_of_toZ _ _ (inv_canonical _) cy
    by_cases h0 : x.val = 0
    · have hx0 : x = ⟨0⟩ := mod_int_eq_of_val _ _ h0
      have hy0 : y = ⟨0⟩ := mod_int_eq_of_val _ _ (hz h0)
      have hr : mod_int.pow_loop 64 x (mod_int.ctor 1) (n : Int) = ⟨0⟩ := by
        apply canonical_eq_of_toZ _ _ cx canonical_zero_mk
        rw [zx, hx0, toZ_zero_mk, zero_pow hn0]
      rw [hr, mod_int_inv_zero, zy, hy0, toZ_zero_mk, zero_pow hn0]
    · rw [zy]
      apply toZ_inv_unique _ cx
      rw [zx, ← mul_pow, hu h0, one_pow]
  have hinv0 : ∀ x : mod_int, x.val = 0 → (mod_int.inv x).val = 0 := by
    intro x hx
    have : x = ⟨0⟩ := mod_int_eq_of_val _ _ hx
    rw [this, mod_int_inv_zero]
  by_cases hpos : 0 < e
  · obtain ⟨n, rfl⟩ := Int.eq_ofNat_of_zero_le (le_of_lt hpos)
    have hn : n < 2 ^ 64 := by omega
    have hn0 : n ≠ 0 := by omega
    refine ⟨_, _, pow_nonneg_eq 1 a _ (by omega), pow_neg_one _, ?_⟩
    rw [pow_neg_eq 0 a (-(n : Int)) (by omega) (by omega), neg_neg]
    congr 1
    exact (hkey a (mod_int.inv a) n ha (inv_canonical a) hn0 hn (hinv0 a)
      (fun h => toZ_inv a ha h)).symm
  · have hneg : e < 0 := by omega
    obtain ⟨n, hn'⟩ := Int.eq_ofNat_of_zero_le (by omega : 0 ≤ -e)
    have hn : n < 2 ^ 64 := by omega
    have hn0 : n ≠ 0 := by omega
    refine ⟨_, _, pow_neg_eq 0 a e hneg h1, pow_neg_one _, ?_⟩
    rw [pow_nonneg_eq 1 a (-e) (by omega), hn']
    congr 1
    apply (hkey (mod_int.inv a) a n (inv_canonical a) ha hn0 hn ?_ ?_).symm
    · intro h
      by_contra hcon
      have := toZ_inv a ha hcon
      exact val_ne_zero_of_unit (mod_int.inv a) a.toZ (by rw [mul_comm]; exact this) h
    · intro _
      by_cases h0 : a.val = 0
      · exfalso
        have := hinv0 a h0
        contradiction
      · rw [mul_comm]; exact toZ_inv a ha h0

/-! ## The claims about `mod_multiply`, the transforms, `mod_power` and `mod_multiply_all` -/

theorem top_first_is_top : IsQueueTop (fun _ => top_first) := by
  intro _ pq
  induction pq with
  | nil => intro h; exact absurd rfl h
  | cons x rest ih =>
    intro _
    by_cases hx : ∀ y ∈ rest, x.length ≤ y.length
    · have e : top_first (x :: rest) = 0 := by rw [top_first, if_pos hx]
      simp only [e]
      refine ⟨by simp, ?_⟩
      intro z hz
      rcases List.mem_cons.mp hz with h | h
      · rw [h]; exact le_refl _
      · exact hx z h
    · have e : top_first (x :: rest) = top_first rest + 1 := by rw [top_first, if_neg hx]
      simp only [e]
      have hne : rest ≠ [] := by
        intro h
        apply hx
        rw [h]
        intro y hy
        simp at hy
      have ih2 := ih hne
      beta_reduce at ih2
      obtain ⟨h1, h2⟩ := ih2
      push_neg at hx
      obtain ⟨y, hy, hlt⟩ := hx
      have hg : (x :: rest).getD (top_first rest + 1) [] = rest.getD (top_first rest) [] := rfl
      rw [hg]
      refine ⟨by simp only [List.length_cons]; omega, ?_⟩
      intro z hz
      rcases List.mem_cons.mp hz with h | h
      · rw [h]
        have := h2 y hy
        omega
      · exact h2 z h

theorem two_pow_least (e e' n : Nat) (h1 : 2 ^ e < 2 * n) (h2 : n ≤ 2 ^ e') : 2 ^ e ≤ 2 ^ e' := by
  by_contra hcon
  have hlt : e' < e := by
    by_contra h
    exact hcon (two_pow_le_of_le (by omega))
  have h3 : 2 ^ (e' + 1) ≤ 2 ^ e := two_pow_le_of_le (by omega)
  rw [pow_succ] at h3
  omega

/-- Claim C1: for non-empty integer sequences of lengths `n` and `m` with `n + m - 1 <= 2^23`
(so that the smallest power of two from `n + m - 1` on does not exceed `max_size`) and for
every reachable state of the engine, `mod_multiply(left, right, false)` returns a sequence of
exactly `n + m - 1` entries, and entry `k` is the canonical residue in `[0, MOD)` of the sum of
`left[i] * right[j]` over `i + j = k`; the state it leaves is reachable again. -/
theorem mod_multiply_convolution (s : NTT) (hs : NTT.Reachable s) (left right : List Int)
    (hl : left ≠ []) (hr : right ≠ []) (hsize : left.length + right.length - 1 ≤ 2 ^ 23) :
    ∃ s' out, NTT.mod_multiply s left right false = some (s', out) ∧ NTT.Reachable s' ∧
      out.length = left.length + right.length - 1 ∧
      ∀ k, k < left.length + right.length - 1 →
        0 ≤ out.getD k 0 ∧ out.getD k 0 < MOD ∧
          out.getD k 0 = conv_coeff left right k % MOD := by
  obtain ⟨s', h, _⟩ := mod_multiply_false_spec s (reachable_inv s hs) left right hl hr hsize
  refine ⟨s', pmul left right, h, ?_, pmul_length left right hl hr, ?_⟩
  · exact NTT.Reachable.mod_multiply s s' left right _ false hs (by simpa using hsize) h
  · intro k _
    rw [pmul_getD left right hl hr k]
    unfold MOD
    refine ⟨by omega, by omega, rfl⟩

theorem mod_multiply_convolution_witness :
    NTT.mod_multiply NTT.init [1, 2, 3] [4, 5, 6] false = some (NTT.init, [4, 13, 28, 27, 18]) ∧
    ∃ s' out, NTT.mod_multiply NTT.init [1, 2, 3] [4, 5, 6] false = some (s', out) ∧
      NTT.Reachable s' ∧ out.length = [1, 2, 3].length + [4, 5, 6].length - 1 ∧
      ∀ k, k < [1, 2, 3].length + [4, 5, 6].length - 1 →
        0 ≤ out.getD k 0 ∧ out.getD k 0 < MOD ∧
          out.getD k 0 = conv_coeff [1, 2, 3] [4, 5, 6] k % MOD :=
  ⟨by decide!, mod_multiply_convolution NTT.init NTT.Reachable.init [1, 2, 3] [4, 5, 6]
    (by decide) (by decide) (by decide)⟩

/-- Claim C2: for non-empty sequences with `max(n, m) <= 2^23` and every reachable state,
`mod_multiply(left, right, true)` returns a sequence whose length `2^e` is the smallest power
of two that is at least `max(n, m)`; entry `k` is the residue of the sum of `left[i] * right[j]`
over `(i + j) mod 2^e = k`, which is entry `k` of the non-circular product plus its entry
`k + 2^e` (zero where there is none), reduced again. -/
theorem mod_multiply_circular (s : NTT) (hs : NTT.Reachable s) (left right : List Int)
    (hl : left ≠ []) (hr : right ≠ []) (hsize : max left.length right.length ≤ 2 ^ 23) :
    ∃ s' out e, NTT.mod_multiply s left right true = some (s', out) ∧ NTT.Reachable s' ∧
      out.length = 2 ^ e ∧ max left.length right.length ≤ 2 ^ e ∧
      (∀ e', max left.length right.length ≤ 2 ^ e' → 2 ^ e ≤ 2 ^ e') ∧
      ∀ k, k < 2 ^ e →
        out.getD k 0 = cconv_coeff left right (2 ^ e) k % MOD ∧
        out.getD k 0
          = ((pmul left right).getD k 0 + (pmul left right).getD (k + 2 ^ e) 0) % MOD := by
  obtain ⟨s', e, h, _, hn, hm, hmin⟩ :=
    mod_multiply_true_spec s (reachable_inv s hs) left right hl hr hsize
  refine ⟨s', cmul left right (2 ^ e), e, h, ?_, cmul_length _ _ _, max_le hn hm, ?_, ?_⟩
  · exact NTT.Reachable.mod_multiply s s' left right _ true hs (by simpa using hsize) h
  · intro e' he'
    exact two_pow_least e e' _ hmin he'
  · intro k hk
    rw [cmul_getD left right (2 ^ e) k hk]
    refine ⟨rfl, ?_⟩
    rw [cconv_eq_conv_add left right (2 ^ e) k hn hm hk, pmul_getD left right hl hr,
      pmul_getD left right hl hr, ← Int.add_emod]

theorem mod_multiply_circular_witness :
    NTT.mod_multiply NTT.init [1, 2, 3] [4, 5, 6] true = some (NTT.init, [22, 13, 28, 27]) ∧
    ∃ s' out e, NTT.mod_multiply NTT.init [1, 2, 3] [4, 5, 6] true = some (s', out) ∧
      NTT.Reachable s' ∧ out.length = 2 ^ e ∧ max [1, 2, 3].length [4, 5, 6].length ≤ 2 ^ e ∧
      (∀ e', max [1, 2, 3].length [4, 5, 6].length ≤ 2 ^ e' → 2 ^ e ≤ 2 ^ e') ∧
      ∀ k, k < 2 ^ e →
        out.getD k 0 = cconv_coeff [1, 2, 3] [4, 5, 6] (2 ^ e) k % MOD ∧
        out.getD k 0 = ((pmul [1, 2, 3] [4, 5, 6]).getD k 0
          + (pmul [1, 2, 3] [4, 5, 6]).getD (k + 2 ^ e) 0) % MOD :=
  ⟨by decide!, mod_multiply_circular NTT.init NTT.Reachable.init [1, 2, 3] [4, 5, 6]
    (by decide) (by decide) (by decide)⟩

/-- Claim C3: the two branches of `mod_multiply` agree. For non-empty vectors of canonical
values of any lengths, for both values of `circular` and every reachable state, the transform
branch run on the output size that `mod_multiply` computes returns exactly the vector that the
brute-force branch returns for that output size, provided the padded transform size does not
exceed `2^23`. -/
theorem mod_multiply_branches_agree (s : NTT) (hs : NTT.Reachable s) (left right : List mod_int)
    (hlc : AllCanonical left) (hrc : AllCanonical right) (hl : left ≠ []) (hr : right ≠ [])
    (circular : Bool)
    (hsize : if circular then max left.length right.length ≤ 2 ^ 23
      else left.length + right.length - 1 ≤ 2 ^ 23) :
    ∃ s', NTT.mod_multiply_transform s left right
        (if circular then NTT.round_up_power_two (int_max (left.length : Int) (right.length : Int))
          else (left.length : Int) + (right.length : Int) - 1)
      = some (s', NTT.mod_multiply_brute left right
        (if circular then NTT.round_up_power_two (int_max (left.length : Int) (right.length : Int))
          else (left.length : Int) + (right.length : Int) - 1)) := by
  have hn : 1 ≤ left.length := List.length_pos.mpr hl
  have hm : 1 ≤ right.length := List.length_pos.mpr hr
  obtain ⟨S, K, hos, hK, hround, hSK, _, hnS, hmS, hc⟩ :=
    output_size_spec left.length right.length hn hm circular hsize
  rw [hos]
  have hcase : S = 2 ^ K ∨ left.length + right.length ≤ S + 1 := by
    cases circular with
    | true => left; simpa using hc.1
    | false => right; simp only [Bool.false_eq_true, if_false] at hc; omega
  obtain ⟨s', h, _⟩ := transform_eq_brute s (reachable_inv s hs) left right hlc hrc K hK S
    hround hSK hnS hmS hcase
  exact ⟨s', h⟩

theorem mod_multiply_branches_agree_witness :
    ∃ s', NTT.mod_multiply_transform NTT.init ([1, 2, 3].map mod_int.ctor)
        ([4, 5, 6].map mod_int.ctor)
        (if true then NTT.round_up_power_two
            (int_max ((([1, 2, 3] : List Int).map mod_int.ctor).length : Int)
              ((([4, 5, 6] : List Int).map mod_int.ctor).length : Int))
          else ((([1, 2, 3] : List Int).map mod_int.ctor).length : Int)
            + ((([4, 5, 6] : List Int).map mod_int.ctor).length : Int) - 1)
      = some (s', NTT.mod_multiply_brute ([1, 2, 3].map mod_int.ctor) ([4, 5, 6].map mod_int.ctor)
        (if true then NTT.round_up_power_two
            (int_max ((([1, 2, 3] : List Int).map mod_int.ctor).length : Int)
              ((([4, 5, 6] : List Int).map mod_int.ctor).length : Int))
          else ((([1, 2, 3] : List Int).map mod_int.ctor).length : Int)
            + ((([4, 5, 6] : List Int).map mod_int.ctor).length : Int) - 1)) :=
  mod_multiply_branches_agree NTT.init NTT.Reachable.init ([1, 2, 3].map mod_int.ctor)
    ([4, 5, 6].map mod_int.ctor) (map_ctor_canonical [1, 2, 3]) (map_ctor_canonical [4, 5, 6])
    (by simp) (by simp) true (by decide)

/-- Claim C4: forward then inverse transform is the identity. For `N = 2^K` with
`1 <= N <= 2^23`, a vector of exactly `N` modular integers and every reachable state,
`fft_iterative(N, values)` followed by `invert_fft(N, values)` returns and leaves the original
vector. -/
theorem fft_then_invert_identity (s : NTT) (hs : NTT.Reachable s) (K : Nat) (hK : K ≤ 23)
    (values : List mod_int) (hlen : values.length = 2 ^ K) (hc : AllCanonical values) :
    ∃ s1 out1 s2, NTT.fft_iterative s ((2 ^ K : Nat) : Int) values = some (s1, out1) ∧
      NTT.invert_fft s1 ((2 ^ K : Nat) : Int) out1 = some (s2, values) := by
  obtain ⟨s1, out1, s2, h1, h2, _⟩ := fft_roundtrip s (reachable_inv s hs) K hK values hlen hc
  exact ⟨s1, out1, s2, h1, h2⟩

theorem fft_then_invert_identity_witness :
    ∃ s1 out1 s2, NTT.fft_iterative NTT.init ((2 ^ 2 : Nat) : Int)
        ([5, 7, 11, 13].map mod_int.ctor) = some (s1, out1) ∧
      NTT.invert_fft s1 ((2 ^ 2 : Nat) : Int) out1
        = some (s2, [5, 7, 11, 13].map mod_int.ctor) :=
  fft_then_invert_identity NTT.init NTT.Reachable.init 2 (by decide)
    ([5, 7, 11, 13].map mod_int.ctor) (by simp) (map_ctor_canonical [5, 7, 11, 13])

/-- Claim C5: for a batch of at least two polynomials whose product has at most `2^23`
coefficients, `mod_multiply_all`, which combines the two sequences that `top()` of the
size-ordered queue returns, gives exactly the sequence that the left-to-right fold of
`mod_multiply` gives, whichever of several shortest sequences each call of `top()` returns. -/
theorem mod_multiply_all_eq_fold (top : Nat → List (List Int) → Nat) (htop : IsQueueTop top)
    (s : NTT) (hs : NTT.Reachable s) (p0 p1 : List Int) (rest : List (List Int))
    (hsize : degsum (p0 :: p1 :: rest) + 1 ≤ 2 ^ 23) :
    ∃ s1 s2 R, NTT.mod_multiply_all top s (p0 :: p1 :: rest) = some (s1, R) ∧
      mod_multiply_fold s p0 (p1 :: rest) = some (s2, R) := by
  have hinv := reachable_inv s hs
  obtain ⟨s1, R1, h1, _, r1, _, c1⟩ := mod_multiply_all_loop_spec top htop
    (p0 :: p1 :: rest).length s (p0 :: p1 :: rest) hinv (by simp) (le_refl _) hsize
  obtain ⟨s2, R2, h2, _, r2, c2⟩ := mod_multiply_fold_spec (p1 :: rest) s p0 hinv hsize
  have heq : R1 = R2 :=
    represents_unique _ _ _ r1 r2 (c1 (by simp)) (c2 (by simp))
  refine ⟨s1, s2, R1, ?_, ?_⟩
  · unfold NTT.mod_multiply_all
    rw [if_neg (by simp)]
    exact h1
  · rw [heq]; exact h2

theorem mod_multiply_all_eq_fold_witness :
    ∃ s1 s2 R, NTT.mod_multiply_all (fun _ => top_first) NTT.init ([1, 1] :: [1, 2] :: [[1, 3]])
        = some (s1, R) ∧
      mod_multiply_fold NTT.init [1, 1] ([1, 2] :: [[1, 3]]) = some (s2, R) :=
  mod_multiply_all_eq_fold (fun _ => top_first) top_first_is_top NTT.init NTT.Reachable.init
    [1, 1] [1, 2] [[1, 3]] (by decide)

/-- Claim C6: `mod_multiply_all` of the empty batch is `[1]`, and of a batch with the single
polynomial `p` it is `p` itself, the empty `p` included; the engine is left as it was. -/
theorem mod_multiply_all_small (top : Nat → List (List Int) → Nat) (htop : IsQueueTop top)
    (s : NTT) (p : List Int) :
    NTT.mod_multiply_all top s [] = some (s, [1]) ∧
      NTT.mod_multiply_all top s [p] = some (s, p) := by
  refine ⟨rfl, ?_⟩
  unfold NTT.mod_multiply_all
  rw [if_neg (by simp)]
  have ht := (htop 1 [p] (by simp)).1
  simp only [List.length_singleton, Nat.lt_one_iff] at ht
  simp only [List.length_singleton, NTT.mod_multiply_all_loop, gt_iff_lt, lt_self_iff_false,
    if_false, Nat.mul_zero, Nat.zero_add, ht]
  rfl

theorem mod_multiply_all_small_witness :
    NTT.mod_multiply_all (fun _ => top_first) NTT.init [] = some (NTT.init, [1]) ∧
      NTT.mod_multiply_all (fun _ => top_first) NTT.init [[]] = some (NTT.init, []) :=
  mod_multiply_all_small (fun _ => top_first) top_first_is_top NTT.init []

/-- Claim C7: `mod_power(v, 0)` is `[1]` for every sequence, the empty one included, and
`mod_power(v, 1)` is `v` for every sequence of canonical values (its length an `int`, as the
code stores every length); the engine is left as it was. -/
theorem mod_power_zero_one (s : NTT) (v : List Int) (hc : IntCanonical v)
    (hlen : v.length < 2147483647) :
    (∀ w : List Int, NTT.mod_power s w 0 = some (s, [1])) ∧
      NTT.mod_power s v 1 = some (s, v) := by
  refine ⟨fun w => rfl, ?_⟩
  have hone : IntCanonical [1] := by
    intro x hx
    simp only [List.mem_singleton] at hx
    rw [hx]; unfold MOD; omega
  have hclz : 31 - builtin_clz 1 + 1 = 1 := by decide!
  have hbit : Int.land ((1 : Int) >>> (0 : Nat)) 1 ≠ 0 := by decide
  unfold NTT.mod_power
  rw [if_neg (by decide), if_neg (by decide), hclz, NTT.mod_power_loop,
    mod_multiply_small s [1] [1] (by decide) (by decide), pmul_one_left [1] hone]
  simp only []
  rw [if_pos hbit, mod_multiply_small s [1] v
    (by simp only [List.length_singleton]; omega)
    (by simp only [List.length_singleton]; omega), pmul_one_left v hc]
  rfl

theorem mod_power_zero_one_witness :
    (∀ w : List Int, NTT.mod_power NTT.init w 0 = some (NTT.init, [1])) ∧
      NTT.mod_power NTT.init [3, 0, 998244352] 1 = some (NTT.init, [3, 0, 998244352]) :=
  mod_power_zero_one NTT.init [3, 0, 998244352] (by decide) (by decide)

/-- Claim C8: `mod_power` computes the repeated product. For every sequence `v`, every
exponent `e >= 0` with `e + 1` an `int` and `(e + 1) * (n - 1) + 1 <= 2^23`, and every
reachable state, `mod_power(v, e)` returns the `e`-fold product, `mod_multiply` of it and `v`
returns what `mod_power(v, e + 1)` returns, and for non-empty `v` this result has
`(e + 1) * (n - 1) + 1` canonical entries and the generating series of `v` to the power
`e + 1`. -/
theorem mod_power_succ (s : NTT) (hs : NTT.Reachable s) (v : List Int) (e : Nat)
    (he : e + 1 < 2 ^ 31) (hsize : (e + 1) * (v.length - 1) + 1 ≤ 2 ^ 23) :
    ∃ s1 s2 s3, NTT.mod_power s v (e : Int) = some (s1, pow_naive v e) ∧
      NTT.mod_multiply s1 (pow_naive v e) v false = some (s2, pow_naive v (e + 1)) ∧
      NTT.mod_power s v ((e + 1 : Nat) : Int) = some (s3, pow_naive v (e + 1)) ∧
      IntCanonical (pow_naive v (e + 1)) ∧
      (v ≠ [] → (pow_naive v (e + 1)).length = (e + 1) * (v.length - 1) + 1 ∧
        PowerSeries.mk (cf (pow_naive v (e + 1))) = PowerSeries.mk (cf v) ^ (e + 1)) := by
  have hinv := reachable_inv s hs
  have hmul : e * (v.length - 1) ≤ (e + 1) * (v.length - 1) :=
    Nat.mul_le_mul_right _ (by omega)
  obtain ⟨s1, h1, hinv1⟩ := mod_power_spec s hinv v e (by omega) (by omega)
  have hlen := represents_length_le _ _ (pow_naive_represents v e)
  rw [degsum_replicate] at hlen
  obtain ⟨s2, h2, _⟩ := mod_multiply_pmul s1 hinv1 (pow_naive v e) v (by
    intro _ hv
    have := List.length_pos.mpr hv
    have e1 : (e + 1) * (v.length - 1) = e * (v.length - 1) + (v.length - 1) := by ring
    omega)
  obtain ⟨s3, h3, _⟩ := mod_power_spec s hinv v (e + 1) he hsize
  refine ⟨s1, s2, s3, h1, h2, h3, pow_naive_canonical v (e + 1), ?_⟩
  intro hv
  have hnot : [] ∉ List.replicate (e + 1) v := by
    intro hm
    exact hv (List.eq_of_mem_replicate hm).symm
  obtain ⟨hl, hp⟩ := (pow_naive_represents v (e + 1)).2 hnot
  refine ⟨by rw [hl, degsum_replicate], ?_⟩
  rw [hp, List.map_replicate, List.prod_replicate]

theorem mod_power_succ_witness :
    ∃ s1 s2 s3, NTT.mod_power NTT.init [1, 1] ((2 : Nat) : Int) = some (s1, pow_naive [1, 1] 2) ∧
      NTT.mod_multiply s1 (pow_naive [1, 1] 2) [1, 1] false
        = some (s2, pow_naive [1, 1] (2 + 1)) ∧
      NTT.mod_power NTT.init [1, 1] ((2 + 1 : Nat) : Int) = some (s3, pow_naive [1, 1] (2 + 1)) ∧
      IntCanonical (pow_naive [1, 1] (2 + 1)) ∧
      (([1, 1] : List Int) ≠ [] →
        (pow_naive [1, 1] (2 + 1)).length = (2 + 1) * (([1, 1] : List Int).length - 1) + 1 ∧
        PowerSeries.mk (cf (pow_naive [1, 1] (2 + 1))) = PowerSeries.mk (cf [1, 1]) ^ (2 + 1)) :=
  mod_power_succ NTT.init NTT.Reachable.init [1, 1] 2 (by decide) (by decide)

/-- Claim C9: the exponent `INT64_MIN` of `pow`. The negation `-p` wraps to `p` itself, every
recursive call meets the same exponent again, and no depth of recursion gives a result: for
this exponent `pow` returns no value, canonical or not. -/
theorem pow_min_exponent_diverges (depth : Nat) (a : mod_int) :
    mod_int.pow depth a (-9223372036854775808) = none := pow_int64_min depth a

/-- The canonical invariant of the modular integers: the constructor and the operators
`+=`, `-=`, `*=`, `/=`, `++`, `--`, unary minus and `inv` give canonical values on canonical
operands, and so does `pow` whenever it returns. -/
theorem mod_int_ops_canonical (a b : mod_int) (ha : canonical a) (hb : canonical b) (v : Int) :
    canonical (mod_int.ctor v) ∧ canonical (mod_int.add_assign a b) ∧
      canonical (mod_int.sub_assign a b) ∧ canonical (mod_int.mul_assign a b) ∧
      canonical (mod_int.div_assign a b) ∧ canonical (mod_int.add a b) ∧
      canonical (mod_int.sub a b) ∧ canonical (mod_int.mul a b) ∧ canonical (mod_int.div a b) ∧
      canonical (mod_int.pre_inc a) ∧ canonical (mod_int.pre_dec a) ∧
      canonical (mod_int.post_inc a).1 ∧ canonical (mod_int.post_inc a).2 ∧
      canonical (mod_int.post_dec a).1 ∧ canonical (mod_int.post_dec a).2 ∧
      canonical (mod_int.neg a) ∧ canonical (mod_int.inv a) ∧
      (∀ p, -9223372036854775808 < p → p < 9223372036854775808 →
        ∃ r, mod_int.pow 1 a p = some r ∧ canonical r) := by
  refine ⟨canonical_ctor v, add_assign_canonical a b ha hb, sub_assign_canonical a b ha hb,
    mul_assign_canonical a b ha hb, div_assign_canonical a b ha,
    add_assign_canonical a b ha hb, sub_assign_canonical a b ha hb,
    mul_assign_canonical a b ha hb, div_assign_canonical a b ha, pre_inc_canonical a ha,
    pre_dec_canonical a ha, ha, pre_inc_canonical a ha, ha, pre_dec_canonical a ha,
    neg_canonical a, inv_canonical a, ?_⟩
  intro p h1 h2
  by_cases hp : p < 0
  · exact ⟨_, pow_neg_eq 0 a p hp h1,
      pow_loop_canonical _ _ _ _ (inv_canonical a) canonical_ctor_one⟩
  · exact ⟨_, pow_nonneg_eq 1 a p (by omega),
      pow_loop_canonical _ _ _ _ ha canonical_ctor_one⟩

/-- Claim C10: for every signed 64-bit integer `v` the constructor stores the non-negative
residue of `v` modulo `MOD`: the one `r` in `[0, MOD)` with `v - r` divisible by `MOD`. -/
theorem ctor_residue (v : Int) (h1 : -9223372036854775808 ≤ v) (h2 : v < 9223372036854775808) :
    0 ≤ (mod_int.ctor v).val ∧ (mod_int.ctor v).val < MOD ∧ MOD ∣ v - (mod_int.ctor v).val ∧
      (mod_int.ctor v).val = v % MOD ∧
      ∀ r : Int, 0 ≤ r → r < MOD → MOD ∣ v - r → r = (mod_int.ctor v).val := by
  have hc := ctor_canonical v h1 h2
  rw [ctor_val_all]
  refine ⟨by unfold MOD; omega, by unfold MOD; omega, ?_, rfl, ?_⟩
  · exact Int.dvd_sub_of_emod_eq rfl
  · intro r hr0 hr1 hd
    obtain ⟨c, hc'⟩ := hd
    unfold MOD at *
    omega

theorem ctor_residue_witness :
    (mod_int.ctor (-9223372036854775808)).val = 532218398 ∧
    (0 ≤ (mod_int.ctor (-9223372036854775808)).val ∧
      (mod_int.ctor (-9223372036854775808)).val < MOD ∧
      MOD ∣ -9223372036854775808 - (mod_int.ctor (-9223372036854775808)).val ∧
      (mod_int.ctor (-9223372036854775808)).val = -9223372036854775808 % MOD ∧
      ∀ r : Int, 0 ≤ r → r < MOD → MOD ∣ -9223372036854775808 - r →
        r = (mod_int.ctor (-9223372036854775808)).val) :=
  ⟨by decide!, ctor_residue (-9223372036854775808) (by decide) (by decide)⟩

/-! ## The claims about the modular integers, the assertions and the table of roots -/

/-- Claim C11: the constructor is compatible with `+`, `-` and `*`, and on canonical operands
the reductions of `+=` and `-=` stay in the range of `int` at every step (so that the wrapped
subtractions are the exact ones) and the product of `*=` stays below `2^64`. -/
theorem ctor_compatible (a b : Int) (x y : mod_int) (hx : canonical x) (hy : canonical y) :
    mod_int.add (mod_int.ctor a) (mod_int.ctor b) = mod_int.ctor (a + b) ∧
    mod_int.sub (mod_int.ctor a) (mod_int.ctor b) = mod_int.ctor (a - b) ∧
    mod_int.mul (mod_int.ctor a) (mod_int.ctor b) = mod_int.ctor (a * b) ∧
    (in_int32 (MOD - y.val) ∧ in_int32 (x.val - (MOD - y.val)) ∧
      in_int32 (x.val - (MOD - y.val) + MOD) ∧
      (mod_int.add_assign x y).val = (if x.val - (MOD - y.val) < 0
        then x.val - (MOD - y.val) + MOD else x.val - (MOD - y.val))) ∧
    (in_int32 (x.val - y.val) ∧ in_int32 (x.val - y.val + MOD) ∧
      (mod_int.sub_assign x y).val = (if x.val - y.val < 0
        then x.val - y.val + MOD else x.val - y.val)) ∧
    (0 ≤ x.val * y.val ∧ x.val * y.val < 18446744073709551616 ∧
      (mod_int.mul_assign x y).val = x.val * y.val % MOD) := by
  have ca := canonical_ctor a
  have cb := canonical_ctor b
  obtain ⟨p0, p1, _⟩ := product_bounds x.val y.val hx hy
  refine ⟨?_, ?_, ?_, ⟨?_, ?_, ?_, ?_⟩, ⟨?_, ?_, ?_⟩, p0, by omega, mul_assign_val x y hx hy⟩
  · apply mod_int_eq_of_val
    show (mod_int.add_assign _ _).val = _
    rw [add_assign_val _ _ ca cb, ctor_val_all, ctor_val_all, ctor_val_all, ← Int.add_emod]
  · apply mod_int_eq_of_val
    show (mod_int.sub_assign _ _).val = _
    rw [sub_assign_val _ _ ca cb, ctor_val_all, ctor_val_all, ctor_val_all, ← Int.sub_emod]
  · apply mod_int_eq_of_val
    show (mod_int.mul_assign _ _).val = _
    rw [mul_assign_val _ _ ca cb, ctor_val_all, ctor_val_all, ctor_val_all, ← Int.mul_emod]
  · unfold in_int32; unfold canonical MOD at *; omega
  · unfold in_int32; unfold canonical MOD at *; omega
  · unfold in_int32; unfold canonical MOD at *; omega
  · rw [add_assign_val x y hx hy]
    unfold canonical MOD at *
    split <;> omega
  · unfold in_int32; unfold canonical MOD at *; omega
  · unfold in_int32; unfold canonical MOD at *; omega
  · rw [sub_assign_val x y hx hy]
    unfold canonical MOD at *
    split <;> omega

theorem ctor_compatible_witness :
    mod_int.add (mod_int.ctor (-5)) (mod_int.ctor 998244360) = mod_int.ctor (-5 + 998244360) ∧
    mod_int.sub (mod_int.ctor (-5)) (mod_int.ctor 998244360) = mod_int.ctor (-5 - 998244360) ∧
    mod_int.mul (mod_int.ctor (-5)) (mod_int.ctor 998244360) = mod_int.ctor (-5 * 998244360) ∧
    (in_int32 (MOD - (⟨998244352⟩ : mod_int).val) ∧
      in_int32 ((⟨0⟩ : mod_int).val - (MOD - (⟨998244352⟩ : mod_int).val)) ∧
      in_int32 ((⟨0⟩ : mod_int).val - (MOD - (⟨998244352⟩ : mod_int).val) + MOD) ∧
      (mod_int.add_assign ⟨0⟩ ⟨998244352⟩).val
        = (if (⟨0⟩ : mod_int).val - (MOD - (⟨998244352⟩ : mod_int).val) < 0
          then (⟨0⟩ : mod_int).val - (MOD - (⟨998244352⟩ : mod_int).val) + MOD
          else (⟨0⟩ : mod_int).val - (MOD - (⟨998244352⟩ : mod_int).val))) ∧
    (in_int32 ((⟨0⟩ : mod_int).val - (⟨998244352⟩ : mod_int).val) ∧
      in_int32 ((⟨0⟩ : mod_int).val - (⟨998244352⟩ : mod_int).val + MOD) ∧
      (mod_int.sub_assign ⟨0⟩ ⟨998244352⟩).val
        = (if (⟨0⟩ : mod_int).val - (⟨998244352⟩ : mod_int).val < 0
          then (⟨0⟩ : mod_int).val - (⟨998244352⟩ : mod_int).val + MOD
          else (⟨0⟩ : mod_int).val - (⟨998244352⟩ : mod_int).val)) ∧
    (0 ≤ (⟨0⟩ : mod_int).val * (⟨998244352⟩ : mod_int).val ∧
      (⟨0⟩ : mod_int).val * (⟨998244352⟩ : mod_int).val < 18446744073709551616 ∧
      (mod_int.mul_assign ⟨0⟩ ⟨998244352⟩).val
        = (⟨0⟩ : mod_int).val * (⟨998244352⟩ : mod_int).val % MOD) :=
  ctor_compatible (-5) 998244360 ⟨0⟩ ⟨998244352⟩ (by decide) (by decide)

/-- Claim C12: for every integer `a` that is nonzero modulo `MOD`,
`ModularInt(a) * ModularInt(a).inv() == ModularInt(1)`: the loop of `mod_inv` ends within its
fuel, no quotient, product or difference in it leaves the range of `int`, nor does the final
`x + m`, and the value returned is the inverse in `[0, MOD)`. -/
theorem inv_is_inverse (a : Int) (ha : a % MOD ≠ 0) :
    mod_int.mul (mod_int.ctor a) (mod_int.inv (mod_int.ctor a)) = mod_int.ctor 1 ∧
    canonical (mod_int.inv (mod_int.ctor a)) ∧
    ∃ x0, mod_inv_exact_loop ((mod_int.ctor a).val.natAbs + 1) MOD (mod_int.ctor a).val 0 1
        = some x0 ∧ in_int32 (x0 + MOD) ∧
      mod_int.mod_inv (mod_int.ctor a).val MOD = (if x0 < 0 then x0 + MOD else x0) ∧
      0 ≤ mod_int.mod_inv (mod_int.ctor a).val MOD ∧
      mod_int.mod_inv (mod_int.ctor a).val MOD < MOD ∧
      ((mod_int.ctor a).val * mod_int.mod_inv (mod_int.ctor a).val MOD) % MOD = 1 := by
  have ca := canonical_ctor a
  have hne : (mod_int.ctor a).val ≠ 0 := by rw [ctor_val_all]; exact ha
  obtain ⟨ci, hmul⟩ := inv_spec (mod_int.ctor a) ca hne
  refine ⟨?_, ci, mod_inv_spec (mod_int.ctor a).val (by have := ca.1; omega) ca.2⟩
  apply mod_int_eq_of_val
  show (mod_int.mul_assign _ _).val = _
  rw [mul_assign_val _ _ ca ci, hmul, ctor_one]

theorem inv_is_inverse_witness :
    mod_int.mul (mod_int.ctor (-3)) (mod_int.inv (mod_int.ctor (-3))) = mod_int.ctor 1 ∧
    canonical (mod_int.inv (mod_int.ctor (-3))) ∧
    ∃ x0, mod_inv_exact_loop ((mod_int.ctor (-3)).val.natAbs + 1) MOD (mod_int.ctor (-3)).val 0 1
        = some x0 ∧ in_int32 (x0 + MOD) ∧
      mod_int.mod_inv (mod_int.ctor (-3)).val MOD = (if x0 < 0 then x0 + MOD else x0) ∧
      0 ≤ mod_int.mod_inv (mod_int.ctor (-3)).val MOD ∧
      mod_int.mod_inv (mod_int.ctor (-3)).val MOD < MOD ∧
      ((mod_int.ctor (-3)).val * mod_int.mod_inv (mod_int.ctor (-3)).val MOD) % MOD = 1 :=
  inv_is_inverse (-3) (by decide)

/-- Claim C13: the exponent `INT64_MIN`. The call `a.pow(e)` on the left of
`a.pow(e).pow(-1) == a.pow(-e)` returns no value at any depth of recursion, so the left side
has no value to compare. -/
theorem pow_pow_min_exponent (d1 d2 : Nat) (a : mod_int) :
    (mod_int.pow d1 a (-9223372036854775808)).bind (fun r => mod_int.pow d2 r (-1)) = none := by
  rw [pow_int64_min]
  rfl

/-- Claim C14: the length `0`. It is not a power of two, yet `is_power_of_two(0)` holds and
`0 <= max_size`, so `fft_iterative(0, values)` on a fresh engine passes both assertions and
returns with `values` as it was. -/
theorem fft_iterative_zero_length :
    NTT.is_power_of_two 0 = true ∧
    NTT.fft_iterative NTT.init 0 []
      = some (⟨[mod_int.ctor 0, mod_int.ctor 1], [], 8388608, ⟨31⟩⟩, []) ∧
    NTT.fft_iterative NTT.init 0 [mod_int.ctor 5, mod_int.ctor 7]
      = some (⟨[mod_int.ctor 0, mod_int.ctor 1], [], 8388608, ⟨31⟩⟩,
        [mod_int.ctor 5, mod_int.ctor 7]) := by
  decide!

/-- Claim C15: circular mode is exact on the fully overlapping window. For non-empty sequences
within the size limit and every index `k` with `min(n, m) - 1 <= k <= max(n, m) - 1`, entry `k`
of `mod_multiply(left, right, true)` exists and equals entry `k` of
`mod_multiply(left, right, false)`. -/
theorem circular_exact_window (s t : NTT) (hs : NTT.Reachable s) (ht : NTT.Reachable t)
    (left right : List Int) (hl : left ≠ []) (hr : right ≠ [])
    (hsize : left.length + right.length - 1 ≤ 2 ^ 23) :
    ∃ s' t' c f, NTT.mod_multiply s left right true = some (s', c) ∧
      NTT.mod_multiply t left right false = some (t', f) ∧
      ∀ k, min left.length right.length - 1 ≤ k → k ≤ max left.length right.length - 1 →
        k < c.length ∧ k < f.length ∧ c.getD k 0 = f.getD k 0 := by
  have hn : 1 ≤ left.length := List.length_pos.mpr hl
  have hm : 1 ≤ right.length := List.length_pos.mpr hr
  obtain ⟨s', e, h1, _, hn1, hm1, _⟩ := mod_multiply_true_spec s (reachable_inv s hs) left right
    hl hr (by omega)
  obtain ⟨t', h2, _⟩ := mod_multiply_false_spec t (reachable_inv t ht) left right hl hr hsize
  refine ⟨s', t', _, _, h1, h2, ?_⟩
  intro k hk1 hk2
  have hkS : k < 2 ^ e := by omega
  refine ⟨by rw [cmul_length]; exact hkS, by rw [pmul_length left right hl hr]; omega, ?_⟩
  rw [cmul_getD left right (2 ^ e) k hkS, pmul_getD left right hl hr k,
    cconv_eq_conv_add left right (2 ^ e) k hn1 hm1 hkS,
    conv_coeff_zero left right (k + 2 ^ e) (by omega), add_zero]

theorem circular_exact_window_witness :
    ∃ s' t' c f, NTT.mod_multiply NTT.init [1, 2, 3] [4, 5] true = some (s', c) ∧
      NTT.mod_multiply NTT.init [1, 2, 3] [4, 5] false = some (t', f) ∧
      ∀ k, min [1, 2, 3].length [4, 5].length - 1 ≤ k →
        k ≤ max [1, 2, 3].length [4, 5].length - 1 →
        k < c.length ∧ k < f.length ∧ c.getD k 0 = f.getD k 0 :=
  circular_exact_window NTT.init NTT.init NTT.Reachable.init NTT.Reachable.init [1, 2, 3] [4, 5]
    (by decide) (by decide) (by decide)

theorem fft_iterative_root (s : NTT) (hs : s.Inv) (K : Nat) (hK : K ≤ 23)
    (values : List mod_int) (hlen : values.length = 2 ^ K) (s' : NTT) (out : List mod_int)
    (h : NTT.fft_iterative s ((2 ^ K : Nat) : Int) values = some (s', out)) :
    s'.max_size = 8388608 ∧ s'.root = ⟨31⟩ := by
  unfold NTT.fft_iterative at h
  rw [is_power_of_two_two_pow K (by omega)] at h
  simp only [not_true_eq_false, if_false] at h
  obtain ⟨s1, hp, hinv1, _, hm1, hroot1, _⟩ := prepare_roots_spec s hs K hK
  rw [hp] at h
  simp only at h
  obtain ⟨s2, v, hb, _, hm2, hroot2, _⟩ :=
    bit_reorder_spec s1 hinv1.2.1 K (by omega) values hlen
  rw [hb] at h
  simp only [Option.some.injEq, Prod.mk.injEq] at h
  rw [← h.1, hm2, hroot2]
  exact ⟨hm1, hroot1⟩

theorem max_size_div (K : Nat) (hK : K ≤ 23) :
    (8388608 : Int).toNat / 2 ^ K = 2 ^ (23 - K) := by
  have h5 : (8388608 : Int).toNat = 2 ^ 23 := by decide
  rw [h5, Nat.pow_div hK (by decide)]

/-- Claim C16: `fft_iterative` computes the discrete Fourier transform. For `N = 2^K` with
`1 <= N <= 2^23`, a vector of `N` modular integers and every reachable state, the call returns
and entry `k` of the vector is the sum over `j < N` of `x[j] * w^(j * k)` modulo `MOD`, with
`w = root ^ (max_size / N)` for the cached `root` and `max_size`. -/
theorem fft_iterative_dft (s : NTT) (hs : NTT.Reachable s) (K : Nat) (hK : K ≤ 23)
    (values : List mod_int) (hlen : values.length = 2 ^ K) (hc : AllCanonical values) :
    ∃ s' out, NTT.fft_iterative s ((2 ^ K : Nat) : Int) values = some (s', out) ∧
      out.length = 2 ^ K ∧ AllCanonical out ∧
      ∀ k, k < 2 ^ K → (out.getD k (mod_int.ctor 0)).toZ
        = ∑ j in Finset.range (2 ^ K), (values.getD j (mod_int.ctor 0)).toZ
            * (s'.root.toZ ^ (s'.max_size.toNat / 2 ^ K)) ^ (j * k) := by
  have hinv := reachable_inv s hs
  obtain ⟨s', out, h, _, ol, oc, oz⟩ := fft_iterative_spec s hinv K hK values hlen hc
  obtain ⟨hm, hroot⟩ := fft_iterative_root s hinv K hK values hlen s' out h
  refine ⟨s', out, h, ol, oc, ?_⟩
  intro k hk
  have := oz k hk
  unfold Zv dft omegaK at this
  rw [this, hm, hroot, toZ_root, max_size_div K hK]

theorem fft_iterative_dft_witness :
    ∃ s' out, NTT.fft_iterative NTT.init ((2 ^ 2 : Nat) : Int) ([5, 7, 11, 13].map mod_int.ctor)
        = some (s', out) ∧
      out.length = 2 ^ 2 ∧ AllCanonical out ∧
      ∀ k, k < 2 ^ 2 → (out.getD k (mod_int.ctor 0)).toZ
        = ∑ j in Finset.range (2 ^ 2),
            (([5, 7, 11, 13].map mod_int.ctor).getD j (mod_int.ctor 0)).toZ
              * (s'.root.toZ ^ (s'.max_size.toNat / 2 ^ 2)) ^ (j * k) :=
  fft_iterative_dft NTT.init NTT.Reachable.init 2 (by decide) ([5, 7, 11, 13].map mod_int.ctor)
    (by simp) (map_ctor_canonical [5, 7, 11, 13])

theorem foldl_max_ge (l : List Nat) : ∀ a : Nat, a ≤ l.foldl max a := by
  induction l with
  | nil => intro a; exact le_refl _
  | cons x l ih =>
    intro a
    simp only [List.foldl_cons]
    exact le_trans (le_max_left a x) (ih _)

/-- Claim C17: the table of roots keeps its layout. From a fresh engine, after the calls
`prepare_roots(2^k)` for the exponents of `ks1` and then of `ks2` (all at most `23`): every call
returns; the length of the table is the largest of `2` and the arguments so far, a power of
two; the entries present after the first calls are unchanged by the later ones; and for every
`l` with `2^(l+1)` at most the length and `i < 2^l`, entry `2^l + i` is the canonical value of
`root ^ ((max_size / 2^(l+1)) * i)`. -/
theorem roots_table_layout (ks1 ks2 : List Nat) (h1 : ∀ k ∈ ks1, k ≤ 23)
    (h2 : ∀ k ∈ ks2, k ≤ 23) :
    ∃ s1 s2, NTT.prepare_roots_seq NTT.init (ks1.map (fun k => ((2 ^ k : Nat) : Int))) = some s1 ∧
      NTT.prepare_roots_seq s1 (ks2.map (fun k => ((2 ^ k : Nat) : Int))) = some s2 ∧
      s1.roots.length = (ks1.map (fun k => 2 ^ k)).foldl max 2 ∧
      s2.roots.length = (ks2.map (fun k => 2 ^ k)).foldl max s1.roots.length ∧
      (∃ L, s2.roots.length = 2 ^ L) ∧
      (∀ p, p < s1.roots.length →
        s2.roots.getD p (mod_int.ctor 0) = s1.roots.getD p (mod_int.ctor 0)) ∧
      AllCanonical s2.roots ∧
      ∀ l i, 2 ^ (l + 1) ≤ s2.roots.length → i < 2 ^ l →
        (s2.roots.getD (2 ^ l + i) (mod_int.ctor 0)).toZ
          = s2.root.toZ ^ ((s2.max_size.toNat / 2 ^ (l + 1)) * i) := by
  obtain ⟨s1, hseq1, hinv1, hlen1, _, hnil1, hset1, _⟩ :=
    prepare_roots_seq_spec ks1 NTT.init init_inv h1
  obtain ⟨s2, hseq2, hinv2, hlen2, hz2, hnil2, hset2, hkeep2⟩ :=
    prepare_roots_seq_spec ks2 s1 hinv1 h2
  have hle : s1.roots.length ≤ s2.roots.length := by
    rw [hlen2]; exact foldl_max_ge _ _
  obtain ⟨L, _, _, hL, _⟩ := hinv2.1.2
  refine ⟨s1, s2, hseq1, hseq2, hlen1, hlen2, ⟨L, hL⟩,
    roots_agree s1.roots s2.roots hinv1.1 hinv2.1 hle hz2, hinv2.1.1, ?_⟩
  intro l i hl hi
  by_cases hk : ks1 = [] ∧ ks2 = []
  · have e2 : s2 = NTT.init := by rw [hnil2 hk.2, hnil1 hk.1]
    rw [e2] at hl ⊢
    have hl0 : l = 0 := by
      by_contra hcon
      have h3 : 2 ^ 2 ≤ 2 ^ (l + 1) := two_pow_le_of_le (by omega)
      have h4 : NTT.init.roots.length = 2 := rfl
      omega
    subst hl0
    have hi0 : i = 0 := by simpa using hi
    subst hi0
    rw [Nat.mul_zero, pow_zero]
    exact toZ_ctor_one
  · have hset : s2.max_size = 8388608 ∧ s2.root = ⟨31⟩ := by
      by_cases hk2 : ks2 = []
      · have hk1 : ks1 ≠ [] := fun h => hk ⟨h, hk2⟩
        exact hkeep2 (hset1 hk1)
      · exact hset2 hk2
    exact roots_layout s2 hinv2 hset.1 hset.2 l i hl hi

theorem roots_table_layout_witness :
    ∃ s1 s2, NTT.prepare_roots_seq NTT.init ([3, 1].map (fun k => ((2 ^ k : Nat) : Int)))
        = some s1 ∧
      NTT.prepare_roots_seq s1 ([4, 2].map (fun k => ((2 ^ k : Nat) : Int))) = some s2 ∧
      s1.roots.length = ([3, 1].map (fun k => 2 ^ k)).foldl max 2 ∧
      s2.roots.length = ([4, 2].map (fun k => 2 ^ k)).foldl max s1.roots.length ∧
      (∃ L, s2.roots.length = 2 ^ L) ∧
      (∀ p, p < s1.roots.length →
        s2.roots.getD p (mod_int.ctor 0) = s1.roots.getD p (mod_int.ctor 0)) ∧
      AllCanonical s2.roots ∧
      ∀ l i, 2 ^ (l + 1) ≤ s2.roots.length → i < 2 ^ l →
        (s2.roots.getD (2 ^ l + i) (mod_int.ctor 0)).toZ
          = s2.root.toZ ^ ((s2.max_size.toNat / 2 ^ (l + 1)) * i) :=
  roots_table_layout [3, 1] [4, 2] (by decide) (by decide)

theorem neg_one_ne_one : (-1 : ZMod 998244353) ≠ 1 := by
  intro h
  have h3 : (2 : ZMod 998244353) = 0 := by linear_combination -h
  have h2 : ((2 : Nat) : ZMod 998244353) = 0 := by exact_mod_cast h3
  rw [ZMod.natCast_zmod_eq_zero_iff_dvd] at h2
  omega

/-- Claim C18: `find_root` returns in every state; it leaves `max_size = 2^23 = 8388608`, the
largest power of two that divides `MOD - 1`, and `root = 31`, which passes the test
`r^max_size == 1 && r^(max_size/2) != 1` that no `r` with `2 <= r < 31` passes; the order of
the root is exactly `max_size`. -/
theorem find_root_result (s : NTT) :
    ∃ s', NTT.find_root s = some s' ∧ s'.max_size = 8388608 ∧ (8388608 : Int) = 2 ^ 23 ∧
      (8388608 : Int) ∣ MOD - 1 ∧ ¬ ((16777216 : Int) ∣ MOD - 1) ∧
      s'.root = ⟨31⟩ ∧ s'.roots = s.roots ∧ s'.bit_reverse = s.bit_reverse ∧
      s'.root.toZ ^ s'.max_size.toNat = 1 ∧ s'.root.toZ ^ (s'.max_size.toNat / 2) ≠ 1 ∧
      (∀ r : Nat, 2 ≤ r → r < 31 →
        ¬ (((r : Nat) : ZMod 998244353) ^ 8388608 = 1 ∧
          ((r : Nat) : ZMod 998244353) ^ 4194304 ≠ 1)) ∧
      orderOf s'.root.toZ = 2 ^ 23 := by
  refine ⟨_, find_root_eq s, rfl, by norm_num, by decide, by decide, rfl, rfl, rfl, ?_, ?_,
    root_least, ?_⟩
  · show (⟨31⟩ : mod_int).toZ ^ (8388608 : Int).toNat = 1
    rw [toZ_root]
    exact rootZ_pow_full
  · show (⟨31⟩ : mod_int).toZ ^ ((8388608 : Int).toNat / 2) ≠ 1
    rw [toZ_root]
    have e : (8388608 : Int).toNat / 2 = 2 ^ 22 := by decide
    rw [e, rootZ_pow_half]
    exact neg_one_ne_one
  · show orderOf (⟨31⟩ : mod_int).toZ = 2 ^ 23
    rw [toZ_root]
    exact rootZ_order

/-- Claim C19: the lazily reduced accumulator never wraps. For vectors of canonical values and
an output size `S` with `n + m <= 2 * S + 1` (both output sizes of `mod_multiply` are such),
every step of the double loop passes its checks: the index from `mod_output_size` is a position
of `result`, the accumulator read is at most `U64_BOUND = 2^64 - 1 - MOD * MOD`, the product is
below `MOD * MOD` and the sum is at most `2^64 - 1`; and every entry returned is the exact sum
of products reduced modulo `MOD`. -/
theorem brute_force_no_wrap (left right : List mod_int) (hl : AllCanonical left)
    (hr : AllCanonical right) (S : Nat) (hS : left.length + right.length ≤ 2 * S + 1)
    (hbig : left.length + right.length < 2147483648) :
    NTT.U64_BOUND = 18446744073709551615 - MOD * MOD ∧
    NTT.mod_multiply_brute_checked left right (S : Int)
      = some (NTT.mod_multiply_brute left right (S : Int)) ∧
    NTT.mod_multiply_brute left right (S : Int)
      = (List.range S).map (fun k =>
          (∑ i in Finset.range left.length, ∑ j in Finset.range right.length,
            if wrap_index S (i + j) = k then
              (left.getD i (mod_int.ctor 0)).val * (right.getD j (mod_int.ctor 0)).val
            else 0) % MOD) := by
  refine ⟨?_, mod_multiply_brute_checked_spec left right hl hr S hS hbig,
    mod_multiply_brute_spec left right hl hr S hS hbig⟩
  rw [U64_BOUND_eq]
  unfold MOD
  norm_num

theorem brute_force_no_wrap_witness :
    NTT.U64_BOUND = 18446744073709551615 - MOD * MOD ∧
    NTT.mod_multiply_brute_checked ([998244352, 998244352].map mod_int.ctor)
        ([998244352, 5].map mod_int.ctor) ((3 : Nat) : Int)
      = some (NTT.mod_multiply_brute ([998244352, 998244352].map mod_int.ctor)
        ([998244352, 5].map mod_int.ctor) ((3 : Nat) : Int)) ∧
    NTT.mod_multiply_brute ([998244352, 998244352].map mod_int.ctor)
        ([998244352, 5].map mod_int.ctor) ((3 : Nat) : Int)
      = (List.range 3).map (fun k =>
          (∑ i in Finset.range (([998244352, 998244352] : List Int).map mod_int.ctor).length,
            ∑ j in Finset.range (([998244352, 5] : List Int).map mod_int.ctor).length,
            if wrap_index 3 (i + j) = k then
              ((([998244352, 998244352] : List Int).map mod_int.ctor).getD i
                  (mod_int.ctor 0)).val
                * ((([998244352, 5] : List Int).map mod_int.ctor).getD j (mod_int.ctor 0)).val
            else 0) % MOD) :=
  brute_force_no_wrap ([998244352, 998244352].map mod_int.ctor)
    ([998244352, 5].map mod_int.ctor) (map_ctor_canonical _) (map_ctor_canonical _) 3
    (by decide) (by decide)

/-- Claim C20: division by zero does not fail. The loop of `mod_inv(0)` ends before its first
iteration, whatever the fuel, and returns `0` with no division carried out;
`ModularInt(0).inv() == ModularInt(0)`, and `a / ModularInt(0) == ModularInt(0)` for every
modular integer `a`. -/
theorem division_by_zero (a : mod_int) (fuel : Nat) :
    mod_int.mod_inv_loop fuel MOD 0 0 1 = 0 ∧ mod_inv_exact_loop fuel MOD 0 0 1 = some 0 ∧
      mod_int.mod_inv 0 MOD = 0 ∧ mod_int.inv (mod_int.ctor 0) = mod_int.ctor 0 ∧
      mod_int.div a (mod_int.ctor 0) = mod_int.ctor 0 ∧
      mod_int.div_assign a (mod_int.ctor 0) = mod_int.ctor 0 := by
  have hz : mod_int.ctor 0 = ⟨0⟩ := by decide!
  have hd : mod_int.div_assign a (mod_int.ctor 0) = mod_int.ctor 0 := by
    unfold mod_int.div_assign
    rw [hz, mod_int_inv_zero, mul_assign_zero]
  refine ⟨(mod_inv_loop_zero fuel MOD 0 1).1, (mod_inv_loop_zero fuel MOD 0 1).2, by decide!,
    by rw [hz]; exact mod_int_inv_zero, hd, hd⟩
